import Mathlib

/-!
Verification of the lazy Fisher-Yates shuffler (binary tree of struck
counts with 64-bit bitmap leaves).  The Python source is embedded
shallowly: mutation becomes explicit state passing, the persistence
manager becomes a function from keys to optional node states, and the
random draw becomes an explicit parameter constrained by the same bound
the code requests from its generator.
-/

namespace LFY

/-- Fuel-driven bit counter; structural recursion so that the kernel can
evaluate it on concrete inputs. -/
def popCountFuel : Nat → Nat → Nat
  | 0, _ => 0
  | fuel + 1, m => if m = 0 then 0 else m % 2 + popCountFuel fuel (m / 2)

/-- Number of set bits in the binary representation of a natural number. -/
def popCount (n : Nat) : Nat := popCountFuel n n

theorem popCountFuel_zero (f : Nat) : popCountFuel f 0 = 0 := by
  cases f <;> rfl

theorem popCountFuel_congr : ∀ f g m : Nat, m ≤ f → m ≤ g →
    popCountFuel f m = popCountFuel g m := by
  intro f
  induction f with
  | zero =>
    intro g m hf _
    interval_cases m
    rw [popCountFuel_zero, popCountFuel_zero]
  | succ f ih =>
    intro g m hf hg
    by_cases hm : m = 0
    · subst hm
      rw [popCountFuel_zero, popCountFuel_zero]
    · obtain ⟨g1, rfl⟩ : ∃ g1, g = g1 + 1 := ⟨g - 1, by omega⟩
      show (if m = 0 then 0 else m % 2 + popCountFuel f (m / 2)) =
        (if m = 0 then 0 else m % 2 + popCountFuel g1 (m / 2))
      rw [if_neg hm, if_neg hm, ih g1 (m / 2) (by omega) (by omega)]

@[simp] theorem popCount_zero : popCount 0 = 0 := rfl

@[simp] theorem popCount_one : popCount 1 = 1 := rfl

theorem popCount_unfold (n : Nat) : popCount n = n % 2 + popCount (n / 2) := by
  by_cases h : n = 0
  · subst h
    rfl
  · obtain ⟨m, rfl⟩ : ∃ m, n = m + 1 := ⟨n - 1, by omega⟩
    show (if m + 1 = 0 then 0 else (m + 1) % 2 + popCountFuel m ((m + 1) / 2)) = _
    rw [if_neg h]
    congr 1
    exact popCountFuel_congr m ((m + 1) / 2) ((m + 1) / 2) (by omega) (by omega)

theorem popCount_two_mul_add (q b : Nat) (hb : b < 2) :
    popCount (2 * q + b) = popCount q + b := by
  rw [popCount_unfold (2 * q + b)]
  have h1 : (2 * q + b) % 2 = b := by omega
  have h2 : (2 * q + b) / 2 = q := by omega
  rw [h1, h2]
  omega

theorem popCount_split (k : Nat) : ∀ a b : Nat, a < 2 ^ k →
    popCount (a + 2 ^ k * b) = popCount a + popCount b := by
  induction k with
  | zero =>
    intro a b ha
    interval_cases a
    simp
  | succ k ih =>
    intro a b ha
    have hsplit : a + 2 ^ (k + 1) * b = 2 * (a / 2 + 2 ^ k * b) + a % 2 := by
      have hpow : 2 ^ (k + 1) = 2 * 2 ^ k := by ring
      rw [hpow]
      set c := 2 ^ k * b with hc
      have hassoc : 2 * 2 ^ k * b = 2 * c := by rw [hc]; ring
      omega
    rw [hsplit, popCount_two_mul_add _ _ (Nat.mod_lt a (by omega)),
      ih (a / 2) b (by omega), popCount_unfold a]
    omega

theorem popCount_le (k : Nat) : ∀ x : Nat, x < 2 ^ k → popCount x ≤ k := by
  induction k with
  | zero =>
    intro x hx
    interval_cases x
    simp
  | succ k ih =>
    intro x hx
    rw [popCount_unfold]
    have hx2 : x / 2 < 2 ^ k := by
      have : 2 ^ (k + 1) = 2 * 2 ^ k := by ring
      omega
    have := ih (x / 2) hx2
    omega

theorem popCount_pos {x : Nat} (hx : x ≠ 0) : 0 < popCount x := by
  induction x using Nat.strong_induction_on with
  | _ x ih =>
    rw [popCount_unfold]
    by_cases h : x % 2 = 1
    · omega
    · have hx2 : x / 2 ≠ 0 := by omega
      have := ih (x / 2) (Nat.div_lt_self (by omega) (by omega)) hx2
      omega

theorem popCount_eq_zero {x : Nat} : popCount x = 0 ↔ x = 0 := by
  constructor
  · intro h
    by_contra hx
    have := popCount_pos hx
    omega
  · intro h
    subst h
    simp

/-- Count of set bits of the field of width len starting at bit lo. -/
def cnt (u lo len : Nat) : Nat := popCount (u / 2 ^ lo % 2 ^ len)

theorem cnt_le (u lo len : Nat) : cnt u lo len ≤ len :=
  popCount_le len _ (Nat.mod_lt _ (Nat.two_pow_pos len))

theorem cnt_split (u lo a b : Nat) :
    cnt u lo (a + b) = cnt u lo a + cnt u (lo + a) b := by
  unfold cnt
  have hmod : u / 2 ^ lo % 2 ^ (a + b) =
      u / 2 ^ lo % 2 ^ a + 2 ^ a * (u / 2 ^ (lo + a) % 2 ^ b) := by
    rw [pow_add, Nat.mod_mul, pow_add, ← Nat.div_div_eq_div_mul]
  rw [hmod, popCount_split a _ _ (Nat.mod_lt _ (Nat.two_pow_pos a))]

theorem cnt_zero_len (u lo : Nat) : cnt u lo 0 = 0 := by
  simp [cnt, Nat.mod_one]

theorem cnt_one (u lo : Nat) : cnt u lo 1 = u / 2 ^ lo % 2 := by
  unfold cnt
  have h : u / 2 ^ lo % 2 ^ 1 = u / 2 ^ lo % 2 := by norm_num
  rw [h]
  rcases Nat.mod_two_eq_zero_or_one (u / 2 ^ lo) with h2 | h2 <;> rw [h2] <;> simp

theorem cnt_one_testBit (u lo : Nat) :
    cnt u lo 1 = (Nat.testBit u lo).toNat := by
  rw [cnt_one, Nat.testBit_to_div_mod]
  rcases Nat.mod_two_eq_zero_or_one (u / 2 ^ lo) with h2 | h2 <;> rw [h2] <;> simp

theorem cnt_of_big (u lo len : Nat) (h : u < 2 ^ lo) : cnt u lo len = 0 := by
  unfold cnt
  rw [Nat.div_eq_of_lt h]
  simp

theorem popCount_eq_cnt (x n : Nat) (hx : x < 2 ^ n) : popCount x = cnt x 0 n := by
  unfold cnt
  rw [pow_zero, Nat.div_one, Nat.mod_eq_of_lt hx]

/-- Weighted sum of n fields of width w, least significant field first.
Used only to reason about the SWAR bit-count words in the terminal search. -/
def fsum (w n : Nat) (f : Nat → Nat) : Nat :=
  ∑ i ∈ Finset.range n, f i * 2 ^ (w * i)

theorem fsum_zero (w : Nat) (f : Nat → Nat) : fsum w 0 f = 0 := by
  simp [fsum]

theorem fsum_succ (w n : Nat) (f : Nat → Nat) :
    fsum w (n + 1) f = fsum w n f + f n * 2 ^ (w * n) := by
  simp [fsum, Finset.sum_range_succ]

theorem fsum_congr {w n : Nat} {f g : Nat → Nat}
    (h : ∀ i, i < n → f i = g i) : fsum w n f = fsum w n g := by
  unfold fsum
  exact Finset.sum_congr rfl (fun i hi => by
    rw [h i (Finset.mem_range.mp hi)])

theorem fsum_head (w n : Nat) (f : Nat → Nat) :
    fsum w (n + 1) f = f 0 + 2 ^ w * fsum w n (fun i => f (i + 1)) := by
  unfold fsum
  rw [Finset.sum_range_succ']
  simp only [Nat.mul_zero, pow_zero, Nat.mul_one]
  rw [Finset.mul_sum, Nat.add_comm]
  congr 1
  apply Finset.sum_congr rfl
  intro i _
  have hpow : 2 ^ (w * (i + 1)) = 2 ^ w * 2 ^ (w * i) := by
    rw [← pow_add]
    congr 1
    ring
  rw [hpow]
  ring

theorem fsum_le {w n : Nat} {f g : Nat → Nat}
    (h : ∀ i, i < n → f i ≤ g i) : fsum w n f ≤ fsum w n g := by
  unfold fsum
  exact Finset.sum_le_sum (fun i hi =>
    Nat.mul_le_mul_right _ (h i (Finset.mem_range.mp hi)))

theorem fsum_add (w n : Nat) (f g : Nat → Nat) :
    fsum w n f + fsum w n g = fsum w n (fun i => f i + g i) := by
  unfold fsum
  rw [← Finset.sum_add_distrib]
  apply Finset.sum_congr rfl
  intro i _
  ring

theorem fsum_sub (w n : Nat) (f g : Nat → Nat) (h : ∀ i, i < n → g i ≤ f i) :
    fsum w n f - fsum w n g = fsum w n (fun i => f i - g i) := by
  have hkey : fsum w n g + fsum w n (fun i => f i - g i) = fsum w n f := by
    rw [fsum_add]
    exact fsum_congr (fun i hi => by
      have := h i hi
      omega)
  omega

theorem fsum_lt (w : Nat) : ∀ (n : Nat) (f : Nat → Nat),
    (∀ i, i < n → f i < 2 ^ w) → fsum w n f < 2 ^ (w * n) := by
  intro n
  induction n with
  | zero =>
    intro f _
    simp [fsum_zero]
  | succ n ih =>
    intro f h
    rw [fsum_succ]
    have h1 : fsum w n f < 2 ^ (w * n) := ih f (fun i hi => h i (by omega))
    have h2 : f n * 2 ^ (w * n) ≤ (2 ^ w - 1) * 2 ^ (w * n) :=
      Nat.mul_le_mul_right _ (by have := h n (by omega); omega)
    have h3 : 2 ^ (w * n) + (2 ^ w - 1) * 2 ^ (w * n) = 2 ^ w * 2 ^ (w * n) := by
      have e1 : 2 ^ (w * n) + (2 ^ w - 1) * 2 ^ (w * n) =
          ((2 ^ w - 1) + 1) * 2 ^ (w * n) := by ring
      have e2 : 2 ^ w - 1 + 1 = 2 ^ w := by
        have := Nat.two_pow_pos w
        omega
      rw [e1, e2]
    have h4 : 2 ^ (w * (n + 1)) = 2 ^ w * 2 ^ (w * n) := by
      rw [← pow_add]
      congr 1
      ring
    omega

theorem fsum_extract (w : Nat) (hw : 0 < w) : ∀ (n : Nat) (f : Nat → Nat),
    (∀ i, i < n → f i < 2 ^ w) → ∀ j : Nat,
    fsum w n f / 2 ^ (w * j) % 2 ^ w = if j < n then f j else 0 := by
  intro n
  induction n with
  | zero =>
    intro f _ j
    simp [fsum_zero]
  | succ n ih =>
    intro f h j
    rw [fsum_succ]
    rcases Nat.lt_trichotomy j n with hj | hj | hj
    · have hexp : w * n = w * j + (w + w * (n - j - 1)) := by
        have hn : n = j + 1 + (n - j - 1) := by omega
        calc w * n = w * (j + 1 + (n - j - 1)) := by rw [← hn]
        _ = w * j + (w + w * (n - j - 1)) := by ring
      have hdvd : f n * 2 ^ (w * n) =
          2 ^ (w * j) * (f n * (2 ^ w * 2 ^ (w * (n - j - 1)))) := by
        have hp : 2 ^ (w * n) = 2 ^ (w * j) * (2 ^ w * 2 ^ (w * (n - j - 1))) := by
          rw [← pow_add, ← pow_add, ← hexp]
        rw [hp]
        ring
      rw [hdvd, Nat.add_mul_div_left _ _ (Nat.two_pow_pos _)]
      have hmul : f n * (2 ^ w * 2 ^ (w * (n - j - 1))) =
          2 ^ w * (f n * 2 ^ (w * (n - j - 1))) := by ring
      rw [hmul, Nat.add_mul_mod_self_left, ih f (fun i hi => h i (by omega)) j,
        if_pos hj, if_pos (by omega : j < n + 1)]
    · subst hj
      have hlt : fsum w j f < 2 ^ (w * j) := fsum_lt w j f (fun i hi => h i (by omega))
      rw [Nat.add_mul_div_right _ _ (Nat.two_pow_pos _), Nat.div_eq_of_lt hlt,
        Nat.zero_add, Nat.mod_eq_of_lt (h j (by omega)), if_pos (by omega : j < j + 1)]
    · have hlt : fsum w (n + 1) f < 2 ^ (w * (n + 1)) :=
        fsum_lt w (n + 1) f h
      have hle : 2 ^ (w * (n + 1)) ≤ 2 ^ (w * j) :=
        Nat.pow_le_pow_right (by omega) (Nat.mul_le_mul_left w (by omega))
      rw [← fsum_succ, Nat.div_eq_of_lt (by omega), if_neg (by omega : ¬ j < n + 1)]
      simp

theorem fsum_shift (w n : Nat) (f : Nat → Nat) (hf0 : f 0 < 2 ^ w) :
    fsum w (n + 1) f / 2 ^ w = fsum w n (fun i => f (i + 1)) := by
  rw [fsum_head, Nat.add_mul_div_left _ _ (Nat.two_pow_pos w),
    Nat.div_eq_of_lt hf0, Nat.zero_add]

theorem fsum_snoc_zero (w n : Nat) (f : Nat → Nat) (h : f n = 0) :
    fsum w (n + 1) f = fsum w n f := by
  rw [fsum_succ, h]
  simp

theorem testBit_fsum (w n : Nat) (hw : 0 < w) (f : Nat → Nat)
    (hf : ∀ i, i < n → f i < 2 ^ w) (q r : Nat) (hr : r < w) :
    (fsum w n f).testBit (w * q + r) = if q < n then (f q).testBit r else false := by
  rw [Nat.testBit_to_div_mod]
  have hsplit : fsum w n f / 2 ^ (w * q + r) = fsum w n f / 2 ^ (w * q) / 2 ^ r := by
    rw [Nat.div_div_eq_div_mul, ← pow_add]
  rw [hsplit]
  have hw2 : 2 ^ r * (2 * 2 ^ (w - r - 1)) = 2 ^ w := by
    have h2 : (2 : Nat) * 2 ^ (w - r - 1) = 2 ^ (1 + (w - r - 1)) := by
      rw [pow_add]
      ring
    rw [h2, ← pow_add]
    congr 1
    omega
  have hmm : fsum w n f / 2 ^ (w * q) / 2 ^ r % 2 =
      fsum w n f / 2 ^ (w * q) % 2 ^ w / 2 ^ r % 2 := by
    rw [← hw2, Nat.mod_mul_right_div_self,
      Nat.mod_mod_of_dvd _ (Dvd.intro _ rfl)]
  rw [hmm, fsum_extract w hw n f hf q]
  by_cases hq : q < n
  · rw [if_pos hq, if_pos hq, Nat.testBit_to_div_mod]
  · rw [if_neg hq, if_neg hq]
    simp

theorem land_split (w a b x y : Nat) (ha : a < 2 ^ w) (hb : b < 2 ^ w) :
    (a + 2 ^ w * x) &&& (b + 2 ^ w * y) = (a &&& b) + 2 ^ w * (x &&& y) := by
  apply Nat.eq_of_testBit_eq
  intro i
  rw [Nat.testBit_and]
  have hcomm1 : a + 2 ^ w * x = 2 ^ w * x + a := by omega
  have hcomm2 : b + 2 ^ w * y = 2 ^ w * y + b := by omega
  have hcomm3 : (a &&& b) + 2 ^ w * (x &&& y) = 2 ^ w * (x &&& y) + (a &&& b) := by
    omega
  rw [hcomm1, hcomm2, hcomm3,
    Nat.testBit_mul_pow_two_add _ ha i,
    Nat.testBit_mul_pow_two_add _ hb i,
    Nat.testBit_mul_pow_two_add _ (Nat.and_lt_two_pow a hb) i]
  by_cases hi : i < w
  · simp [hi, Nat.testBit_and]
  · simp [hi, Nat.testBit_and]

theorem land_fsum (w : Nat) : ∀ (n : Nat) (f g : Nat → Nat),
    (∀ i, i < n → f i < 2 ^ w) → (∀ i, i < n → g i < 2 ^ w) →
    fsum w n f &&& fsum w n g = fsum w n (fun i => f i &&& g i) := by
  intro n
  induction n with
  | zero =>
    intro f g _ _
    simp [fsum_zero]
  | succ n ih =>
    intro f g hf hg
    rw [fsum_head w n f, fsum_head w n g,
      land_split w _ _ _ _ (hf 0 (by omega)) (hg 0 (by omega)),
      ih _ _ (fun i hi => hf (i + 1) (by omega)) (fun i hi => hg (i + 1) (by omega)),
      fsum_head w n (fun i => f i &&& g i)]

theorem fsum_decompose (w : Nat) (hw : 0 < w) : ∀ (n : Nat) (u : Nat),
    u < 2 ^ (w * n) → u = fsum w n (fun i => u / 2 ^ (w * i) % 2 ^ w) := by
  intro n
  induction n with
  | zero =>
    intro u hu
    simp only [Nat.mul_zero, pow_zero, Nat.lt_one_iff] at hu
    simp [hu, fsum_zero]
  | succ n ih =>
    intro u hu
    have hu2 : u / 2 ^ w < 2 ^ (w * n) := by
      rw [Nat.div_lt_iff_lt_mul (Nat.two_pow_pos w), ← pow_add]
      have he : w * n + w = w * (n + 1) := by ring
      rw [he]
      exact hu
    have hrec := ih (u / 2 ^ w) hu2
    rw [fsum_head]
    have hcongr : fsum w n (fun i => u / 2 ^ (w * (i + 1)) % 2 ^ w) =
        fsum w n (fun i => u / 2 ^ w / 2 ^ (w * i) % 2 ^ w) := by
      apply fsum_congr
      intro i _
      rw [Nat.div_div_eq_div_mul, ← pow_add]
      have he : w + w * i = w * (i + 1) := by ring
      rw [he]
    simp only [Nat.mul_zero, pow_zero, Nat.div_one]
    rw [hcongr, ← hrec]
    exact (Nat.mod_add_div u (2 ^ w)).symm

theorem fsum_regroup (w : Nat) : ∀ (n : Nat) (f : Nat → Nat),
    fsum w (2 * n) f = fsum (2 * w) n (fun i => f (2 * i) + 2 ^ w * f (2 * i + 1)) := by
  intro n
  induction n with
  | zero =>
    intro f
    simp [fsum_zero]
  | succ n ih =>
    intro f
    have h2 : 2 * (n + 1) = 2 * n + 1 + 1 := by omega
    rw [h2, fsum_succ, fsum_succ, ih f, fsum_succ]
    have p1 : w * (2 * n) = 2 * w * n := by ring
    have p2 : w * (2 * n + 1) = 2 * w * n + w := by ring
    rw [p1, p2, pow_add]
    ring

theorem fsum_shift_all (w n : Nat) (f : Nat → Nat)
    (hbound : ∀ i, i < n → f i < 2 ^ w) (htop : f n = 0) :
    fsum w n f / 2 ^ w = fsum w n (fun i => f (i + 1)) := by
  cases n with
  | zero =>
    simp [fsum_zero]
  | succ n =>
    rw [fsum_shift w n f (hbound 0 (by omega)),
      fsum_succ w n (fun i => f (i + 1))]
    have hz : f (n + 1) = 0 := htop
    rw [hz]
    simp

theorem land_mask_mod (x n : Nat) : x &&& (2 ^ n - 1) = x % 2 ^ n :=
  Nat.and_pow_two_sub_one_eq_mod x n

theorem land_one (x : Nat) : x &&& 1 = x % 2 := Nat.and_one_is_mod x

theorem land_three (x : Nat) : x &&& 3 = x % 4 := by
  have h := land_mask_mod x 2
  norm_num at h
  exact h

theorem land_seven (x : Nat) : x &&& 7 = x % 8 := by
  have h := land_mask_mod x 3
  norm_num at h
  exact h

theorem land_fifteen (x : Nat) : x &&& 15 = x % 16 := by
  have h := land_mask_mod x 4
  norm_num at h
  exact h

theorem land_thirtyone (x : Nat) : x &&& 31 = x % 32 := by
  have h := land_mask_mod x 5
  norm_num at h
  exact h

theorem land_sixtythree (x : Nat) : x &&& 63 = x % 64 := by
  have h := land_mask_mod x 6
  norm_num at h
  exact h

/-!
The six SWAR bit-count words computed by the terminal branch of
Shuffler._next_value (Figure 5-2 of Hacker's Delight).  bc1 is the
inverted struck bitmap; the word bc2k holds running popcounts of blocks.
-/

def bc1 (bitmap : Nat) : Nat := bitmap ^^^ (2 ^ 64 - 1)

def bc2 (bitmap : Nat) : Nat :=
  bc1 bitmap - (bc1 bitmap >>> 1 &&& 0x5555555555555555)

def bc4 (bitmap : Nat) : Nat :=
  (bc2 bitmap &&& 0x3333333333333333) + (bc2 bitmap >>> 2 &&& 0x3333333333333333)

def bc8 (bitmap : Nat) : Nat :=
  (bc4 bitmap + bc4 bitmap >>> 4) &&& 0x0F0F0F0F0F0F0F0F

def bc16 (bitmap : Nat) : Nat := bc8 bitmap + bc8 bitmap >>> 8

def bc32 (bitmap : Nat) : Nat := bc16 bitmap + bc16 bitmap >>> 16

theorem bc1_lt (bitmap : Nat) (hb : bitmap < 2 ^ 64) : bc1 bitmap < 2 ^ 64 :=
  Nat.xor_lt_two_pow hb (by norm_num)

theorem bc2_eq (bitmap : Nat) (hb : bitmap < 2 ^ 64) :
    bc2 bitmap = fsum 2 32 (fun i => cnt (bc1 bitmap) (2 * i) 2) := by
  set u := bc1 bitmap with hudef
  have hu : u < 2 ^ 64 := bc1_lt bitmap hb
  have hbit : ∀ j : Nat, u / 2 ^ j % 2 < 2 := fun j => Nat.mod_lt _ (by omega)
  have hshift : u >>> 1 &&& 0x5555555555555555 =
      fsum 2 32 (fun i => u / 2 ^ (2 * i) % 4 / 2) := by
    have hdiv : u >>> 1 = fsum 1 64 (fun i => u / 2 ^ (i + 1) % 2) := by
      rw [Nat.shiftRight_eq_div_pow]
      have hlt : u / 2 ^ 1 < 2 ^ (1 * 64) := by
        have hself : u / 2 ^ 1 ≤ u := Nat.div_le_self _ _
        have h64 : (2 : Nat) ^ (1 * 64) = 2 ^ 64 := by norm_num
        omega
      have hdec := fsum_decompose 1 (by omega) 64 (u / 2 ^ 1) hlt
      rw [hdec]
      apply fsum_congr
      intro i _
      rw [Nat.div_div_eq_div_mul, ← pow_add]
      norm_num
      rw [Nat.add_comm 1 i]
    have hmask : (0x5555555555555555 : Nat) =
        fsum 1 64 (fun i => if i % 2 = 0 then 1 else 0) := by decide
    rw [hdiv, hmask, land_fsum 1 64 _ _
      (fun i _ => hbit (i + 1)) (fun i _ => by split <;> omega)]
    have hfields : fsum 1 64
        (fun i => u / 2 ^ (i + 1) % 2 &&& (if i % 2 = 0 then 1 else 0)) =
        fsum 1 64 (fun i => if i % 2 = 0 then u / 2 ^ (i + 1) % 2 else 0) := by
      apply fsum_congr
      intro i _
      by_cases hi : i % 2 = 0
      · simp [hi, land_one, Nat.mod_mod_of_dvd]
      · simp [hi]
    rw [hfields]
    have h64 : fsum 1 64 (fun i => if i % 2 = 0 then u / 2 ^ (i + 1) % 2 else 0) =
        fsum 1 (2 * 32) (fun i => if i % 2 = 0 then u / 2 ^ (i + 1) % 2 else 0) := rfl
    rw [h64, fsum_regroup 1 32]
    apply fsum_congr
    intro i _
    have he : (2 * i) % 2 = 0 := by omega
    have ho : (2 * i + 1) % 2 = 1 := by omega
    simp only [he, ho]
    norm_num
    have hm : u / 2 ^ (2 * i) % 4 / 2 = u / 2 ^ (2 * i + 1) % 2 := by
      have h4 : (4 : Nat) = 2 * 2 := by norm_num
      rw [h4, Nat.mod_mul_right_div_self, Nat.div_div_eq_div_mul, ← pow_succ]
    rw [hm]
  have hdecu : u = fsum 2 32 (fun i => u / 2 ^ (2 * i) % 4) := by
    have hlt : u < 2 ^ (2 * 32) := by norm_num at hu ⊢; exact hu
    have hdec := fsum_decompose 2 (by omega) 32 u hlt
    conv_lhs => rw [hdec]
    apply fsum_congr
    intro i _
    norm_num
  show u - (u >>> 1 &&& 0x5555555555555555) = _
  rw [hshift]
  have hs := fsum_sub 2 32 (fun i => u / 2 ^ (2 * i) % 4)
    (fun i => u / 2 ^ (2 * i) % 4 / 2) (fun i _ => Nat.div_le_self _ _)
  rw [← hdecu] at hs
  rw [hs]
  apply fsum_congr
  intro i _
  have hx : u / 2 ^ (2 * i) % 4 < 4 := Nat.mod_lt _ (by omega)
  have hsub2 : ∀ x : Nat, x < 4 → x - x / 2 = popCount x := by decide
  rw [hsub2 _ hx]
  unfold cnt
  norm_num

theorem bc4_eq (bitmap : Nat) (hb : bitmap < 2 ^ 64) :
    bc4 bitmap = fsum 4 16 (fun i => cnt (bc1 bitmap) (4 * i) 4) := by
  set u := bc1 bitmap with hudef
  have hu : u < 2 ^ 64 := bc1_lt bitmap hb
  have hc2lt : ∀ i : Nat, cnt u (2 * i) 2 < 2 ^ 2 := fun i => by
    have := cnt_le u (2 * i) 2
    omega
  have hc2top : cnt u (2 * 32) 2 = 0 := cnt_of_big u 64 2 hu
  have hM4 : (0x3333333333333333 : Nat) =
      fsum 2 32 (fun i => if i % 2 = 0 then 3 else 0) := by decide
  have hmasklt : ∀ i : Nat, (if i % 2 = 0 then 3 else 0) < 2 ^ 2 := fun i => by
    split <;> omega
  have hX1 : bc2 bitmap &&& 0x3333333333333333 =
      fsum 2 32 (fun i => if i % 2 = 0 then cnt u (2 * i) 2 else 0) := by
    rw [bc2_eq bitmap hb, hM4,
      land_fsum 2 32 _ _ (fun i _ => hc2lt i) (fun i _ => hmasklt i)]
    apply fsum_congr
    intro i _
    by_cases hi : i % 2 = 0
    · simp only [hi, if_pos]
      rw [land_three, Nat.mod_eq_of_lt (by have := hc2lt i; omega)]
    · simp [hi]
  have hX2 : bc2 bitmap >>> 2 &&& 0x3333333333333333 =
      fsum 2 32 (fun i => if i % 2 = 0 then cnt u (2 * (i + 1)) 2 else 0) := by
    have hshift : bc2 bitmap >>> 2 = fsum 2 32 (fun i => cnt u (2 * (i + 1)) 2) := by
      rw [Nat.shiftRight_eq_div_pow, bc2_eq bitmap hb]
      exact fsum_shift_all 2 32 _ (fun i _ => hc2lt i) hc2top
    rw [hshift, hM4,
      land_fsum 2 32 _ _ (fun i _ => hc2lt (i + 1)) (fun i _ => hmasklt i)]
    apply fsum_congr
    intro i _
    by_cases hi : i % 2 = 0
    · simp only [hi, if_pos]
      rw [land_three, Nat.mod_eq_of_lt (by have := hc2lt (i + 1); omega)]
    · simp [hi]
  show (bc2 bitmap &&& 0x3333333333333333) +
    (bc2 bitmap >>> 2 &&& 0x3333333333333333) = _
  rw [hX1, hX2, fsum_add]
  have hcomb : fsum 2 32 (fun i =>
      (if i % 2 = 0 then cnt u (2 * i) 2 else 0) +
      (if i % 2 = 0 then cnt u (2 * (i + 1)) 2 else 0)) =
      fsum 2 32 (fun i => if i % 2 = 0 then
        cnt u (2 * i) 2 + cnt u (2 * (i + 1)) 2 else 0) := by
    apply fsum_congr
    intro i _
    by_cases hi : i % 2 = 0 <;> simp [hi]
  rw [hcomb]
  have h32 : fsum 2 32 (fun i => if i % 2 = 0 then
      cnt u (2 * i) 2 + cnt u (2 * (i + 1)) 2 else 0) =
      fsum 2 (2 * 16) (fun i => if i % 2 = 0 then
      cnt u (2 * i) 2 + cnt u (2 * (i + 1)) 2 else 0) := rfl
  rw [h32, fsum_regroup 2 16]
  apply fsum_congr
  intro i _
  have he : (2 * i) % 2 = 0 := by omega
  have ho : (2 * i + 1) % 2 = 1 := by omega
  simp only [he, ho]
  norm_num
  have hsplit : cnt u (4 * i) 4 = cnt u (4 * i) 2 + cnt u (4 * i + 2) 2 := by
    have h4 : (4 : Nat) = 2 + 2 := by norm_num
    conv_lhs => rw [h4, cnt_split]
  rw [hsplit]
  have e1 : 2 * (2 * i) = 4 * i := by ring
  have e2 : 2 * (2 * i + 1) = 4 * i + 2 := by ring
  rw [e1, e2]

theorem bc8_eq (bitmap : Nat) (hb : bitmap < 2 ^ 64) :
    bc8 bitmap = fsum 8 8 (fun i => cnt (bc1 bitmap) (8 * i) 8) := by
  have hu : bc1 bitmap < 2 ^ 64 := bc1_lt bitmap hb
  have hc4lt : ∀ i : Nat, cnt (bc1 bitmap) (4 * i) 4 < 2 ^ 4 := fun i => by
    have := cnt_le (bc1 bitmap) (4 * i) 4
    omega
  have hc4top : cnt (bc1 bitmap) (4 * 16) 4 = 0 := cnt_of_big _ 64 4 hu
  have hshift : bc4 bitmap >>> 4 =
      fsum 4 16 (fun i => cnt (bc1 bitmap) (4 * (i + 1)) 4) := by
    rw [Nat.shiftRight_eq_div_pow, bc4_eq bitmap hb]
    exact fsum_shift_all 4 16 _ (fun i _ => hc4lt i) hc4top
  have hsum : bc4 bitmap + bc4 bitmap >>> 4 =
      fsum 4 16 (fun i => cnt (bc1 bitmap) (4 * i) 4 + cnt (bc1 bitmap) (4 * (i + 1)) 4) := by
    rw [hshift, bc4_eq bitmap hb, fsum_add]
  have hslt : ∀ i : Nat,
      cnt (bc1 bitmap) (4 * i) 4 + cnt (bc1 bitmap) (4 * (i + 1)) 4 < 2 ^ 4 := fun i => by
    have h1 := cnt_le (bc1 bitmap) (4 * i) 4
    have h2 := cnt_le (bc1 bitmap) (4 * (i + 1)) 4
    omega
  have hM8 : (0x0F0F0F0F0F0F0F0F : Nat) =
      fsum 4 16 (fun i => if i % 2 = 0 then 15 else 0) := by decide
  show (bc4 bitmap + bc4 bitmap >>> 4) &&& 0x0F0F0F0F0F0F0F0F = _
  rw [hsum, hM8, land_fsum 4 16 _ _ (fun i _ => hslt i)
    (fun i _ => by split <;> omega)]
  have hfields : fsum 4 16 (fun i =>
      (cnt (bc1 bitmap) (4 * i) 4 + cnt (bc1 bitmap) (4 * (i + 1)) 4) &&&
        (if i % 2 = 0 then 15 else 0)) =
      fsum 4 16 (fun i => if i % 2 = 0 then
        cnt (bc1 bitmap) (4 * i) 4 + cnt (bc1 bitmap) (4 * (i + 1)) 4 else 0) := by
    apply fsum_congr
    intro i _
    by_cases hi : i % 2 = 0
    · simp only [hi, if_pos]
      rw [land_fifteen, Nat.mod_eq_of_lt (by have := hslt i; omega)]
    · simp [hi]
  rw [hfields]
  have h16 : fsum 4 16 (fun i => if i % 2 = 0 then
      cnt (bc1 bitmap) (4 * i) 4 + cnt (bc1 bitmap) (4 * (i + 1)) 4 else 0) =
      fsum 4 (2 * 8) (fun i => if i % 2 = 0 then
      cnt (bc1 bitmap) (4 * i) 4 + cnt (bc1 bitmap) (4 * (i + 1)) 4 else 0) := rfl
  rw [h16, fsum_regroup 4 8]
  apply fsum_congr
  intro i _
  have he : (2 * i) % 2 = 0 := by omega
  have ho : (2 * i + 1) % 2 = 1 := by omega
  simp only [he, ho]
  norm_num
  have hsplit : cnt (bc1 bitmap) (8 * i) 8 =
      cnt (bc1 bitmap) (8 * i) 4 + cnt (bc1 bitmap) (8 * i + 4) 4 := by
    have h8 : (8 : Nat) = 4 + 4 := by norm_num
    conv_lhs => rw [h8, cnt_split]
  rw [hsplit]
  have e1 : 4 * (2 * i) = 8 * i := by ring
  have e2 : 4 * (2 * i + 1) = 8 * i + 4 := by ring
  rw [e1, e2]

theorem bc16_eq (bitmap : Nat) (hb : bitmap < 2 ^ 64) :
    bc16 bitmap = fsum 8 8
      (fun i => cnt (bc1 bitmap) (8 * i) 8 + cnt (bc1 bitmap) (8 * (i + 1)) 8) := by
  have hu : bc1 bitmap < 2 ^ 64 := bc1_lt bitmap hb
  have hc8lt : ∀ i : Nat, cnt (bc1 bitmap) (8 * i) 8 < 2 ^ 8 := fun i => by
    have := cnt_le (bc1 bitmap) (8 * i) 8
    omega
  have hc8top : cnt (bc1 bitmap) (8 * 8) 8 = 0 := cnt_of_big _ 64 8 hu
  have hshift : bc8 bitmap >>> 8 =
      fsum 8 8 (fun i => cnt (bc1 bitmap) (8 * (i + 1)) 8) := by
    rw [Nat.shiftRight_eq_div_pow, bc8_eq bitmap hb]
    exact fsum_shift_all 8 8 _ (fun i _ => hc8lt i) hc8top
  show bc8 bitmap + bc8 bitmap >>> 8 = _
  rw [hshift, bc8_eq bitmap hb, fsum_add]

theorem bc32_eq (bitmap : Nat) (hb : bitmap < 2 ^ 64) :
    bc32 bitmap = fsum 8 8 (fun i =>
      (cnt (bc1 bitmap) (8 * i) 8 + cnt (bc1 bitmap) (8 * (i + 1)) 8) +
      (cnt (bc1 bitmap) (8 * (i + 2)) 8 + cnt (bc1 bitmap) (8 * (i + 3)) 8)) := by
  have hu : bc1 bitmap < 2 ^ 64 := bc1_lt bitmap hb
  have hdlt : ∀ i : Nat,
      cnt (bc1 bitmap) (8 * i) 8 + cnt (bc1 bitmap) (8 * (i + 1)) 8 < 2 ^ 8 := fun i => by
    have h1 := cnt_le (bc1 bitmap) (8 * i) 8
    have h2 := cnt_le (bc1 bitmap) (8 * (i + 1)) 8
    omega
  have hzero : ∀ m : Nat, 8 ≤ m → cnt (bc1 bitmap) (8 * m) 8 = 0 := fun m hm => by
    apply cnt_of_big
    calc bc1 bitmap < 2 ^ 64 := hu
    _ ≤ 2 ^ (8 * m) := Nat.pow_le_pow_right (by omega) (by omega)
  have htop1 : cnt (bc1 bitmap) (8 * 8) 8 + cnt (bc1 bitmap) (8 * (8 + 1)) 8 = 0 := by
    rw [hzero 8 (by omega), hzero (8 + 1) (by omega)]
  have htop2 : cnt (bc1 bitmap) (8 * (8 + 1)) 8 +
      cnt (bc1 bitmap) (8 * (8 + 1 + 1)) 8 = 0 := by
    rw [hzero (8 + 1) (by omega), hzero (8 + 1 + 1) (by omega)]
  have hshift : bc16 bitmap >>> 16 = fsum 8 8 (fun i =>
      cnt (bc1 bitmap) (8 * (i + 2)) 8 + cnt (bc1 bitmap) (8 * (i + 3)) 8) := by
    rw [Nat.shiftRight_eq_div_pow, bc16_eq bitmap hb]
    have h16 : (2 : Nat) ^ 16 = 2 ^ 8 * 2 ^ 8 := by norm_num
    rw [h16, ← Nat.div_div_eq_div_mul,
      fsum_shift_all 8 8 _ (fun i _ => hdlt i) htop1,
      fsum_shift_all 8 8 _ (fun i _ => hdlt (i + 1)) htop2]
  show bc16 bitmap + bc16 bitmap >>> 16 = _
  rw [hshift, bc16_eq bitmap hb, fsum_add]

theorem extract1 (bitmap tv : Nat) :
    bc1 bitmap >>> tv &&& 0x01 = cnt (bc1 bitmap) tv 1 := by
  rw [Nat.shiftRight_eq_div_pow, land_one, cnt_one]

theorem extract2 (bitmap tv : Nat) (hb : bitmap < 2 ^ 64)
    (htv : tv % 2 = 0) (h64 : tv < 64) :
    bc2 bitmap >>> tv &&& 0x03 = cnt (bc1 bitmap) tv 2 := by
  obtain ⟨j, rfl⟩ : ∃ j, tv = 2 * j := ⟨tv / 2, by omega⟩
  have hj : j < 32 := by omega
  have hbound : ∀ i, i < 32 → cnt (bc1 bitmap) (2 * i) 2 < 2 ^ 2 := fun i _ => by
    have := cnt_le (bc1 bitmap) (2 * i) 2
    omega
  have he := fsum_extract 2 (by omega) 32 _ hbound j
  rw [if_pos hj] at he
  rw [Nat.shiftRight_eq_div_pow, land_three, bc2_eq bitmap hb]
  have h4 : (4 : Nat) = 2 ^ 2 := by norm_num
  rw [h4, he]

theorem extract4 (bitmap tv : Nat) (hb : bitmap < 2 ^ 64)
    (htv : tv % 4 = 0) (h64 : tv < 64) :
    bc4 bitmap >>> tv &&& 0x07 = cnt (bc1 bitmap) tv 4 := by
  obtain ⟨j, rfl⟩ : ∃ j, tv = 4 * j := ⟨tv / 4, by omega⟩
  have hj : j < 16 := by omega
  have hbound : ∀ i, i < 16 → cnt (bc1 bitmap) (4 * i) 4 < 2 ^ 4 := fun i _ => by
    have := cnt_le (bc1 bitmap) (4 * i) 4
    omega
  have he := fsum_extract 4 (by omega) 16 _ hbound j
  rw [if_pos hj] at he
  rw [Nat.shiftRight_eq_div_pow, land_seven, bc4_eq bitmap hb]
  calc fsum 4 16 (fun i => cnt (bc1 bitmap) (4 * i) 4) / 2 ^ (4 * j) % 8
      = fsum 4 16 (fun i => cnt (bc1 bitmap) (4 * i) 4) / 2 ^ (4 * j) % 2 ^ 4 % 8 :=
        (Nat.mod_mod_of_dvd _ (by norm_num)).symm
    _ = cnt (bc1 bitmap) (4 * j) 4 % 8 := by rw [he]
    _ = cnt (bc1 bitmap) (4 * j) 4 :=
        Nat.mod_eq_of_lt (by have := cnt_le (bc1 bitmap) (4 * j) 4; omega)

theorem extract8 (bitmap tv : Nat) (hb : bitmap < 2 ^ 64)
    (htv : tv % 8 = 0) (h64 : tv < 64) :
    bc8 bitmap >>> tv &&& 0x0F = cnt (bc1 bitmap) tv 8 := by
  obtain ⟨j, rfl⟩ : ∃ j, tv = 8 * j := ⟨tv / 8, by omega⟩
  have hj : j < 8 := by omega
  have hbound : ∀ i, i < 8 → cnt (bc1 bitmap) (8 * i) 8 < 2 ^ 8 := fun i _ => by
    have := cnt_le (bc1 bitmap) (8 * i) 8
    omega
  have he := fsum_extract 8 (by omega) 8 _ hbound j
  rw [if_pos hj] at he
  rw [Nat.shiftRight_eq_div_pow, land_fifteen, bc8_eq bitmap hb]
  calc fsum 8 8 (fun i => cnt (bc1 bitmap) (8 * i) 8) / 2 ^ (8 * j) % 16
      = fsum 8 8 (fun i => cnt (bc1 bitmap) (8 * i) 8) / 2 ^ (8 * j) % 2 ^ 8 % 16 :=
        (Nat.mod_mod_of_dvd _ (by norm_num)).symm
    _ = cnt (bc1 bitmap) (8 * j) 8 % 16 := by rw [he]
    _ = cnt (bc1 bitmap) (8 * j) 8 :=
        Nat.mod_eq_of_lt (by have := cnt_le (bc1 bitmap) (8 * j) 8; omega)

theorem extract16 (bitmap tv : Nat) (hb : bitmap < 2 ^ 64)
    (htv : tv % 8 = 0) (h64 : tv < 64) :
    bc16 bitmap >>> tv &&& 0x1F = cnt (bc1 bitmap) tv 16 := by
  obtain ⟨j, rfl⟩ : ∃ j, tv = 8 * j := ⟨tv / 8, by omega⟩
  have hj : j < 8 := by omega
  have hbound : ∀ i, i < 8 →
      cnt (bc1 bitmap) (8 * i) 8 + cnt (bc1 bitmap) (8 * (i + 1)) 8 < 2 ^ 8 :=
    fun i _ => by
      have h1 := cnt_le (bc1 bitmap) (8 * i) 8
      have h2 := cnt_le (bc1 bitmap) (8 * (i + 1)) 8
      omega
  have he := fsum_extract 8 (by omega) 8 _ hbound j
  rw [if_pos hj] at he
  rw [Nat.shiftRight_eq_div_pow, land_thirtyone, bc16_eq bitmap hb]
  have hval : cnt (bc1 bitmap) (8 * j) 8 + cnt (bc1 bitmap) (8 * (j + 1)) 8 =
      cnt (bc1 bitmap) (8 * j) 16 := by
    have h16 : (16 : Nat) = 8 + 8 := by norm_num
    rw [h16, cnt_split]
    have e1 : 8 * j + 8 = 8 * (j + 1) := by ring
    rw [e1]
  calc fsum 8 8 (fun i => cnt (bc1 bitmap) (8 * i) 8 +
        cnt (bc1 bitmap) (8 * (i + 1)) 8) / 2 ^ (8 * j) % 32
      = fsum 8 8 (fun i => cnt (bc1 bitmap) (8 * i) 8 +
        cnt (bc1 bitmap) (8 * (i + 1)) 8) / 2 ^ (8 * j) % 2 ^ 8 % 32 :=
        (Nat.mod_mod_of_dvd _ (by norm_num)).symm
    _ = (cnt (bc1 bitmap) (8 * j) 8 + cnt (bc1 bitmap) (8 * (j + 1)) 8) % 32 := by
        rw [he]
    _ = cnt (bc1 bitmap) (8 * j) 8 + cnt (bc1 bitmap) (8 * (j + 1)) 8 :=
        Nat.mod_eq_of_lt (by
          have h1 := cnt_le (bc1 bitmap) (8 * j) 8
          have h2 := cnt_le (bc1 bitmap) (8 * (j + 1)) 8
          omega)
    _ = cnt (bc1 bitmap) (8 * j) 16 := hval

theorem extract32 (bitmap : Nat) (hb : bitmap < 2 ^ 64) :
    bc32 bitmap &&& 0x3F = cnt (bc1 bitmap) 0 32 := by
  have hbound : ∀ i, i < 8 →
      (cnt (bc1 bitmap) (8 * i) 8 + cnt (bc1 bitmap) (8 * (i + 1)) 8) +
      (cnt (bc1 bitmap) (8 * (i + 2)) 8 + cnt (bc1 bitmap) (8 * (i + 3)) 8) < 2 ^ 8 :=
    fun i _ => by
      have h1 := cnt_le (bc1 bitmap) (8 * i) 8
      have h2 := cnt_le (bc1 bitmap) (8 * (i + 1)) 8
      have h3 := cnt_le (bc1 bitmap) (8 * (i + 2)) 8
      have h4 := cnt_le (bc1 bitmap) (8 * (i + 3)) 8
      omega
  have he := fsum_extract 8 (by omega) 8 _ hbound 0
  rw [if_pos (by omega)] at he
  norm_num at he
  rw [land_sixtythree, bc32_eq bitmap hb]
  have hmm : fsum 8 8 (fun i =>
      (cnt (bc1 bitmap) (8 * i) 8 + cnt (bc1 bitmap) (8 * (i + 1)) 8) +
      (cnt (bc1 bitmap) (8 * (i + 2)) 8 + cnt (bc1 bitmap) (8 * (i + 3)) 8)) % 64 =
      fsum 8 8 (fun i =>
      (cnt (bc1 bitmap) (8 * i) 8 + cnt (bc1 bitmap) (8 * (i + 1)) 8) +
      (cnt (bc1 bitmap) (8 * (i + 2)) 8 + cnt (bc1 bitmap) (8 * (i + 3)) 8)) % 256 % 64 :=
    (Nat.mod_mod_of_dvd _ (by norm_num)).symm
  rw [hmm, he]
  have e1 := cnt_split (bc1 bitmap) 0 8 24
  norm_num at e1
  have e2 := cnt_split (bc1 bitmap) 8 8 16
  norm_num at e2
  have e3 := cnt_split (bc1 bitmap) 16 8 8
  norm_num at e3
  have h1 := cnt_le (bc1 bitmap) 0 8
  have h2 := cnt_le (bc1 bitmap) 8 8
  have h3 := cnt_le (bc1 bitmap) 16 8
  have h4 := cnt_le (bc1 bitmap) 24 8
  omega

theorem or_pow_eq_add (tv j : Nat) (htv : tv % 2 ^ (j + 1) = 0) :
    tv ||| 2 ^ j = tv + 2 ^ j := by
  obtain ⟨m, hm⟩ := Nat.dvd_of_mod_eq_zero htv
  subst hm
  have hb : (2 : Nat) ^ j < 2 ^ (j + 1) := Nat.pow_lt_pow_succ (by omega)
  exact (Nat.mul_add_lt_is_or hb m).symm

/-- One block of the unrolled binary search in the terminal branch of
Shuffler._next_value: rbc is the extracted low-half bit count; when it
does not exceed the remaining incremental value the target lies in the
upper half, so the block subtracts rbc and records the block bit with a
bitwise or. -/
def tsStep (rbc k tv bit : Nat) : Nat × Nat :=
  if rbc ≤ k then (k - rbc, tv ||| bit) else (k, tv)

/-- Terminal selection of Shuffler._next_value: six unrolled blocks over
the SWAR popcount words, returning the selected bit index
(terminal_value) and the final remaining incremental value. -/
def terminalStep (bitmap k : Nat) : Nat × Nat :=
  let s1 := tsStep (bc32 bitmap &&& 0x3F) k 0 0x20
  let s2 := tsStep (bc16 bitmap >>> s1.2 &&& 0x1F) s1.1 s1.2 0x10
  let s3 := tsStep (bc8 bitmap >>> s2.2 &&& 0x0F) s2.1 s2.2 0x08
  let s4 := tsStep (bc4 bitmap >>> s3.2 &&& 0x07) s3.1 s3.2 0x04
  let s5 := tsStep (bc2 bitmap >>> s4.2 &&& 0x03) s4.1 s4.2 0x02
  let s6 := tsStep (bc1 bitmap >>> s5.2 &&& 0x01) s5.1 s5.2 0x01
  (s6.2, s6.1)

theorem tsStep_spec (u k tv h rbc : Nat)
    (hrbc : rbc = cnt u tv h)
    (hor : tv ||| h = tv + h)
    (halign : tv % (2 * h) = 0)
    (htv : tv + 2 * h ≤ 64)
    (hk : k < cnt u tv h + cnt u (tv + h) h) :
    (tsStep rbc k tv h).1 < cnt u (tsStep rbc k tv h).2 h ∧
    cnt u 0 (tsStep rbc k tv h).2 + (tsStep rbc k tv h).1 = cnt u 0 tv + k ∧
    (tsStep rbc k tv h).2 % h = 0 ∧ (tsStep rbc k tv h).2 + h ≤ 64 := by
  obtain ⟨m, hm⟩ := Nat.dvd_of_mod_eq_zero halign
  have hzsplit : cnt u 0 (tv + h) = cnt u 0 tv + cnt u tv h := by
    simpa using cnt_split u 0 tv h
  unfold tsStep
  by_cases hle : rbc ≤ k
  · rw [if_pos hle]
    dsimp only
    rw [hor]
    refine ⟨by omega, by omega, ?_, by omega⟩
    rw [hm]
    have he : 2 * h * m + h = h * (2 * m + 1) := by ring
    rw [he, Nat.mul_mod_right]
  · rw [if_neg hle]
    dsimp only
    refine ⟨by omega, by omega, ?_, by omega⟩
    rw [hm]
    have he : 2 * h * m = h * (2 * m) := by ring
    rw [he, Nat.mul_mod_right]

theorem cnt_compl (x : Nat) (hx : x < 2 ^ 64) : ∀ tv : Nat, tv ≤ 64 →
    cnt (bc1 x) 0 tv + cnt x 0 tv = tv := by
  intro tv
  induction tv with
  | zero =>
    intro
    simp [cnt_zero_len]
  | succ t ih =>
    intro ht
    have h1 : cnt (bc1 x) 0 (t + 1) = cnt (bc1 x) 0 t + cnt (bc1 x) t 1 := by
      simpa using cnt_split (bc1 x) 0 t 1
    have h2 : cnt x 0 (t + 1) = cnt x 0 t + cnt x t 1 := by
      simpa using cnt_split x 0 t 1
    have hbit : cnt (bc1 x) t 1 + cnt x t 1 = 1 := by
      rw [cnt_one_testBit, cnt_one_testBit]
      have htb : Nat.testBit (bc1 x) t = !(Nat.testBit x t) := by
        unfold bc1
        rw [Nat.testBit_xor, Nat.testBit_two_pow_sub_one]
        have hd : decide (t < 64) = true := by
          simp
          omega
        rw [hd]
        cases Nat.testBit x t <;> rfl
      rw [htb]
      cases Nat.testBit x t <;> rfl
    have := ih (by omega)
    omega

theorem testBit_bc1 (x t : Nat) (ht : t < 64) :
    Nat.testBit (bc1 x) t = !(Nat.testBit x t) := by
  unfold bc1
  rw [Nat.testBit_xor, Nat.testBit_two_pow_sub_one]
  have hd : decide (t < 64) = true := by
    simp
    omega
  rw [hd]
  cases Nat.testBit x t <;> rfl

theorem terminalStep_spec (bitmap k : Nat) (hb : bitmap < 2 ^ 64)
    (hk : k + popCount bitmap < 64) :
    (terminalStep bitmap k).2 = 0 ∧ (terminalStep bitmap k).1 < 64 ∧
    Nat.testBit bitmap (terminalStep bitmap k).1 = false ∧
    cnt (bc1 bitmap) 0 (terminalStep bitmap k).1 = k := by
  have hu : bc1 bitmap < 2 ^ 64 := bc1_lt bitmap hb
  have hcompl := cnt_compl bitmap hb 64 (by omega)
  have hpc : popCount bitmap = cnt bitmap 0 64 := popCount_eq_cnt bitmap 64 hb
  have hk64 : k < cnt (bc1 bitmap) 0 64 := by omega
  obtain ⟨k1, tv1, e1⟩ : ∃ a b, tsStep (bc32 bitmap &&& 0x3F) k 0 0x20 = (a, b) :=
    ⟨_, _, rfl⟩
  obtain ⟨k2, tv2, e2⟩ : ∃ a b,
      tsStep (bc16 bitmap >>> tv1 &&& 0x1F) k1 tv1 0x10 = (a, b) := ⟨_, _, rfl⟩
  obtain ⟨k3, tv3, e3⟩ : ∃ a b,
      tsStep (bc8 bitmap >>> tv2 &&& 0x0F) k2 tv2 0x08 = (a, b) := ⟨_, _, rfl⟩
  obtain ⟨k4, tv4, e4⟩ : ∃ a b,
      tsStep (bc4 bitmap >>> tv3 &&& 0x07) k3 tv3 0x04 = (a, b) := ⟨_, _, rfl⟩
  obtain ⟨k5, tv5, e5⟩ : ∃ a b,
      tsStep (bc2 bitmap >>> tv4 &&& 0x03) k4 tv4 0x02 = (a, b) := ⟨_, _, rfl⟩
  obtain ⟨k6, tv6, e6⟩ : ∃ a b,
      tsStep (bc1 bitmap >>> tv5 &&& 0x01) k5 tv5 0x01 = (a, b) := ⟨_, _, rfl⟩
  have hts : terminalStep bitmap k = (tv6, k6) := by
    simp only [terminalStep]
    rw [e1]
    dsimp only
    rw [e2]
    dsimp only
    rw [e3]
    dsimp only
    rw [e4]
    dsimp only
    rw [e5]
    dsimp only
    rw [e6]
  -- step 1 (32-bit halves)
  have hw64 := cnt_split (bc1 bitmap) 0 32 32
  norm_num at hw64
  have h1 := tsStep_spec (bc1 bitmap) k 0 32 (bc32 bitmap &&& 0x3F)
    (extract32 bitmap hb) (by simp) (by norm_num) (by norm_num)
    (by norm_num; omega)
  rw [e1] at h1
  dsimp only at h1
  obtain ⟨h1a, h1b, h1c, h1d⟩ := h1
  rw [cnt_zero_len] at h1b
  norm_num at h1b
  -- step 2 (16-bit halves)
  have hw32 := cnt_split (bc1 bitmap) tv1 16 16
  norm_num at hw32
  have hor2 := or_pow_eq_add tv1 4 (by norm_num; omega)
  norm_num at hor2
  have h2 := tsStep_spec (bc1 bitmap) k1 tv1 16 (bc16 bitmap >>> tv1 &&& 0x1F)
    (extract16 bitmap tv1 hb (by omega) (by omega)) hor2 (by omega) (by omega)
    (by omega)
  rw [e2] at h2
  dsimp only at h2
  obtain ⟨h2a, h2b, h2c, h2d⟩ := h2
  -- step 3 (8-bit halves)
  have hw16 := cnt_split (bc1 bitmap) tv2 8 8
  norm_num at hw16
  have hor3 := or_pow_eq_add tv2 3 (by norm_num; omega)
  norm_num at hor3
  have h3 := tsStep_spec (bc1 bitmap) k2 tv2 8 (bc8 bitmap >>> tv2 &&& 0x0F)
    (extract8 bitmap tv2 hb (by omega) (by omega)) hor3 (by omega) (by omega)
    (by omega)
  rw [e3] at h3
  dsimp only at h3
  obtain ⟨h3a, h3b, h3c, h3d⟩ := h3
  -- step 4 (4-bit halves)
  have hw8 := cnt_split (bc1 bitmap) tv3 4 4
  norm_num at hw8
  have hor4 := or_pow_eq_add tv3 2 (by norm_num; omega)
  norm_num at hor4
  have h4 := tsStep_spec (bc1 bitmap) k3 tv3 4 (bc4 bitmap >>> tv3 &&& 0x07)
    (extract4 bitmap tv3 hb (by omega) (by omega)) hor4 (by omega) (by omega)
    (by omega)
  rw [e4] at h4
  dsimp only at h4
  obtain ⟨h4a, h4b, h4c, h4d⟩ := h4
  -- step 5 (2-bit halves)
  have hw4 := cnt_split (bc1 bitmap) tv4 2 2
  norm_num at hw4
  have hor5 := or_pow_eq_add tv4 1 (by norm_num; omega)
  norm_num at hor5
  have h5 := tsStep_spec (bc1 bitmap) k4 tv4 2 (bc2 bitmap >>> tv4 &&& 0x03)
    (extract2 bitmap tv4 hb (by omega) (by omega)) hor5 (by omega) (by omega)
    (by omega)
  rw [e5] at h5
  dsimp only at h5
  obtain ⟨h5a, h5b, h5c, h5d⟩ := h5
  -- step 6 (single bits)
  have hw2 := cnt_split (bc1 bitmap) tv5 1 1
  norm_num at hw2
  have hor6 := or_pow_eq_add tv5 0 (by norm_num; omega)
  norm_num at hor6
  have h6 := tsStep_spec (bc1 bitmap) k5 tv5 1 (bc1 bitmap >>> tv5 &&& 0x01)
    (extract1 bitmap tv5) hor6 (by omega) (by omega) (by omega)
  rw [e6] at h6
  dsimp only at h6
  obtain ⟨h6a, h6b, h6c, h6d⟩ := h6
  -- wrap up
  have hle1 := cnt_le (bc1 bitmap) tv6 1
  have hk6 : k6 = 0 := by omega
  have hcnt1 : cnt (bc1 bitmap) tv6 1 = 1 := by omega
  rw [cnt_one_testBit] at hcnt1
  have htv64 : tv6 < 64 := by omega
  have htb : Nat.testBit (bc1 bitmap) tv6 = true := by
    cases hcase : Nat.testBit (bc1 bitmap) tv6
    · rw [hcase] at hcnt1
      simp at hcnt1
    · rfl
  have hbmap : Nat.testBit bitmap tv6 = false := by
    have := testBit_bc1 bitmap tv6 htv64
    rw [htb] at this
    cases hcase : Nat.testBit bitmap tv6
    · rfl
    · rw [hcase] at this
      simp at this
  rw [hts]
  dsimp only
  exact ⟨hk6, htv64, hbmap, by omega⟩

/-!
Data model.  A persistence-manager node store (MemoryPersistenceManager
node dictionary) is a function from keys to optional node states; the
in-memory tree (_Node) is an inductive tree.  Children the Python code
has not materialized always carry zero state, so they are represented by
all-zero subtrees, which have identical observable behaviour.
-/

/-- Persistence payload of a node (persistence.NodeState). -/
structure NodeState where
  struckCount : Nat
  struckBitmap : Nat
deriving DecidableEq

/-- Node-state store of a persistence manager. -/
def Store : Type := Nat → Option NodeState

/-- PersistenceManager.save_node_state (upsert). -/
def storeSave (s : Store) (key : Nat) (st : NodeState) : Store :=
  fun k2 => if k2 = key then some st else s k2

/-- PersistenceManager.delete_node_state. -/
def storeDelete (s : Store) (key : Nat) : Store :=
  fun k2 => if k2 = key then none else s k2

/-- In-memory tree node (_Node).  A terminal node (bit_number 5) carries
its struck count and 64-bit struck bitmap; an internal node carries its
bit number, struck count and its right (bit clear) and left (bit set)
children. -/
inductive Tree where
  | term (struckCount struckBitmap : Nat)
  | node (bitNumber struckCount : Nat) (right left : Tree)
deriving DecidableEq

def Tree.struckCount : Tree → Nat
  | .term c _ => c
  | .node _ c _ _ => c

/-- State of a child that was never materialized nor restored: all
counts and bitmaps zero, down to the terminal level. -/
def zeroTree : Nat → Tree
  | b + 6 => .node (b + 6) 0 (zeroTree (b + 5)) (zeroTree (b + 5))
  | _ => .term 0 0

/-- Structural well-formedness together with the tree invariants of the
spec: terminal nodes sit at bit number 5 with a 64-bit bitmap whose
popcount is the struck count; an internal node at bit number b has
children at bit number b-1 and a struck count equal to the sum of its
children's. -/
def wf : Tree → Nat → Bool
  | .term c bmp, b => b == 5 && decide (bmp < 2 ^ 64) && c == popCount bmp
  | .node bn c r l, b => bn == b && decide (6 ≤ b) && wf r (b - 1) && wf l (b - 1) &&
      c == r.struckCount + l.struckCount

/-- Which offset of a subtree a global offset i refers to, and whether
it is struck: bit bn of i selects the left child, the remaining bits
address within the child; at a terminal the bitmap holds the answer. -/
def struckAt : Tree → Nat → Bool
  | .term _ bmp, i => bmp.testBit i
  | .node bn _ r l, i => if i.testBit bn then struckAt l (i % 2 ^ bn)
      else struckAt r (i % 2 ^ bn)

/-- Number of unstruck offsets of the subtree below n. -/
def unstruckIn (t : Tree) (n : Nat) : Nat :=
  ((Finset.range n).filter (fun i => struckAt t i = false)).card

/-- BitManager.is_clear. -/
def bmIsClear (value bitNumber : Nat) : Bool := value &&& 2 ^ bitNumber == 0

/-- BitManager.set. -/
def bmSet (value bitNumber : Nat) : Nat := value ||| 2 ^ bitNumber

/-- BitManager.clear for a manager of width bitCount:
value & not_bit(bitNumber), where not_bit b = bit(b) xor all_bits. -/
def bmClear (bitCount value bitNumber : Nat) : Nat :=
  value &&& (2 ^ bitNumber ^^^ (2 ^ bitCount - 1))

theorem bmIsClear_iff (v b : Nat) : bmIsClear v b = !(Nat.testBit v b) := by
  unfold bmIsClear
  rw [Nat.and_two_pow]
  have hpos := Nat.two_pow_pos b
  cases h : Nat.testBit v b <;> simp

theorem bmSet_testBit (v b i : Nat) :
    Nat.testBit (bmSet v b) i = (Nat.testBit v i || decide (b = i)) := by
  unfold bmSet
  rw [Nat.testBit_or, Nat.testBit_two_pow]

theorem bmClear_spec (w v b : Nat) (hv : v < 2 ^ w) (hb : b < w)
    (hset : Nat.testBit v b = true) : bmClear w v b = v - 2 ^ b := by
  have hdiv : v / 2 ^ b % 2 = 1 := by
    have := Nat.testBit_to_div_mod (x := v) (i := b)
    rw [hset] at this
    exact of_decide_eq_true this.symm
  have hmodsplit : v % 2 ^ (b + 1) = v % 2 ^ b + 2 ^ b * (v / 2 ^ b % 2) := by
    rw [pow_succ, Nat.mod_mul]
  have hdec : v = v % 2 ^ b + 2 ^ b + 2 ^ (b + 1) * (v / 2 ^ (b + 1)) := by
    have h1 := Nat.mod_add_div v (2 ^ (b + 1))
    rw [hmodsplit, hdiv] at h1
    omega
  set lo := v % 2 ^ b with hlo
  set hi := v / 2 ^ (b + 1) with hhi
  have hlolt : lo < 2 ^ b := Nat.mod_lt _ (Nat.two_pow_pos b)
  have hlob : lo + 2 ^ b < 2 ^ (b + 1) := by
    rw [pow_succ]
    omega
  have hsub : v - 2 ^ b = lo + 2 ^ (b + 1) * hi := by omega
  have hhilt : hi < 2 ^ (w - b - 1) := by
    rw [hhi, Nat.div_lt_iff_lt_mul (Nat.two_pow_pos _), ← pow_add]
    have he : w - b - 1 + (b + 1) = w := by omega
    rw [he]
    exact hv
  apply Nat.eq_of_testBit_eq
  intro i
  unfold bmClear
  rw [Nat.testBit_and, Nat.testBit_xor, Nat.testBit_two_pow,
    Nat.testBit_two_pow_sub_one]
  have hvi : Nat.testBit v i =
      if i < b + 1 then Nat.testBit (lo + 2 ^ b) i
      else Nat.testBit hi (i - (b + 1)) := by
    conv_lhs => rw [hdec]
    have hr : lo + 2 ^ b + 2 ^ (b + 1) * hi = 2 ^ (b + 1) * hi + (lo + 2 ^ b) := by
      ring
    rw [hr, Nat.testBit_mul_pow_two_add hi hlob i]
  have hsubi : Nat.testBit (v - 2 ^ b) i =
      if i < b + 1 then Nat.testBit lo i
      else Nat.testBit hi (i - (b + 1)) := by
    rw [hsub]
    have hr : lo + 2 ^ (b + 1) * hi = 2 ^ (b + 1) * hi + lo := by ring
    rw [hr, Nat.testBit_mul_pow_two_add hi (by omega) i]
  rw [hvi, hsubi]
  rcases Nat.lt_trichotomy i b with hib | hib | hib
  · have hd1 : decide (b = i) = false := by simp; omega
    have hd2 : decide (i < w) = true := by simp; omega
    rw [hd1, hd2, if_pos (by omega), if_pos (by omega)]
    have hlo2 : lo + 2 ^ b = 2 ^ b * 1 + lo := by ring
    rw [hlo2, Nat.testBit_mul_pow_two_add 1 hlolt i, if_pos hib]
    cases Nat.testBit lo i <;> rfl
  · subst hib
    have hd1 : decide (i = i) = true := by simp
    have hd2 : decide (i < w) = true := by simp; omega
    rw [hd1, hd2, if_pos (by omega), if_pos (by omega)]
    have hlo2 : lo + 2 ^ i = 2 ^ i * 1 + lo := by ring
    rw [hlo2, Nat.testBit_mul_pow_two_add 1 hlolt i, if_neg (by omega)]
    have : Nat.testBit lo i = false := Nat.testBit_lt_two_pow hlolt
    rw [this]
    norm_num
  · have hd1 : decide (b = i) = false := by simp; omega
    rw [hd1, if_neg (by omega), if_neg (by omega)]
    by_cases hiw : i < w
    · have hd2 : decide (i < w) = true := by simp; omega
      rw [hd2]
      cases Nat.testBit hi (i - (b + 1)) <;> rfl
    · have hd2 : decide (i < w) = false := by simp; omega
      rw [hd2]
      have hz : Nat.testBit hi (i - (b + 1)) = false := by
        apply Nat.testBit_lt_two_pow
        calc hi < 2 ^ (w - b - 1) := hhilt
        _ ≤ 2 ^ (i - (b + 1)) := Nat.pow_le_pow_right (by omega) (by omega)
      rw [hz]
      rfl

theorem or_two_pow_eq_add (x t : Nat) (hclear : Nat.testBit x t = false) :
    x ||| 2 ^ t = x + 2 ^ t := by
  have hdiv : x / 2 ^ t % 2 = 0 := by
    have := Nat.testBit_to_div_mod (x := x) (i := t)
    rw [hclear] at this
    have h2 := Nat.mod_lt (x / 2 ^ t) (y := 2) (by omega)
    have h3 : ¬ x / 2 ^ t % 2 = 1 := of_decide_eq_false this.symm
    omega
  have hmodsplit : x % 2 ^ (t + 1) = x % 2 ^ t + 2 ^ t * (x / 2 ^ t % 2) := by
    rw [pow_succ, Nat.mod_mul]
  have hdec : x = x % 2 ^ t + 2 ^ (t + 1) * (x / 2 ^ (t + 1)) := by
    have h1 := Nat.mod_add_div x (2 ^ (t + 1))
    rw [hmodsplit, hdiv] at h1
    omega
  set lo := x % 2 ^ t with hlo
  set hi := x / 2 ^ (t + 1) with hhi
  have hlolt : lo < 2 ^ t := Nat.mod_lt _ (Nat.two_pow_pos t)
  have h1 : x = 2 ^ (t + 1) * hi + lo := by omega
  have h2 : x ||| 2 ^ t = (2 ^ (t + 1) * hi ||| lo) ||| 2 ^ t := by
    rw [← Nat.mul_add_lt_is_or (show lo < 2 ^ (t + 1) by rw [pow_succ]; omega) hi,
      ← h1]
  rw [h2, Nat.or_assoc]
  have h3 : lo ||| 2 ^ t = 2 ^ t + lo := by
    have := Nat.mul_add_lt_is_or hlolt (b := lo) (a := 1) (i := t)
    rw [Nat.mul_one] at this
    rw [Nat.or_comm, ← this]
  rw [h3]
  have h4 : 2 ^ t + lo < 2 ^ (t + 1) := by
    rw [pow_succ]
    omega
  rw [← Nat.mul_add_lt_is_or h4 hi]
  omega

theorem popCount_add_two_pow (x t : Nat) (hclear : Nat.testBit x t = false) :
    popCount (x + 2 ^ t) = popCount x + 1 := by
  have hdiv : x / 2 ^ t % 2 = 0 := by
    have := Nat.testBit_to_div_mod (x := x) (i := t)
    rw [hclear] at this
    have h2 := Nat.mod_lt (x / 2 ^ t) (y := 2) (by omega)
    have h3 : ¬ x / 2 ^ t % 2 = 1 := of_decide_eq_false this.symm
    omega
  have hmodsplit : x % 2 ^ (t + 1) = x % 2 ^ t + 2 ^ t * (x / 2 ^ t % 2) := by
    rw [pow_succ, Nat.mod_mul]
  have hdec : x = x % 2 ^ t + 2 ^ (t + 1) * (x / 2 ^ (t + 1)) := by
    have h1 := Nat.mod_add_div x (2 ^ (t + 1))
    rw [hmodsplit, hdiv] at h1
    omega
  set lo := x % 2 ^ t with hlo
  set hi := x / 2 ^ (t + 1) with hhi
  have hlolt : lo < 2 ^ t := Nat.mod_lt _ (Nat.two_pow_pos t)
  have he1 : x + 2 ^ t = (lo + 2 ^ t) + 2 ^ (t + 1) * hi := by omega
  have he2 : x = lo + 2 ^ (t + 1) * hi := by omega
  have hp1 : popCount (x + 2 ^ t) = popCount (lo + 2 ^ t) + popCount hi := by
    rw [he1]
    exact popCount_split (t + 1) _ hi (by rw [pow_succ]; omega)
  have hp2 : popCount x = popCount lo + popCount hi := by
    rw [he2]
    exact popCount_split (t + 1) _ hi (by rw [pow_succ]; omega)
  have hp3 : popCount (lo + 2 ^ t) = popCount lo + 1 := by
    have := popCount_split t lo 1 hlolt
    rw [Nat.mul_one] at this
    rw [this]
    simp
  omega

theorem unstruckIn_succ (t : Tree) (n : Nat) :
    unstruckIn t (n + 1) =
      unstruckIn t n + (if struckAt t n = false then 1 else 0) := by
  unfold unstruckIn
  rw [Finset.range_succ, Finset.filter_insert]
  by_cases h : struckAt t n = false
  · rw [if_pos h, if_pos h, Finset.card_insert_of_not_mem (by simp)]
  · rw [if_neg h, if_neg h]
    omega

theorem unstruckIn_zero (t : Tree) : unstruckIn t 0 = 0 := by
  simp [unstruckIn]

theorem unstruckIn_le (t : Tree) (n : Nat) : unstruckIn t n ≤ n := by
  induction n with
  | zero => simp [unstruckIn_zero]
  | succ n ih =>
    rw [unstruckIn_succ]
    split <;> omega

theorem struckAt_term (c bmp i : Nat) :
    struckAt (.term c bmp) i = bmp.testBit i := rfl

theorem struckAt_node_low (bn c : Nat) (r l : Tree) (i : Nat) (hi : i < 2 ^ bn) :
    struckAt (.node bn c r l) i = struckAt r i := by
  show (if i.testBit bn then struckAt l (i % 2 ^ bn) else struckAt r (i % 2 ^ bn)) = _
  rw [Nat.testBit_lt_two_pow hi, Nat.mod_eq_of_lt hi]
  simp

theorem struckAt_node_high (bn c : Nat) (r l : Tree) (j : Nat) (hj : j < 2 ^ bn) :
    struckAt (.node bn c r l) (2 ^ bn + j) = struckAt l j := by
  show (if (2 ^ bn + j).testBit bn then struckAt l ((2 ^ bn + j) % 2 ^ bn)
    else struckAt r ((2 ^ bn + j) % 2 ^ bn)) = _
  have ht : Nat.testBit (2 ^ bn + j) bn = true := by
    rw [Nat.testBit_two_pow_add_eq, Nat.testBit_lt_two_pow hj]
    rfl
  rw [ht, Nat.add_mod_left, Nat.mod_eq_of_lt hj]
  simp

theorem unstruckIn_node_low (bn c : Nat) (r l : Tree) :
    ∀ m, m ≤ 2 ^ bn → unstruckIn (.node bn c r l) m = unstruckIn r m := by
  intro m
  induction m with
  | zero =>
    intro
    rw [unstruckIn_zero, unstruckIn_zero]
  | succ m ih =>
    intro hm
    rw [unstruckIn_succ, unstruckIn_succ, ih (by omega),
      struckAt_node_low bn c r l m (by omega)]

theorem unstruckIn_node_high (bn c : Nat) (r l : Tree) :
    ∀ j, j ≤ 2 ^ bn → unstruckIn (.node bn c r l) (2 ^ bn + j) =
      unstruckIn r (2 ^ bn) + unstruckIn l j := by
  intro j
  induction j with
  | zero =>
    intro
    rw [Nat.add_zero, unstruckIn_zero, Nat.add_zero,
      unstruckIn_node_low bn c r l _ (Nat.le_refl _)]
  | succ j ih =>
    intro hj
    have he : 2 ^ bn + (j + 1) = (2 ^ bn + j) + 1 := by omega
    rw [he, unstruckIn_succ, ih (by omega), unstruckIn_succ,
      struckAt_node_high bn c r l j (by omega)]
    omega

theorem unstruckIn_term_cnt (c bmp : Nat) :
    ∀ m, unstruckIn (.term c bmp) m + cnt bmp 0 m = m := by
  intro m
  induction m with
  | zero =>
    rw [unstruckIn_zero, cnt_zero_len]
  | succ m ih =>
    have hc : cnt bmp 0 (m + 1) = cnt bmp 0 m + cnt bmp m 1 := by
      simpa using cnt_split bmp 0 m 1
    rw [unstruckIn_succ, hc, cnt_one_testBit, struckAt_term]
    cases h : Nat.testBit bmp m <;> simp <;> omega

theorem wf_count : ∀ (t : Tree) (b : Nat), wf t b = true →
    t.struckCount + unstruckIn t (2 ^ (b + 1)) = 2 ^ (b + 1) := by
  intro t
  induction t with
  | term c bmp =>
    intro b hwf
    simp only [wf, Bool.and_eq_true, beq_iff_eq, decide_eq_true_eq] at hwf
    obtain ⟨⟨hb5, hlt⟩, hc⟩ := hwf
    subst hb5
    have hterm := unstruckIn_term_cnt c bmp (2 ^ 6)
    have hpc : popCount bmp = cnt bmp 0 64 := popCount_eq_cnt bmp 64 hlt
    have h64 : cnt bmp 0 (2 ^ 6) = cnt bmp 0 64 := by norm_num
    show c + unstruckIn (.term c bmp) (2 ^ 6) = 2 ^ 6
    omega
  | node bn c r l ihr ihl =>
    intro b hwf
    simp only [wf, Bool.and_eq_true, beq_iff_eq, decide_eq_true_eq] at hwf
    obtain ⟨⟨⟨⟨hbn, hb6⟩, hwr⟩, hwl⟩, hc⟩ := hwf
    subst hbn
    have hbb : bn - 1 + 1 = bn := by omega
    have hr := ihr (bn - 1) hwr
    have hl := ihl (bn - 1) hwl
    rw [hbb] at hr hl
    have hsplit : 2 ^ (bn + 1) = 2 ^ bn + 2 ^ bn := by
      rw [pow_succ]
      omega
    have hhigh := unstruckIn_node_high bn c r l (2 ^ bn) (Nat.le_refl _)
    show c + unstruckIn (.node bn c r l) (2 ^ (bn + 1)) = 2 ^ (bn + 1)
    rw [hsplit, hhigh]
    omega

/-- Consistency of the in-memory tree with the persistence manager:
every node of the subtree rooted at the given key is present in the
store exactly when its struck count is non-zero, and with its in-memory
state.  Keys follow _Node: right child at key - 2^(bit_number+1), left
child at key - 1. -/
def StoreOK : Tree → Nat → Store → Bool
  | .term c bmp, key, store =>
      if c = 0 then store key == none else store key == some ⟨c, bmp⟩
  | .node bn c r l, key, store =>
      (if c = 0 then store key == none else store key == some ⟨c, 0⟩) &&
      StoreOK r (key - 2 ^ (bn + 1)) store && StoreOK l (key - 1) store

theorem StoreOK_congr : ∀ (t : Tree) (b key : Nat) (s1 s2 : Store),
    wf t b = true → 2 ^ (b + 2) ≤ key + 128 →
    (∀ κ, key + 128 ≤ κ + 2 ^ (b + 2) → κ ≤ key → s2 κ = s1 κ) →
    StoreOK t key s1 = StoreOK t key s2 := by
  intro t
  induction t with
  | term c bmp =>
    intro b key s1 s2 hwf hkey hagree
    simp only [wf, Bool.and_eq_true, beq_iff_eq, decide_eq_true_eq] at hwf
    obtain ⟨⟨hb5, _⟩, _⟩ := hwf
    subst hb5
    have hk : s2 key = s1 key := hagree key (by norm_num) (Nat.le_refl _)
    show (if c = 0 then s1 key == none else s1 key == some ⟨c, bmp⟩) =
      (if c = 0 then s2 key == none else s2 key == some ⟨c, bmp⟩)
    rw [hk]
  | node bn c r l ihr ihl =>
    intro b key s1 s2 hwf hkey hagree
    simp only [wf, Bool.and_eq_true, beq_iff_eq, decide_eq_true_eq] at hwf
    obtain ⟨⟨⟨⟨hbn, hb6⟩, hwr⟩, hwl⟩, _⟩ := hwf
    subst hbn
    have hP1 : 2 ^ (bn + 1) = 2 * 2 ^ bn := by rw [pow_succ]; ring
    have hP2 : 2 ^ (bn + 2) = 4 * 2 ^ bn := by rw [pow_succ, pow_succ]; ring
    have hP3 : 64 ≤ 2 ^ bn := by
      calc (64 : Nat) = 2 ^ 6 := by norm_num
      _ ≤ 2 ^ bn := Nat.pow_le_pow_right (by omega) hb6
    have hbb1 : bn - 1 + 1 = bn := by omega
    have hbb2 : bn - 1 + 2 = bn + 1 := by omega
    have hself : s2 key = s1 key := hagree key (by omega) (Nat.le_refl _)
    have hright := ihr (bn - 1) (key - 2 ^ (bn + 1)) s1 s2 hwr
      (by rw [hbb2]; omega)
      (fun κ h1 h2 => hagree κ (by rw [hbb2] at h1; omega) (by omega))
    have hleft := ihl (bn - 1) (key - 1) s1 s2 hwl
      (by rw [hbb2]; omega)
      (fun κ h1 h2 => hagree κ (by rw [hbb2] at h1; omega) (by omega))
    show ((if c = 0 then s1 key == none else s1 key == some ⟨c, 0⟩) &&
      StoreOK r (key - 2 ^ (bn + 1)) s1 && StoreOK l (key - 1) s1) = _
    rw [← hself, hright, hleft]
    rfl

/-- Shuffler._next_value as a function of the tree.  The parameter k is
the result of randrange(0, remaining); value is the accumulated output;
w is the bit manager width (size_bit_length + 1); key is the current
node's persistence key.  Each visited node is saved through the store
exactly as save_node_state does along the descent. -/
def nextValue (w : Nat) : Tree → Nat → Nat → Nat → Store → (Nat × Tree × Store)
  | .term c bmp, key, value, k, store =>
      let ts := terminalStep bmp k
      let bmp2 := bmSet bmp ts.1
      (value ||| ts.1, .term (c + 1) bmp2, storeSave store key ⟨c + 1, bmp2⟩)
  | .node bn c r l, key, value, k, store =>
      let store2 := storeSave store key ⟨c + 1, 0⟩
      let rno := k + r.struckCount
      if bmIsClear rno bn then
        let res := nextValue w r (key - 2 ^ (bn + 1)) value k store2
        (res.1, .node bn (c + 1) res.2.1 l, res.2.2)
      else
        let res := nextValue w l (key - 1) (bmSet value bn) (bmClear w rno bn) store2
        (res.1, .node bn (c + 1) r res.2.1, res.2.2)

theorem nextValue_spec : ∀ (t : Tree) (b w key value k : Nat) (store : Store),
    wf t b = true → b + 2 ≤ w → k + t.struckCount < 2 ^ (b + 1) →
    StoreOK t key store = true → 2 ^ (b + 2) ≤ key + 128 →
    ∃ v : Nat,
      (nextValue w t key value k store).1 = (value ||| v) ∧
      v < 2 ^ (b + 1) ∧
      struckAt t v = false ∧
      unstruckIn t v = k ∧
      wf (nextValue w t key value k store).2.1 b = true ∧
      ((nextValue w t key value k store).2.1).struckCount = t.struckCount + 1 ∧
      (∀ x, x < 2 ^ (b + 1) →
        struckAt (nextValue w t key value k store).2.1 x =
          (struckAt t x || decide (x = v))) ∧
      StoreOK (nextValue w t key value k store).2.1 key
        (nextValue w t key value k store).2.2 = true ∧
      (∀ κ, key < κ ∨ κ + 2 ^ (b + 2) < key + 128 →
        (nextValue w t key value k store).2.2 κ = store κ) := by
  intro t
  induction t with
  | term c bmp =>
    intro b w key value k store hwf hw hk hst hkey
    simp only [wf, Bool.and_eq_true, beq_iff_eq, decide_eq_true_eq] at hwf
    obtain ⟨⟨hb5, hlt⟩, hc⟩ := hwf
    subst hb5
    have h64 : (2 : Nat) ^ (5 + 1) = 64 := by norm_num
    have h128 : (2 : Nat) ^ (5 + 2) = 128 := by norm_num
    have hkc : k + c < 64 := by
      have hcc : Tree.struckCount (.term c bmp) = c := rfl
      rw [hcc] at hk
      omega
    have hts := terminalStep_spec bmp k hlt (by omega)
    obtain ⟨hts0, htslt, htsbit, htscnt⟩ := hts
    have hnv : nextValue w (.term c bmp) key value k store =
        (value ||| (terminalStep bmp k).1,
          .term (c + 1) (bmSet bmp (terminalStep bmp k).1),
          storeSave store key ⟨c + 1, bmSet bmp (terminalStep bmp k).1⟩) := rfl
    have hsetadd : bmSet bmp (terminalStep bmp k).1 = bmp + 2 ^ (terminalStep bmp k).1 :=
      or_two_pow_eq_add bmp _ htsbit
    refine ⟨(terminalStep bmp k).1, ?_, ?_, ?_, ?_, ?_, ?_, ?_, ?_, ?_⟩
    · rw [hnv]
    · omega
    · rw [struckAt_term]
      exact htsbit
    · have hterm := unstruckIn_term_cnt c bmp (terminalStep bmp k).1
      have hcompl := cnt_compl bmp hlt (terminalStep bmp k).1 (by omega)
      omega
    · rw [hnv]
      simp only [wf, Bool.and_eq_true, beq_iff_eq, decide_eq_true_eq]
      refine ⟨⟨trivial, ?_⟩, ?_⟩
      · rw [hsetadd]
        have hpow : 2 ^ (terminalStep bmp k).1 < 2 ^ 64 := by
          have h1 : 2 ^ (terminalStep bmp k).1 ≤ 2 ^ 63 :=
            Nat.pow_le_pow_right (by omega) (by omega)
          have h2 : (2 : Nat) ^ 63 < 2 ^ 64 := by norm_num
          omega
        have := or_two_pow_eq_add bmp _ htsbit
        have hor := Nat.or_lt_two_pow (n := 64) hlt hpow
        unfold bmSet at this
        omega
      · rw [hsetadd, popCount_add_two_pow bmp _ htsbit]
        omega
    · rw [hnv]
      rfl
    · intro x hx
      rw [hnv]
      show struckAt (.term (c + 1) (bmSet bmp (terminalStep bmp k).1)) x = _
      rw [struckAt_term, struckAt_term, bmSet_testBit]
      by_cases hxe : x = (terminalStep bmp k).1
      · subst hxe
        simp
      · have h1 : decide ((terminalStep bmp k).1 = x) = false := by simp; omega
        have h2 : decide (x = (terminalStep bmp k).1) = false := by simp; omega
        rw [h1, h2]
    · rw [hnv]
      show StoreOK (.term (c + 1) (bmSet bmp (terminalStep bmp k).1)) key
        (storeSave store key ⟨c + 1, bmSet bmp (terminalStep bmp k).1⟩) = true
      show (if c + 1 = 0 then _ else
        (storeSave store key ⟨c + 1, bmSet bmp (terminalStep bmp k).1⟩) key ==
          some ⟨c + 1, bmSet bmp (terminalStep bmp k).1⟩) = true
      rw [if_neg (by omega)]
      unfold storeSave
      rw [if_pos rfl]
      simp
    · intro κ hκ
      rw [hnv]
      show storeSave store key ⟨c + 1, bmSet bmp (terminalStep bmp k).1⟩ κ = store κ
      unfold storeSave
      rw [if_neg (by omega)]
  | node bn c r l ihr ihl =>
    intro b w key value k store hwf hw hk hst hkey
    simp only [wf, Bool.and_eq_true, beq_iff_eq, decide_eq_true_eq] at hwf
    obtain ⟨⟨⟨⟨hbn, hb6⟩, hwr⟩, hwl⟩, hc⟩ := hwf
    subst hbn
    have hP1 : 2 ^ (bn + 1) = 2 * 2 ^ bn := by rw [pow_succ]; ring
    have hP2 : 2 ^ (bn + 2) = 4 * 2 ^ bn := by rw [pow_succ, pow_succ]; ring
    have hP3 : 64 ≤ 2 ^ bn := by
      calc (64 : Nat) = 2 ^ 6 := by norm_num
      _ ≤ 2 ^ bn := Nat.pow_le_pow_right (by omega) hb6
    have hbb1 : bn - 1 + 1 = bn := by omega
    have hbb2 : bn - 1 + 2 = bn + 1 := by omega
    have hcount_r := wf_count r (bn - 1) hwr
    have hcount_l := wf_count l (bn - 1) hwl
    rw [hbb1] at hcount_r hcount_l
    simp only [StoreOK, Bool.and_eq_true] at hst
    obtain ⟨⟨hstself, hstr⟩, hstl⟩ := hst
    have hur_le := unstruckIn_le r (2 ^ bn)
    have hul_le := unstruckIn_le l (2 ^ bn)
    have hkc : k + c < 2 ^ (bn + 1) := by
      have hcc : Tree.struckCount (.node bn c r l) = c := rfl
      rw [hcc] at hk
      omega
    have hkeyr : 2 ^ (bn - 1 + 2) ≤ (key - 2 ^ (bn + 1)) + 128 := by
      rw [hbb2]
      omega
    have hkeyl : 2 ^ (bn - 1 + 2) ≤ (key - 1) + 128 := by
      rw [hbb2]
      omega
    have hkey_big : 2 ^ (bn + 1) ≤ key := by omega
    have hw2 : 2 ^ (bn + 1) ≤ 2 ^ w := Nat.pow_le_pow_right (by omega) (by omega)
    by_cases hclear : bmIsClear (k + Tree.struckCount r) bn = true
    · -- descend right
      have hbit : Nat.testBit (k + Tree.struckCount r) bn = false := by
        rw [bmIsClear_iff] at hclear
        cases h : Nat.testBit (k + Tree.struckCount r) bn
        · rfl
        · rw [h] at hclear
          simp at hclear
      have hrno_lt : k + Tree.struckCount r < 2 ^ bn := by
        by_contra hge
        push_neg at hge
        have hdecomp : k + Tree.struckCount r =
            2 ^ bn + (k + Tree.struckCount r - 2 ^ bn) := by omega
        have h2 : Nat.testBit (k + Tree.struckCount r) bn = true := by
          rw [hdecomp, Nat.testBit_two_pow_add_eq,
            Nat.testBit_lt_two_pow (show k + Tree.struckCount r - 2 ^ bn < 2 ^ bn by
              omega)]
          rfl
        rw [h2] at hbit
        exact absurd hbit (by simp)
      have hstr2 : StoreOK r (key - 2 ^ (bn + 1))
          (storeSave store key ⟨c + 1, 0⟩) = true := by
        have hcg := StoreOK_congr r (bn - 1) (key - 2 ^ (bn + 1)) store
          (storeSave store key ⟨c + 1, 0⟩) hwr hkeyr (fun κ h1 h2 => by
            unfold storeSave
            rw [if_neg (by omega)])
        rw [← hcg]
        exact hstr
      have hrec := ihr (bn - 1) w (key - 2 ^ (bn + 1)) value k
        (storeSave store key ⟨c + 1, 0⟩) hwr (by omega)
        (by rw [hbb1]; omega) hstr2 hkeyr
      obtain ⟨v, hv1, hv2, hv3, hv4, hv5, hv6, hv7, hv8, hv9⟩ := hrec
      rw [hbb1] at hv2 hv7
      rw [hbb2] at hv9
      have hnv : nextValue w (.node bn c r l) key value k store =
          ((nextValue w r (key - 2 ^ (bn + 1)) value k
              (storeSave store key ⟨c + 1, 0⟩)).1,
            .node bn (c + 1) (nextValue w r (key - 2 ^ (bn + 1)) value k
              (storeSave store key ⟨c + 1, 0⟩)).2.1 l,
            (nextValue w r (key - 2 ^ (bn + 1)) value k
              (storeSave store key ⟨c + 1, 0⟩)).2.2) := by
        simp only [nextValue]
        rw [if_pos hclear]
      refine ⟨v, ?_, ?_, ?_, ?_, ?_, ?_, ?_, ?_, ?_⟩
      · rw [hnv]
        exact hv1
      · omega
      · rw [struckAt_node_low bn c r l v hv2]
        exact hv3
      · rw [unstruckIn_node_low bn c r l v (by omega)]
        exact hv4
      · rw [hnv]
        simp only [wf, Bool.and_eq_true, beq_iff_eq, decide_eq_true_eq]
        exact ⟨⟨⟨⟨trivial, hb6⟩, hv5⟩, hwl⟩, by
          rw [hv6]
          omega⟩
      · rw [hnv]
        simp only [Tree.struckCount]
      · intro x hx
        rw [hnv]
        by_cases hxb : Nat.testBit x bn = true
        · have hxge : 2 ^ bn ≤ x := Nat.testBit_implies_ge hxb
          have hj : x - 2 ^ bn < 2 ^ bn := by omega
          have hxd : x = 2 ^ bn + (x - 2 ^ bn) := by omega
          rw [hxd, struckAt_node_high bn (c + 1) _ l _ hj,
            struckAt_node_high bn c r l _ hj]
          have hne : decide (2 ^ bn + (x - 2 ^ bn) = v) = false := by
            simp
            omega
          rw [hne]
          simp
        · rw [Bool.not_eq_true] at hxb
          have hxlt : x < 2 ^ bn := by
            by_contra hge
            push_neg at hge
            have hdecomp : x = 2 ^ bn + (x - 2 ^ bn) := by omega
            have h2 : Nat.testBit x bn = true := by
              rw [hdecomp, Nat.testBit_two_pow_add_eq,
                Nat.testBit_lt_two_pow (show x - 2 ^ bn < 2 ^ bn by omega)]
              rfl
            rw [h2] at hxb
            exact absurd hxb (by simp)
          rw [struckAt_node_low bn (c + 1) _ l x hxlt,
            struckAt_node_low bn c r l x hxlt]
          exact hv7 x hxlt
      · rw [hnv]
        simp only [StoreOK, Bool.and_eq_true]
        refine ⟨⟨?_, hv8⟩, ?_⟩
        · have hfr := hv9 key (Or.inl (by omega))
          rw [if_neg (by omega), hfr]
          unfold storeSave
          rw [if_pos rfl]
          simp
        · have hcg := StoreOK_congr l (bn - 1) (key - 1) store
            (nextValue w r (key - 2 ^ (bn + 1)) value k
              (storeSave store key ⟨c + 1, 0⟩)).2.2 hwl hkeyl (fun κ h1 h2 => by
              rw [hbb2] at h1
              have hfr := hv9 κ (Or.inl (by omega))
              rw [hfr]
              unfold storeSave
              rw [if_neg (by omega)])
          rw [← hcg]
          exact hstl
      · intro κ hκ
        rw [hnv]
        have hfr := hv9 κ (by omega)
        rw [hfr]
        unfold storeSave
        rw [if_neg (by omega)]
    · -- descend left
      have hbit : Nat.testBit (k + Tree.struckCount r) bn = true := by
        rw [bmIsClear_iff] at hclear
        cases h : Nat.testBit (k + Tree.struckCount r) bn
        · rw [h] at hclear
          simp at hclear
        · rfl
      have hge : 2 ^ bn ≤ k + Tree.struckCount r := Nat.testBit_implies_ge hbit
      have hrc_le : Tree.struckCount r ≤ c := by omega
      have hrno_lt : k + Tree.struckCount r < 2 ^ (bn + 1) := by omega
      have hclear_eq : bmClear w (k + Tree.struckCount r) bn =
          k + Tree.struckCount r - 2 ^ bn :=
        bmClear_spec w _ bn (by omega) (by omega) hbit
      have hstl2 : StoreOK l (key - 1) (storeSave store key ⟨c + 1, 0⟩) = true := by
        have hcg := StoreOK_congr l (bn - 1) (key - 1) store
          (storeSave store key ⟨c + 1, 0⟩) hwl hkeyl (fun κ h1 h2 => by
            unfold storeSave
            rw [if_neg (by omega)])
        rw [← hcg]
        exact hstl
      have hrec := ihl (bn - 1) w (key - 1) (bmSet value bn)
        (bmClear w (k + Tree.struckCount r) bn)
        (storeSave store key ⟨c + 1, 0⟩) hwl (by omega)
        (by rw [hclear_eq, hbb1]; omega) hstl2 hkeyl
      obtain ⟨v, hv1, hv2, hv3, hv4, hv5, hv6, hv7, hv8, hv9⟩ := hrec
      rw [hbb1] at hv2 hv7
      rw [hbb2] at hv9
      rw [hclear_eq] at hv4
      have hnv : nextValue w (.node bn c r l) key value k store =
          ((nextValue w l (key - 1) (bmSet value bn)
              (bmClear w (k + Tree.struckCount r) bn)
              (storeSave store key ⟨c + 1, 0⟩)).1,
            .node bn (c + 1) r (nextValue w l (key - 1) (bmSet value bn)
              (bmClear w (k + Tree.struckCount r) bn)
              (storeSave store key ⟨c + 1, 0⟩)).2.1,
            (nextValue w l (key - 1) (bmSet value bn)
              (bmClear w (k + Tree.struckCount r) bn)
              (storeSave store key ⟨c + 1, 0⟩)).2.2) := by
        simp only [nextValue]
        rw [if_neg hclear]
      have horadd : 2 ^ bn ||| v = 2 ^ bn + v := by
        have := Nat.mul_add_lt_is_or hv2 (b := v) (a := 1) (i := bn)
        rw [Nat.mul_one] at this
        rw [← this]
      refine ⟨2 ^ bn + v, ?_, ?_, ?_, ?_, ?_, ?_, ?_, ?_, ?_⟩
      · rw [hnv]
        show (nextValue w l (key - 1) (bmSet value bn)
          (bmClear w (k + Tree.struckCount r) bn)
          (storeSave store key ⟨c + 1, 0⟩)).1 = _
        rw [hv1]
        unfold bmSet
        rw [Nat.or_assoc, horadd]
      · omega
      · rw [struckAt_node_high bn c r l v hv2]
        exact hv3
      · rw [unstruckIn_node_high bn c r l v (by omega)]
        omega
      · rw [hnv]
        simp only [wf, Bool.and_eq_true, beq_iff_eq, decide_eq_true_eq]
        exact ⟨⟨⟨⟨trivial, hb6⟩, hwr⟩, hv5⟩, by
          rw [hv6]
          omega⟩
      · rw [hnv]
        simp only [Tree.struckCount]
      · intro x hx
        rw [hnv]
        by_cases hxb : Nat.testBit x bn = true
        · have hxge : 2 ^ bn ≤ x := Nat.testBit_implies_ge hxb
          have hj : x - 2 ^ bn < 2 ^ bn := by omega
          have hxd : x = 2 ^ bn + (x - 2 ^ bn) := by omega
          rw [hxd, struckAt_node_high bn (c + 1) r _ _ hj,
            struckAt_node_high bn c r l _ hj, hv7 (x - 2 ^ bn) hj]
          by_cases hje : x - 2 ^ bn = v
          · rw [hje]
            simp
          · have h1 : decide (x - 2 ^ bn = v) = false := by simp; omega
            have h2 : decide (2 ^ bn + (x - 2 ^ bn) = 2 ^ bn + v) = false := by
              simp
              omega
            rw [h1, h2]
        · rw [Bool.not_eq_true] at hxb
          have hxlt : x < 2 ^ bn := by
            by_contra hge2
            push_neg at hge2
            have hdecomp : x = 2 ^ bn + (x - 2 ^ bn) := by omega
            have h2 : Nat.testBit x bn = true := by
              rw [hdecomp, Nat.testBit_two_pow_add_eq,
                Nat.testBit_lt_two_pow (show x - 2 ^ bn < 2 ^ bn by omega)]
              rfl
            rw [h2] at hxb
            exact absurd hxb (by simp)
          rw [struckAt_node_low bn (c + 1) r _ x hxlt,
            struckAt_node_low bn c r l x hxlt]
          have hne : decide (x = 2 ^ bn + v) = false := by simp; omega
          rw [hne]
          simp
      · rw [hnv]
        simp only [StoreOK, Bool.and_eq_true]
        refine ⟨⟨?_, ?_⟩, hv8⟩
        · have hfr := hv9 key (Or.inl (by omega))
          rw [if_neg (by omega), hfr]
          unfold storeSave
          rw [if_pos rfl]
          simp
        · have hcg := StoreOK_congr r (bn - 1) (key - 2 ^ (bn + 1)) store
            (nextValue w l (key - 1) (bmSet value bn)
              (bmClear w (k + Tree.struckCount r) bn)
              (storeSave store key ⟨c + 1, 0⟩)).2.2 hwr hkeyr (fun κ h1 h2 => by
              rw [hbb2] at h1
              have hfr := hv9 κ (Or.inr (by omega))
              rw [hfr]
              unfold storeSave
              rw [if_neg (by omega)])
          rw [← hcg]
          exact hstr
      · intro κ hκ
        rw [hnv]
        have hfr := hv9 κ (by omega)
        rw [hfr]
        unfold storeSave
        rw [if_neg (by omega)]

/-!
The shuffler object.  Python materializes tree nodes lazily and restores
them from the persistence manager when first touched (restore flag =
parent's struck count is non-zero at that moment); the embedding reads
the same data eagerly, so an untouched child appears as the subtree the
lazy code would build for it on first touch.  Store writes along two
different paths never collide because sibling subtrees occupy disjoint
key intervals, so reading eagerly at build time agrees with reading at
first touch.
-/

/-- int.bit_length of Python, by structural fuel recursion. -/
def bitLengthFuel : Nat → Nat → Nat
  | 0, _ => 0
  | fuel + 1, n => if n = 0 then 0 else bitLengthFuel fuel (n / 2) + 1

def bitLength (n : Nat) : Nat := bitLengthFuel n n

/-- size_bit_length of Shuffler._build_root:
max((size - 1).bit_length(), _TERMINAL_SIZE_BIT_COUNT). -/
def sizeBitLength (size : Nat) : Nat := max (bitLength (size - 1)) 6

/-- _Node construction read eagerly: restore the node state from the
store when the restore flag is set, then build both children with
restore = struck_count != 0 (init_right_left).  Fuel f places the node
at bit number f + 5; right child key is key - 2^(bit_number+1), left
child key is key - 1. -/
def restoreTreeF : Nat → Store → Nat → Bool → Tree
  | 0, store, key, restore =>
      match (if restore then store key else none) with
      | none => .term 0 0
      | some st => .term st.struckCount st.struckBitmap
  | f + 1, store, key, restore =>
      match (if restore then store key else none) with
      | none => .node (f + 6) 0 (restoreTreeF f store (key - 2 ^ (f + 7)) false)
          (restoreTreeF f store (key - 1) false)
      | some st => .node (f + 6) st.struckCount
          (restoreTreeF f store (key - 2 ^ (f + 7)) (st.struckCount != 0))
          (restoreTreeF f store (key - 1) (st.struckCount != 0))

/-- Python ~x. -/
def intNot (x : Int) : Int := -x - 1

/-- The right-spine stamping walk of Shuffler._build_root when resizing
with a non-zero old root struck count: each node on the walk gets the
old root's struck count, is saved, and the walk moves to its right
child, stopping as soon as the restored right child has a non-zero
struck count (it is then the old root).  Fuel f places the walk's node
at bit number f + 6 (the walk never reaches a terminal).  Children off
the walk are read eagerly with restore = true (parent count non-zero).
-/
def stampTree (oldCount : Nat) : Nat → Store → Nat → Tree × Store
  | 0, store, key =>
      let store2 := storeSave store key ⟨oldCount, 0⟩
      (.node 6 oldCount (restoreTreeF 0 store2 (key - 2 ^ 7) true)
        (restoreTreeF 0 store2 (key - 1) true), store2)
  | f + 1, store, key =>
      let store2 := storeSave store key ⟨oldCount, 0⟩
      let r := restoreTreeF (f + 1) store2 (key - 2 ^ (f + 8)) true
      if r.struckCount != 0 then
        (.node (f + 7) oldCount r (restoreTreeF (f + 1) store2 (key - 1) true),
          store2)
      else
        let st := stampTree oldCount f store2 (key - 2 ^ (f + 8))
        (.node (f + 7) oldCount st.1 (restoreTreeF (f + 1) st.2 (key - 1) true),
          st.2)

/-- Shuffler._build_root: returns the new root, the new size bit length
(the bit manager has one bit more) and the store after any stamping
saves.  resizing is root-is-not-None; the root is rebuilt when not
resizing or when the size bit length changes; the new root restores
its state only when not resizing. -/
def buildRoot (resizing : Bool) (size : Nat) (oldRoot : Tree) (oldBits : Nat)
    (store : Store) : Tree × Nat × Store :=
  let sbl := sizeBitLength size
  if !resizing || sbl != oldBits then
    let key := 2 ^ (sbl + 1) - 1
    if resizing && oldRoot.struckCount != 0 then
      let st := stampTree oldRoot.struckCount (sbl - 7) store key
      (st.1, sbl, st.2)
    else
      (restoreTreeF (sbl - 6) store key (!resizing), sbl, store)
  else
    (oldRoot, oldBits, store)

/-- Shuffler: size, cyclic flag, size bit length (the bit manager's
width minus one; the root sits at bit number rootBits - 1 and its key is
2^(rootBits+1) - 1), the in-memory tree, the cached remaining size, and
the three stores of MemoryPersistenceManager. -/
structure SState where
  size : Nat
  cyclic : Bool
  rootBits : Nat
  root : Tree
  remainingSize : Nat
  nodeStore : Store
  idx2val : Nat → Option Int
  val2idx : Int → Option Nat

/-- The root's persistence key: bit_manager.all_bits. -/
def rootKeyOf (s : SState) : Nat := 2 ^ (s.rootBits + 1) - 1

def emptyStore : Store := fun _ => none

/-- Shuffler.__init__ with a fresh MemoryPersistenceManager. -/
def mkShuffler (size : Nat) (cyclic : Bool) : SState :=
  let br := buildRoot false size (.term 0 0) 0 emptyStore
  { size := size, cyclic := cyclic, rootBits := br.2.1, root := br.1,
    remainingSize := size - br.1.struckCount, nodeStore := br.2.2,
    idx2val := fun _ => none, val2idx := fun _ => none }

/-- MemoryPersistenceManager.save_index_value: upserts both directions
(the index-to-value entry and the value-to-index entry). -/
def ivSave (iv : Nat → Option Int) (vi : Int → Option Nat) (index : Nat)
    (value : Int) : (Nat → Option Int) × (Int → Option Nat) :=
  (fun i => if i = index then some value else iv i,
   fun v => if v = value then some index else vi v)

/-- MemoryPersistenceManager.delete_index_value. -/
def ivDelete (iv : Nat → Option Int) (vi : Int → Option Nat) (index : Nat)
    (value : Int) : (Nat → Option Int) × (Int → Option Nat) :=
  (fun i => if i = index then none else iv i,
   fun v => if v = value then none else vi v)

/-- The reserve descent of Shuffler.value_at (cyclic regime): walk the
tree by the bits of loop_start, incrementing and saving each node, and
set bit loop_start & 63 at the terminal. -/
def reserveTree : Tree → Nat → Nat → Store → Tree × Store
  | .term c bmp, key, ls, store =>
      let bmp2 := bmSet bmp (ls &&& 63)
      (.term (c + 1) bmp2, storeSave store key ⟨c + 1, bmp2⟩)
  | .node bn c r l, key, ls, store =>
      let store2 := storeSave store key ⟨c + 1, 0⟩
      if bmIsClear ls bn then
        let res := reserveTree r (key - 2 ^ (bn + 1)) ls store2
        (.node bn (c + 1) res.1 l, res.2)
      else
        let res := reserveTree l (key - 1) ls store2
        (.node bn (c + 1) r res.1, res.2)

/-- The unreserve loop of Shuffler.value_at: every node on the reserve
path is decremented (and the terminal bit cleared), then saved if its
struck count is non-zero and deleted from the store otherwise. -/
def unreserveTree : Tree → Nat → Nat → Store → Tree × Store
  | .term c bmp, key, ls, store =>
      let bmp2 := bmClear 64 bmp (ls &&& 63)
      (.term (c - 1) bmp2,
        if c - 1 != 0 then storeSave store key ⟨c - 1, bmp2⟩
        else storeDelete store key)
  | .node bn c r l, key, ls, store =>
      let store2 := if c - 1 != 0 then storeSave store key ⟨c - 1, 0⟩
        else storeDelete store key
      if bmIsClear ls bn then
        let res := unreserveTree r (key - 2 ^ (bn + 1)) ls store2
        (.node bn (c - 1) res.1 l, res.2)
      else
        let res := unreserveTree l (key - 1) ls store2
        (.node bn (c - 1) r res.1, res.2)

/-- The cyclic tail of Shuffler.value_at, entered with loop_start ls and
not_loop_start nls after any existing pair has been deleted: reserve
loop_start, and either draw the next value, splice the loop end
(index_of(~value) if present, else value), join it to loop_start's
complement and unreserve, or, when the reserve exhausted the remaining
size, close the loop with value = loop_start. -/
def cyclicTail (s : SState) (iv : Nat → Option Int) (vi : Int → Option Nat)
    (index ls : Nat) (nls : Int) (k : Nat) : SState × Int :=
  let w := s.rootBits + 1
  let key := 2 ^ w - 1
  let rt := reserveTree s.root key ls s.nodeStore
  let rem1 := s.remainingSize - 1
  if rem1 != 0 then
    let nxt := nextValue w rt.1 key 0 k rt.2
    let v := nxt.1
    let loopEnd := match vi (intNot (Int.ofNat v)) with
      | some le => le
      | none => v
    let iv2 := ivSave iv vi loopEnd nls
    let ut := unreserveTree nxt.2.1 key ls nxt.2.2
    let iv3 := ivSave iv2.1 iv2.2 index (Int.ofNat v)
    ({ s with
        root := ut.1, nodeStore := ut.2, remainingSize := rem1,
        idx2val := iv3.1, val2idx := iv3.2 }, Int.ofNat v)
  else
    let iv3 := ivSave iv vi index (Int.ofNat ls)
    ({ s with
        root := rt.1, nodeStore := rt.2, remainingSize := rem1,
        idx2val := iv3.1, val2idx := iv3.2 }, Int.ofNat ls)

/-- Shuffler.value_at for an in-range index, with the randrange draw k
passed in.  Non-cyclic: return the stored value or strike the next
one.  Cyclic: a stored non-negative value is returned as is; a missing
value starts a new loop at the index; a negative value marks the index
as the end of an existing loop starting at ~value, whose pair is
deleted before the loop is extended. -/
def valueAt (s : SState) (index k : Nat) : SState × Int :=
  if !s.cyclic then
    match s.idx2val index with
    | some v => (s, v)
    | none =>
        let w := s.rootBits + 1
        let nxt := nextValue w s.root (2 ^ w - 1) 0 k s.nodeStore
        let v := nxt.1
        let iv := ivSave s.idx2val s.val2idx index (Int.ofNat v)
        ({ s with
            root := nxt.2.1, nodeStore := nxt.2.2,
            remainingSize := s.remainingSize - 1,
            idx2val := iv.1, val2idx := iv.2 }, Int.ofNat v)
  else
    match s.idx2val index with
    | none => cyclicTail s s.idx2val s.val2idx index index
        (intNot (Int.ofNat index)) k
    | some v =>
        if v < 0 then
          let ls := (intNot v).toNat
          let ivd := ivDelete s.idx2val s.val2idx index v
          cyclicTail s ivd.1 ivd.2 index ls v k
        else (s, v)

/-- Shuffler.index_of. -/
def indexOf (s : SState) (value : Int) : Option Nat := s.val2idx value

/-- The two failures of Shuffler.resize. -/
inductive ResizeError where
  | shrinkInUse
  | resizeClosed
deriving DecidableEq

/-- Shuffler.resize: no-op on an equal size; shrinking a partially used
shuffler and resizing a completed cyclic shuffler fail with the state
untouched; otherwise the size is updated and the root rebuilt. -/
def resize (s : SState) (newSize : Nat) : SState × Option ResizeError :=
  if newSize = s.size then (s, none)
  else if newSize < s.size ∧ s.root.struckCount ≠ 0 then
    (s, some .shrinkInUse)
  else if s.cyclic = true ∧ s.remainingSize = 0 then
    (s, some .resizeClosed)
  else
    let br := buildRoot true newSize s.root s.rootBits s.nodeStore
    ({ s with
        size := newSize, rootBits := br.2.1, root := br.1,
        nodeStore := br.2.2, remainingSize := newSize - br.1.struckCount },
      none)

/-- The per-node walk of _Node.validate_state, returning the collected
keys on success and none when any check fails: the node's store entry
must be absent exactly when its struck count is zero and match its
in-memory state otherwise; a non-terminal node splits its size between
right and left (left absent when the size fits in the right child, in
which case its key must also be absent from the store), must have a
struck count equal to the sum of its children's, and recurses into the
children it would have materialized; a terminal node's struck count
must equal the popcount of its bitmap.  Children of a node with zero
struck count are unmaterialized and are not walked. -/
def validateNode (w : Nat) : Tree → Nat → Nat → Store → Option (List Nat)
  | .term c bmp, key, _, store =>
      if (if c = 0 then store key == none else store key == some ⟨c, bmp⟩) &&
          c == popCount bmp then
        some [key]
      else none
  | .node bn c r l, key, size, store =>
      if !(if c = 0 then store key == none else store key == some ⟨c, 0⟩) then
        none
      else if c = 0 then some [key]
      else
        let bit := 2 ^ bn
        let rightSize := if !(bmIsClear size (bn + 1)) then bit
          else if !(bmIsClear size bn) then bit else size
        let leftSize := if !(bmIsClear size (bn + 1)) then bit
          else if !(bmIsClear size bn) then bmClear w size bn else 0
        if leftSize == 0 && !(store (key - 1) == none) then none
        else if c != r.struckCount +
            (if leftSize == 0 then 0 else l.struckCount) then none
        else
          match validateNode w r (key - 2 ^ (bn + 1)) rightSize store with
          | none => none
          | some rkeys =>
              if leftSize == 0 then some (key :: rkeys)
              else
                match validateNode w l (key - 1) leftSize store with
                | none => none
                | some lkeys => some (key :: rkeys ++ lkeys)

/-- Shuffler.validate_state: the cached remaining size must equal size
minus the root struck count; the tree walk must pass; the sorted key
scan must find no duplicate, a minimum key of at least
_TERMINAL_SIZE_BITMASK << 1 | 1, and, unless there is a single key, a
maximum key below 1 << ((size - 1).bit_length() + 1). -/
def validateState (s : SState) : Bool :=
  (s.remainingSize == s.size - s.root.struckCount) &&
  match validateNode (s.rootBits + 1) s.root (2 ^ (s.rootBits + 1) - 1) s.size
      s.nodeStore with
  | none => false
  | some keys =>
      match keys.min?, keys.max? with
      | some mn, some mx =>
          decide keys.Nodup && decide (63 <<< 1 ||| 1 ≤ mn) &&
          (mx == mn || decide (mx < 2 ^ (bitLength (s.size - 1) + 1)))
      | _, _ => false

/-- C1: for every tree state satisfying the tree invariants and every k
below the number of currently-unstruck entries, the strike engine
(Shuffler._next_value, embedded as nextValue with its descent rule and
terminal popcount search) accumulates into the output the global index
v of the k-th currently-unstruck entry, marks exactly that entry struck,
increments every struck count on the path, and persists the path. -/
theorem claim_C1 (t : Tree) (b w key value k : Nat) (store : Store)
    (hwf : wf t b = true) (hw : b + 2 ≤ w)
    (hk : k < unstruckIn t (2 ^ (b + 1)))
    (hst : StoreOK t key store = true) (hkey : 2 ^ (b + 2) ≤ key + 128) :
    ∃ v : Nat,
      (nextValue w t key value k store).1 = (value ||| v) ∧
      v < 2 ^ (b + 1) ∧
      struckAt t v = false ∧
      unstruckIn t v = k ∧
      struckAt (nextValue w t key value k store).2.1 v = true ∧
      (∀ x, x < 2 ^ (b + 1) → x ≠ v →
        struckAt (nextValue w t key value k store).2.1 x = struckAt t x) ∧
      ((nextValue w t key value k store).2.1).struckCount = t.struckCount + 1 ∧
      wf (nextValue w t key value k store).2.1 b = true ∧
      StoreOK (nextValue w t key value k store).2.1 key
        (nextValue w t key value k store).2.2 = true := by
  have hcount := wf_count t b hwf
  have hk2 : k + t.struckCount < 2 ^ (b + 1) := by omega
  obtain ⟨v, h1, h2, h3, h4, h5, h6, h7, h8, h9⟩ :=
    nextValue_spec t b w key value k store hwf hw hk2 hst hkey
  refine ⟨v, h1, h2, h3, h4, ?_, ?_, h6, h5, h8⟩
  · rw [h7 v h2, h3]
    simp
  · intro x hx hne
    rw [h7 x hx]
    have hd : decide (x = v) = false := by simp [hne]
    rw [hd]
    simp

theorem claim_C1_witness :
    ∃ v : Nat,
      (nextValue 7 (.term 0 0) 127 0 3 emptyStore).1 = (0 ||| v) ∧
      v < 2 ^ (5 + 1) ∧
      struckAt (.term 0 0) v = false ∧
      unstruckIn (.term 0 0) v = 3 ∧
      struckAt (nextValue 7 (.term 0 0) 127 0 3 emptyStore).2.1 v = true ∧
      (∀ x, x < 2 ^ (5 + 1) → x ≠ v →
        struckAt (nextValue 7 (.term 0 0) 127 0 3 emptyStore).2.1 x =
          struckAt (.term 0 0) x) ∧
      ((nextValue 7 (.term 0 0) 127 0 3 emptyStore).2.1).struckCount =
        (Tree.term 0 0).struckCount + 1 ∧
      wf (nextValue 7 (.term 0 0) 127 0 3 emptyStore).2.1 5 = true ∧
      StoreOK (nextValue 7 (.term 0 0) 127 0 3 emptyStore).2.1 127
        (nextValue 7 (.term 0 0) 127 0 3 emptyStore).2.2 = true :=
  claim_C1 (.term 0 0) 5 7 127 0 3 emptyStore (by decide) (by decide)
    (by decide) (by decide) (by decide)

/-- C10: for every 64-bit terminal bitmap and every k below the popcount
of the inverted bitmap, the unrolled six-step popcount binary search of
Shuffler._next_value finishes with terminal_incremental_value_remaining
equal to zero, so the assertion after the search holds. -/
theorem claim_C10 (m k : Nat) (hm : m < 2 ^ 64)
    (hk : k < popCount (bc1 m)) : (terminalStep m k).2 = 0 := by
  have hu : bc1 m < 2 ^ 64 := bc1_lt m hm
  have h1 : popCount (bc1 m) = cnt (bc1 m) 0 64 := popCount_eq_cnt (bc1 m) 64 hu
  have h2 : popCount m = cnt m 0 64 := popCount_eq_cnt m 64 hm
  have h3 := cnt_compl m hm 64 (by omega)
  exact (terminalStep_spec m k hm (by omega)).1

theorem claim_C10_witness :
    (2 : Nat) ^ 62 < 2 ^ 64 ∧ 5 < popCount (bc1 (2 ^ 62)) ∧
    (terminalStep (2 ^ 62) 5).2 = 0 :=
  ⟨by decide, by decide, claim_C10 (2 ^ 62) 5 (by decide) (by decide)⟩

/-- C7: Shuffler.resize is a no-op returning the state unchanged when
the new size equals the current one; it fails with ShrinkInUse, state
unchanged, when shrinking a shuffler with a struck entry; and, that
check passed, it fails with ResizeClosed, state unchanged, when the
shuffler is cyclic with no remaining size. -/
theorem claim_C7 (s : SState) (newSize : Nat) :
    (newSize = s.size → resize s newSize = (s, none)) ∧
    (newSize ≠ s.size → newSize < s.size → s.root.struckCount ≠ 0 →
      resize s newSize = (s, some .shrinkInUse)) ∧
    (newSize ≠ s.size → ¬(newSize < s.size ∧ s.root.struckCount ≠ 0) →
      s.cyclic = true → s.remainingSize = 0 →
      resize s newSize = (s, some .resizeClosed)) := by
  refine ⟨?_, ?_, ?_⟩
  · intro h
    unfold resize
    rw [if_pos h]
  · intro h1 h2 h3
    unfold resize
    rw [if_neg h1, if_pos ⟨h2, h3⟩]
  · intro h1 h2 h3 h4
    unfold resize
    rw [if_neg h1, if_neg h2, if_pos ⟨h3, h4⟩]

theorem claim_C7_witness :
    resize (mkShuffler 5 false) 5 = (mkShuffler 5 false, none) ∧
    resize (valueAt (mkShuffler 5 false) 0 0).1 3 =
      ((valueAt (mkShuffler 5 false) 0 0).1, some .shrinkInUse) ∧
    resize (valueAt (mkShuffler 1 true) 0 0).1 2 =
      ((valueAt (mkShuffler 1 true) 0 0).1, some .resizeClosed) :=
  ⟨(claim_C7 (mkShuffler 5 false) 5).1 rfl,
   (claim_C7 (valueAt (mkShuffler 5 false) 0 0).1 3).2.1 (by decide) (by decide)
     (by decide),
   (claim_C7 (valueAt (mkShuffler 1 true) 0 0).1 2).2.2 (by decide) (by decide)
     (by decide) (by decide)⟩

/-- C8 as written fails on the code: the claim puts the root key at
2^(B+1) - 1 with B+1 = max(bitlen(N-1), 6), which is 63 for N = 10,
but the root key built by Shuffler._build_root for N = 10 is 127. -/
theorem claim_C8_counterexample :
    rootKeyOf (mkShuffler 10 false) = 127 ∧
    ¬(rootKeyOf (mkShuffler 10 false) =
      2 ^ (max (bitLength (10 - 1)) 6) - 1) := by
  decide

/-- C8 (amended): the root's persistence key is 2^(B+2) - 1, one bit
above the claimed exponent: with B+1 = max(bitlen(N-1), 6) the bit
manager spans B+2 bits and the root key is its all-bits value. -/
theorem claim_C8 (size : Nat) (cyclic : Bool) :
    rootKeyOf (mkShuffler size cyclic) =
      2 ^ (max (bitLength (size - 1)) 6 + 1) - 1 := rfl

/-- C9 as written fails on the code: the validator of a freshly built
size-64 shuffler passes although the minimum traversed key is 127,
below the claimed bound 129; the code's threshold is
_TERMINAL_SIZE_BITMASK << 1 | 1 = 127, not (64 << 1) | 1 = 129. -/
theorem claim_C9_counterexample :
    validateState (mkShuffler 64 false) = true ∧
    validateNode 7 (mkShuffler 64 false).root 127 64
      (mkShuffler 64 false).nodeStore = some [127] ∧
    (127 : Nat) < 129 := by
  exact ⟨by decide, by decide, by decide⟩

/-- C9 (amended): every tree accepted by Shuffler.validate_state has a
minimum traversed key of at least 127 = 63 << 1 | 1; equivalently the
validator rejects whenever the minimum key is below 127. -/
theorem claim_C9 (s : SState) (keys : List Nat) (mn : Nat)
    (hv : validateState s = true)
    (hk : validateNode (s.rootBits + 1) s.root (2 ^ (s.rootBits + 1) - 1)
      s.size s.nodeStore = some keys)
    (hm : keys.min? = some mn) : 127 ≤ mn := by
  unfold validateState at hv
  rw [hk] at hv
  rw [Bool.and_eq_true] at hv
  obtain ⟨-, hv2⟩ := hv
  dsimp only at hv2
  rw [hm] at hv2
  cases hmx : keys.max? with
  | none =>
      rw [hmx] at hv2
      exact absurd hv2 (by simp)
  | some mx =>
      rw [hmx] at hv2
      rw [Bool.and_eq_true, Bool.and_eq_true] at hv2
      obtain ⟨⟨-, hmn⟩, -⟩ := hv2
      have h127 : (63 <<< 1 ||| 1 : Nat) = 127 := by decide
      rw [decide_eq_true_eq, h127] at hmn
      exact hmn

theorem claim_C9_witness :
    validateState (mkShuffler 64 false) = true ∧ (127 : Nat) ≤ 127 :=
  ⟨by decide, claim_C9 (mkShuffler 64 false) [127] 127 (by decide) (by decide)
    (by decide)⟩

theorem bitLengthFuel_congr : ∀ (f : Nat), ∀ (g n : Nat), n ≤ f → n ≤ g →
    bitLengthFuel f n = bitLengthFuel g n := by
  intro f
  induction f with
  | zero =>
    intro g n hf hg
    have hn : n = 0 := by omega
    subst hn
    cases g with
    | zero => rfl
    | succ g2 =>
      show 0 = bitLengthFuel (g2 + 1) 0
      unfold bitLengthFuel
      rw [if_pos rfl]
  | succ f2 ih =>
    intro g n hf hg
    by_cases hn : n = 0
    · subst hn
      cases g with
      | zero => rfl
      | succ g2 =>
        show bitLengthFuel (f2 + 1) 0 = bitLengthFuel (g2 + 1) 0
        unfold bitLengthFuel
        rw [if_pos rfl, if_pos rfl]
    · cases g with
      | zero => omega
      | succ g2 =>
        show bitLengthFuel (f2 + 1) n = bitLengthFuel (g2 + 1) n
        unfold bitLengthFuel
        rw [if_neg hn, if_neg hn]
        have hhalf : n / 2 ≤ f2 := by omega
        have hhalf2 : n / 2 ≤ g2 := by omega
        rw [ih g2 (n / 2) hhalf hhalf2]

theorem bitLength_rec (n : Nat) (hn : n ≠ 0) :
    bitLength n = bitLength (n / 2) + 1 := by
  have hstep : ∀ (f n2 : Nat), bitLengthFuel (f + 1) n2 =
      if n2 = 0 then 0 else bitLengthFuel f (n2 / 2) + 1 := fun f n2 => rfl
  cases n with
  | zero => exact absurd rfl hn
  | succ m =>
    show bitLengthFuel (m + 1) (m + 1) = bitLength ((m + 1) / 2) + 1
    rw [hstep, if_neg hn]
    rw [bitLengthFuel_congr m ((m + 1) / 2) ((m + 1) / 2) (by omega) (Nat.le_refl _)]
    rfl

theorem lt_two_pow_bitLength : ∀ n : Nat, n < 2 ^ bitLength n := by
  intro n
  induction n using Nat.strong_induction_on with
  | _ n ih =>
    by_cases hn : n = 0
    · subst hn
      decide
    · rw [bitLength_rec n hn]
      have := ih (n / 2) (by omega)
      rw [pow_succ]
      omega

theorem bitLength_le_of_lt : ∀ (k n : Nat), n < 2 ^ k → bitLength n ≤ k := by
  intro k
  induction k with
  | zero =>
    intro n hk
    have hn : n = 0 := by
      have : (2 : Nat) ^ 0 = 1 := by norm_num
      omega
    subst hn
    exact Nat.le_refl _
  | succ k2 ih =>
    intro n hk
    by_cases hn : n = 0
    · subst hn
      show bitLength 0 ≤ k2 + 1
      have : bitLength 0 = 0 := rfl
      omega
    · rw [bitLength_rec n hn]
      have hhalf : n / 2 < 2 ^ k2 := by
        rw [pow_succ] at hk
        omega
      have := ih (n / 2) hhalf
      omega

theorem bitLength_mono (n m : Nat) (h : n ≤ m) : bitLength n ≤ bitLength m := by
  have h1 := lt_two_pow_bitLength m
  exact bitLength_le_of_lt (bitLength m) n (by omega)

theorem size_le_two_pow_sbl (size : Nat) : size ≤ 2 ^ sizeBitLength size := by
  unfold sizeBitLength
  have h1 := lt_two_pow_bitLength (size - 1)
  have h2 : (2 : Nat) ^ bitLength (size - 1) ≤ 2 ^ max (bitLength (size - 1)) 6 :=
    Nat.pow_le_pow_right (by omega) (Nat.le_max_left _ _)
  omega

theorem sbl_ge_six (size : Nat) : 6 ≤ sizeBitLength size := Nat.le_max_right _ _

theorem sbl_mono (n m : Nat) (h : n ≤ m) : sizeBitLength n ≤ sizeBitLength m := by
  unfold sizeBitLength
  have := bitLength_mono (n - 1) (m - 1) (by omega)
  omega

theorem wf_zeroTree : ∀ b : Nat, 5 ≤ b → wf (zeroTree b) b = true := by
  intro b
  induction b using Nat.strong_induction_on with
  | _ b ih =>
    intro hb
    match b, hb with
    | 5, _ => decide
    | (m + 6), _ =>
      show wf (.node (m + 6) 0 (zeroTree (m + 5)) (zeroTree (m + 5))) (m + 6) = true
      have h5 : 5 ≤ m + 5 := by omega
      have hz := ih (m + 5) (by omega) h5
      simp only [wf, Bool.and_eq_true, beq_iff_eq, decide_eq_true_eq]
      have he : m + 6 - 1 = m + 5 := by omega
      rw [he]
      refine ⟨⟨⟨⟨trivial, by omega⟩, hz⟩, hz⟩, ?_⟩
      have hc : (zeroTree (m + 5)).struckCount = 0 := by
        match m with
        | 0 => rfl
        | m2 + 1 => rfl
      rw [hc]

theorem zeroTree_struckCount : ∀ b : Nat, (zeroTree b).struckCount = 0 := by
  intro b
  match b with
  | 0 | 1 | 2 | 3 | 4 | 5 => rfl
  | m + 6 => rfl

theorem struckAt_zeroTree : ∀ (b : Nat) (x : Nat), struckAt (zeroTree b) x = false := by
  intro b
  induction b using Nat.strong_induction_on with
  | _ b ih =>
    intro x
    match b with
    | 0 | 1 | 2 | 3 | 4 | 5 =>
      show struckAt (.term 0 0) x = false
      simp [struckAt]
    | m + 6 =>
      show struckAt (.node (m + 6) 0 (zeroTree (m + 5)) (zeroTree (m + 5))) x = false
      simp only [struckAt]
      split
      · exact ih (m + 5) (by omega) _
      · exact ih (m + 5) (by omega) _

theorem wf_count_zero : ∀ (t : Tree) (b : Nat), wf t b = true →
    t.struckCount = 0 → t = zeroTree b := by
  intro t
  induction t with
  | term c bmp =>
    intro b hwf hc
    simp only [wf, Bool.and_eq_true, beq_iff_eq, decide_eq_true_eq] at hwf
    obtain ⟨⟨hb5, hlt⟩, hpc⟩ := hwf
    subst hb5
    have hc0 : c = 0 := hc
    subst hc0
    have hb0 : bmp = 0 := by
      have := popCount_eq_zero (x := bmp)
      omega
    subst hb0
    rfl
  | node bn c r l ihr ihl =>
    intro b hwf hc
    simp only [wf, Bool.and_eq_true, beq_iff_eq, decide_eq_true_eq] at hwf
    obtain ⟨⟨⟨⟨hbn, hb6⟩, hwr⟩, hwl⟩, hsum⟩ := hwf
    subst hbn
    have hc0 : c = 0 := hc
    have hr0 : r.struckCount = 0 := by omega
    have hl0 : l.struckCount = 0 := by omega
    have hr := ihr (bn - 1) hwr hr0
    have hl := ihl (bn - 1) hwl hl0
    match bn, hb6 with
    | (m + 6), _ =>
      show Tree.node (m + 6) c r l = .node (m + 6) 0 (zeroTree (m + 5)) (zeroTree (m + 5))
      have he : m + 6 - 1 = m + 5 := by omega
      rw [he] at hr hl
      rw [hc0, hr, hl]

theorem StoreOK_zero : ∀ (b key : Nat) (store : Store), 5 ≤ b →
    2 ^ (b + 2) ≤ key + 128 →
    (∀ κ, key + 128 ≤ κ + 2 ^ (b + 2) → κ ≤ key → store κ = none) →
    StoreOK (zeroTree b) key store = true := by
  intro b
  induction b using Nat.strong_induction_on with
  | _ b ih =>
    intro key store hb hkey hnone
    match b, hb with
    | 5, _ =>
      show StoreOK (.term 0 0) key store = true
      show (if (0 : Nat) = 0 then store key == none else _) = true
      rw [if_pos rfl, hnone key (by norm_num) (Nat.le_refl _)]
      rfl
    | (m + 6), _ =>
      show StoreOK (.node (m + 6) 0 (zeroTree (m + 5)) (zeroTree (m + 5))) key store
        = true
      have hP1 : 2 ^ (m + 7) = 2 * 2 ^ (m + 6) := by rw [pow_succ]; ring
      have hP2 : 2 ^ (m + 8) = 4 * 2 ^ (m + 6) := by rw [pow_succ, pow_succ]; ring
      have hP3 : 64 ≤ 2 ^ (m + 6) := by
        calc (64 : Nat) = 2 ^ 6 := by norm_num
        _ ≤ 2 ^ (m + 6) := Nat.pow_le_pow_right (by omega) (by omega)
      have hkey2 : 2 ^ (m + 8) ≤ key + 128 := by
        show 2 ^ (m + 6 + 2) ≤ key + 128
        exact hkey
      have he1 : m + 6 + 1 = m + 7 := rfl
      have he2 : m + 6 + 2 = m + 8 := rfl
      have he3 : m + 5 + 2 = m + 7 := rfl
      rw [he2] at hnone
      show ((if (0 : Nat) = 0 then store key == none
          else store key == some ⟨0, 0⟩) &&
        StoreOK (zeroTree (m + 5)) (key - 2 ^ (m + 6 + 1)) store &&
        StoreOK (zeroTree (m + 5)) (key - 1) store) = true
      rw [he1]
      rw [Bool.and_eq_true, Bool.and_eq_true]
      refine ⟨⟨?_, ?_⟩, ?_⟩
      · rw [if_pos rfl, hnone key (by omega) (Nat.le_refl _)]
        rfl
      · apply ih (m + 5) (by omega) (key - 2 ^ (m + 7)) store (by omega)
        · rw [he3]
          omega
        · intro κ h1 h2
          rw [he3] at h1
          exact hnone κ (by omega) (by omega)
      · apply ih (m + 5) (by omega) (key - 1) store (by omega)
        · rw [he3]
          omega
        · intro κ h1 h2
          rw [he3] at h1
          exact hnone κ (by omega) (by omega)

theorem restoreTreeF_false : ∀ (f : Nat) (store : Store) (key : Nat),
    restoreTreeF f store key false = zeroTree (f + 5) := by
  intro f
  induction f with
  | zero =>
    intro store key
    rfl
  | succ f2 ih =>
    intro store key
    show restoreTreeF (f2 + 1) store key false = zeroTree (f2 + 6)
    unfold restoreTreeF
    rw [ih, ih]
    rfl

theorem restoreTreeF_none : ∀ (f : Nat) (store : Store) (key : Nat),
    store key = none → restoreTreeF f store key true = zeroTree (f + 5) := by
  intro f store key hk
  cases f with
  | zero =>
    show restoreTreeF 0 store key true = .term 0 0
    unfold restoreTreeF
    rw [if_pos rfl, hk]
  | succ f2 =>
    show restoreTreeF (f2 + 1) store key true = zeroTree (f2 + 6)
    unfold restoreTreeF
    rw [if_pos rfl, hk]
    show Tree.node (f2 + 6) 0 (restoreTreeF f2 store (key - 2 ^ (f2 + 7)) false)
      (restoreTreeF f2 store (key - 1) false) = _
    rw [restoreTreeF_false, restoreTreeF_false]
    rfl

theorem restoreTreeF_eq : ∀ (t : Tree) (b key : Nat) (store : Store),
    wf t b = true → StoreOK t key store = true →
    restoreTreeF (b - 5) store key true = t := by
  intro t
  induction t with
  | term c bmp =>
    intro b key store hwf hst
    simp only [wf, Bool.and_eq_true, beq_iff_eq, decide_eq_true_eq] at hwf
    obtain ⟨⟨hb5, hlt⟩, hpc⟩ := hwf
    subst hb5
    show restoreTreeF 0 store key true = .term c bmp
    unfold restoreTreeF
    rw [if_pos rfl]
    by_cases hc : c = 0
    · subst hc
      have hk : store key = none := by
        have : (store key == none) = true := by
          have h2 : StoreOK (.term 0 bmp) key store =
              (store key == none) := by
            show (if (0 : Nat) = 0 then store key == none else _) = _
            rw [if_pos rfl]
          rw [← h2, hst]
        exact eq_of_beq this
      rw [hk]
      have hb0 : bmp = 0 := by
        have := popCount_eq_zero (x := bmp)
        omega
      rw [hb0]
    · have hk : store key = some ⟨c, bmp⟩ := by
        have : (store key == some ⟨c, bmp⟩) = true := by
          have h2 : StoreOK (.term c bmp) key store =
              (store key == some ⟨c, bmp⟩) := by
            show (if c = 0 then store key == none else _) = _
            rw [if_neg hc]
          rw [← h2, hst]
        exact eq_of_beq this
      rw [hk]
  | node bn c r l ihr ihl =>
    intro b key store hwf hst
    simp only [wf, Bool.and_eq_true, beq_iff_eq, decide_eq_true_eq] at hwf
    obtain ⟨⟨⟨⟨hbn, hb6⟩, hwr⟩, hwl⟩, hsum⟩ := hwf
    subst hbn
    simp only [StoreOK, Bool.and_eq_true] at hst
    obtain ⟨⟨hself, hstr⟩, hstl⟩ := hst
    obtain ⟨m, hm⟩ : ∃ m, bn = m + 6 := ⟨bn - 6, by omega⟩
    subst hm
    show restoreTreeF (m + 1) store key true = .node (m + 6) c r l
    unfold restoreTreeF
    rw [if_pos rfl]
    by_cases hc : c = 0
    · subst hc
      rw [if_pos rfl] at hself
      have hk : store key = none := eq_of_beq hself
      rw [hk]
      have hr0 : r.struckCount = 0 := by omega
      have hl0 : l.struckCount = 0 := by omega
      have hr := wf_count_zero r (m + 6 - 1) hwr hr0
      have hl := wf_count_zero l (m + 6 - 1) hwl hl0
      rw [restoreTreeF_false, restoreTreeF_false, hr, hl]
      rfl
    · rw [if_neg hc] at hself
      have hk : store key = some ⟨c, 0⟩ := eq_of_beq hself
      rw [hk]
      show Tree.node (m + 6) c
        (restoreTreeF m store (key - 2 ^ (m + 7)) (c != 0))
        (restoreTreeF m store (key - 1) (c != 0)) = _
      have hcb : (c != 0) = true := by
        simp
        omega
      rw [hcb]
      have hr := ihr (m + 6 - 1) (key - 2 ^ (m + 6 + 1)) store hwr hstr
      have hl := ihl (m + 6 - 1) (key - 1) store hwl hstl
      rw [show restoreTreeF m store (key - 2 ^ (m + 7)) true = r from hr,
        show restoreTreeF m store (key - 1) true = l from hl]

theorem StoreOK_zero_spine : ∀ (b b2 : Nat) (store : Store), 5 ≤ b2 → b2 ≤ b →
    StoreOK (zeroTree b) (2 ^ (b + 2) - 1) store = true →
    StoreOK (zeroTree b2) (2 ^ (b2 + 2) - 1) store = true := by
  intro b
  induction b using Nat.strong_induction_on with
  | _ b ih =>
    intro b2 store hb2 hle hst
    by_cases heq : b2 = b
    · subst heq
      exact hst
    · obtain ⟨m, hm⟩ : ∃ m, b = m + 6 := ⟨b - 6, by omega⟩
      subst hm
      show StoreOK (zeroTree b2) (2 ^ (b2 + 2) - 1) store = true
      have hst2 : StoreOK (zeroTree (m + 5)) (2 ^ (m + 5 + 2) - 1) store = true := by
        have hun : StoreOK (zeroTree (m + 6)) (2 ^ (m + 6 + 2) - 1) store =
            ((if (0 : Nat) = 0 then store (2 ^ (m + 6 + 2) - 1) == none
              else store (2 ^ (m + 6 + 2) - 1) == some ⟨0, 0⟩) &&
             StoreOK (zeroTree (m + 5)) (2 ^ (m + 6 + 2) - 1 - 2 ^ (m + 6 + 1)) store &&
             StoreOK (zeroTree (m + 5)) (2 ^ (m + 6 + 2) - 1 - 1) store) := rfl
        rw [hun, Bool.and_eq_true, Bool.and_eq_true] at hst
        obtain ⟨⟨-, hstr⟩, -⟩ := hst
        have hk : 2 ^ (m + 6 + 2) - 1 - 2 ^ (m + 6 + 1) = 2 ^ (m + 5 + 2) - 1 := by
          have h1 : (2 : Nat) ^ (m + 8) = 2 * 2 ^ (m + 7) := by rw [pow_succ]; ring
          have h2 : (1 : Nat) ≤ 2 ^ (m + 7) := Nat.one_le_two_pow
          show 2 ^ (m + 8) - 1 - 2 ^ (m + 7) = 2 ^ (m + 7) - 1
          omega
        rw [hk] at hstr
        exact hstr
      exact ih (m + 5) (by omega) b2 store hb2 (by omega) hst2

theorem count_pos_of_struckAt : ∀ (t : Tree) (b j : Nat), wf t b = true →
    struckAt t j = true → 1 ≤ t.struckCount := by
  intro t
  induction t with
  | term c bmp =>
    intro b j hwf hj
    simp only [wf, Bool.and_eq_true, beq_iff_eq, decide_eq_true_eq] at hwf
    obtain ⟨⟨-, -⟩, hpc⟩ := hwf
    have hb0 : bmp ≠ 0 := by
      intro h0
      rw [show struckAt (.term c bmp) j = Nat.testBit bmp j from rfl, h0,
        Nat.zero_testBit] at hj
      exact absurd hj (by simp)
    have := popCount_eq_zero (x := bmp)
    show 1 ≤ c
    omega
  | node bn c r l ihr ihl =>
    intro b j hwf hj
    simp only [wf, Bool.and_eq_true, beq_iff_eq, decide_eq_true_eq] at hwf
    obtain ⟨⟨⟨⟨hbn, hb6⟩, hwr⟩, hwl⟩, hsum⟩ := hwf
    rw [show struckAt (.node bn c r l) j =
      (if Nat.testBit j bn then struckAt l (j % 2 ^ bn)
        else struckAt r (j % 2 ^ bn)) from rfl] at hj
    show 1 ≤ c
    by_cases hbit : Nat.testBit j bn
    · rw [if_pos hbit] at hj
      have := ihl (b - 1) (j % 2 ^ bn) hwl hj
      omega
    · rw [if_neg hbit] at hj
      have := ihr (b - 1) (j % 2 ^ bn) hwr hj
      omega

theorem unstruckIn_mono (t : Tree) (n m : Nat) (h : n ≤ m) :
    unstruckIn t n ≤ unstruckIn t m := by
  unfold unstruckIn
  exact Finset.card_le_card (Finset.filter_subset_filter _
    (Finset.range_subset.mpr h))

theorem unstruckIn_ext : ∀ (t : Tree) (d n : Nat),
    (∀ v, n ≤ v → v < n + d → struckAt t v = false) →
    unstruckIn t (n + d) = unstruckIn t n + d := by
  intro t d
  induction d with
  | zero =>
    intro n h
    rfl
  | succ d2 ih =>
    intro n h
    have h1 : unstruckIn t (n + d2 + 1) =
        unstruckIn t (n + d2) + (if struckAt t (n + d2) = false then 1 else 0) :=
      unstruckIn_succ t (n + d2)
    have h2 : struckAt t (n + d2) = false := h (n + d2) (by omega) (by omega)
    rw [show n + (d2 + 1) = n + d2 + 1 from rfl, h1, if_pos h2,
      ih n (fun v hv1 hv2 => h v hv1 (by omega))]
    omega

theorem unstruck_lt_of_unstruckIn (t : Tree) (v n : Nat)
    (hv : unstruckIn t v < unstruckIn t n) : v < n := by
  by_contra hge
  push_neg at hge
  have := unstruckIn_mono t n v hge
  omega

theorem bmClear_testBit (w v b : Nat) (hv : v < 2 ^ w) (hb : b < w) :
    ∀ i, Nat.testBit (bmClear w v b) i =
      (Nat.testBit v i && !(decide (b = i))) := by
  intro i
  unfold bmClear
  rw [Nat.testBit_and, Nat.testBit_xor, Nat.testBit_two_pow,
    Nat.testBit_two_pow_sub_one]
  by_cases hi : i < w
  · rw [decide_eq_true hi]
    cases h1 : decide (b = i) <;> cases h2 : Nat.testBit v i <;> rfl
  · have hvb : Nat.testBit v i = false :=
      Nat.testBit_lt_two_pow (lt_of_lt_of_le hv
        (Nat.pow_le_pow_right (by omega) (by omega)))
    have hbi : decide (b = i) = false := by
      simp
      omega
    have hiw : decide (i < w) = false := by
      simp
      omega
    rw [hvb, hbi, hiw]
    rfl

theorem popCount_clear (w v b : Nat) (hv : v < 2 ^ w) (hb : b < w)
    (hset : Nat.testBit v b = true) :
    popCount (bmClear w v b) = popCount v - 1 ∧
    v = bmClear w v b + 2 ^ b := by
  have hcl := bmClear_spec w v b hv hb hset
  have hle : 2 ^ b ≤ v := Nat.testBit_implies_ge hset
  have hbit : Nat.testBit (bmClear w v b) b = false := by
    rw [bmClear_testBit w v b hv hb b]
    simp
  have hadd : v = bmClear w v b + 2 ^ b := by omega
  have hpc : popCount (bmClear w v b + 2 ^ b) = popCount (bmClear w v b) + 1 :=
    popCount_add_two_pow _ b hbit
  constructor
  · rw [← hadd] at hpc
    omega
  · exact hadd

theorem lt_pow_of_testBit_false (x n : Nat) (hx : x < 2 ^ (n + 1))
    (hb : Nat.testBit x n = false) : x < 2 ^ n := by
  by_contra hge
  push_neg at hge
  have hd : x = 2 ^ n + (x - 2 ^ n) := by omega
  have h2 : Nat.testBit x n = true := by
    rw [hd, Nat.testBit_two_pow_add_eq,
      Nat.testBit_lt_two_pow (show x - 2 ^ n < 2 ^ n by
        rw [pow_succ] at hx
        omega)]
    rfl
  rw [h2] at hb
  exact absurd hb (by simp)

theorem mod_two_pow_testBit (ls bn : Nat) :
    Nat.testBit (ls % 2 ^ (bn + 1)) bn = Nat.testBit ls bn := by
  rw [Nat.testBit_mod_two_pow]
  have hd : decide (bn < bn + 1) = true := by
    simp
  rw [hd]
  simp

theorem mod_mod_two_pow (ls bn : Nat) :
    ls % 2 ^ (bn + 1) % 2 ^ bn = ls % 2 ^ bn :=
  Nat.mod_mod_of_dvd _ (pow_dvd_pow 2 (by omega))

theorem high_decompose (x n : Nat) (hx : x < 2 ^ (n + 1))
    (hb : Nat.testBit x n = true) :
    x % 2 ^ n = x - 2 ^ n ∧ 2 ^ n ≤ x := by
  have hge : 2 ^ n ≤ x := Nat.testBit_implies_ge hb
  have hP : 2 ^ (n + 1) = 2 * 2 ^ n := by rw [pow_succ]; ring
  have hlt : x - 2 ^ n < 2 ^ n := by omega
  have hsplit : x = 2 ^ n + (x - 2 ^ n) := by omega
  constructor
  · conv_lhs => rw [hsplit]
    rw [Nat.add_mod_left, Nat.mod_eq_of_lt hlt]
  · exact hge

theorem and63_eq_mod (ls : Nat) : ls &&& 63 = ls % 64 := by
  have h1 : (63 : Nat) = 2 ^ 6 - 1 := by norm_num
  have h2 : (64 : Nat) = 2 ^ 6 := by norm_num
  rw [h1, h2, Nat.and_pow_two_sub_one_eq_mod]

theorem reserveTree_spec : ∀ (t : Tree) (b key ls : Nat) (store : Store),
    wf t b = true → struckAt t (ls % 2 ^ (b + 1)) = false →
    StoreOK t key store = true → 2 ^ (b + 2) ≤ key + 128 →
    wf (reserveTree t key ls store).1 b = true ∧
    ((reserveTree t key ls store).1).struckCount = t.struckCount + 1 ∧
    (∀ x, x < 2 ^ (b + 1) → struckAt (reserveTree t key ls store).1 x =
      (struckAt t x || decide (x = ls % 2 ^ (b + 1)))) ∧
    StoreOK (reserveTree t key ls store).1 key
      (reserveTree t key ls store).2 = true ∧
    (∀ κ, key < κ ∨ κ + 2 ^ (b + 2) < key + 128 →
      (reserveTree t key ls store).2 κ = store κ) := by
  intro t
  induction t with
  | term c bmp =>
    intro b key ls store hwf hls hst hkey
    simp only [wf, Bool.and_eq_true, beq_iff_eq, decide_eq_true_eq] at hwf
    obtain ⟨⟨hb5, hlt⟩, hc⟩ := hwf
    subst hb5
    have h64 : (2 : Nat) ^ (5 + 1) = 64 := by norm_num
    have hbit : Nat.testBit bmp (ls % 64) = false := by
      rw [show struckAt (.term c bmp) (ls % 2 ^ (5 + 1)) =
        Nat.testBit bmp (ls % 2 ^ (5 + 1)) from rfl, h64] at hls
      exact hls
    have hmlt : ls % 64 < 64 := Nat.mod_lt _ (by omega)
    have hnv : reserveTree (.term c bmp) key ls store =
        (.term (c + 1) (bmSet bmp (ls &&& 63)),
          storeSave store key ⟨c + 1, bmSet bmp (ls &&& 63)⟩) := rfl
    have hand := and63_eq_mod ls
    have hsetadd : bmSet bmp (ls &&& 63) = bmp + 2 ^ (ls % 64) := by
      rw [hand]
      exact or_two_pow_eq_add bmp _ hbit
    refine ⟨?_, ?_, ?_, ?_, ?_⟩
    · rw [hnv]
      simp only [wf, Bool.and_eq_true, beq_iff_eq, decide_eq_true_eq]
      refine ⟨⟨trivial, ?_⟩, ?_⟩
      · have hpow : 2 ^ (ls % 64) < 2 ^ 64 := by
          have h1 : 2 ^ (ls % 64) ≤ 2 ^ 63 :=
            Nat.pow_le_pow_right (by omega) (by omega)
          have h2 : (2 : Nat) ^ 63 < 2 ^ 64 := by norm_num
          omega
        have hor := Nat.or_lt_two_pow (n := 64) hlt hpow
        have hbs : bmSet bmp (ls &&& 63) = bmp ||| 2 ^ (ls % 64) := by
          unfold bmSet
          rw [hand]
        omega
      · rw [hsetadd, popCount_add_two_pow bmp _ hbit]
        omega
    · rw [hnv]
      rfl
    · intro x hx
      rw [hnv]
      show Nat.testBit (bmSet bmp (ls &&& 63)) x = _
      rw [hand] at hsetadd ⊢
      rw [show struckAt (.term c bmp) x = Nat.testBit bmp x from rfl]
      rw [bmSet_testBit, h64]
      by_cases hxe : x = ls % 64
      · subst hxe
        simp
      · have h1 : decide (ls % 64 = x) = false := by simp; omega
        have h2 : decide (x = ls % 64) = false := by simp; omega
        rw [h1, h2]
    · rw [hnv]
      show (if c + 1 = 0 then _ else
        (storeSave store key ⟨c + 1, bmSet bmp (ls &&& 63)⟩) key ==
          some ⟨c + 1, bmSet bmp (ls &&& 63)⟩) = true
      rw [if_neg (by omega)]
      unfold storeSave
      rw [if_pos rfl]
      simp
    · intro κ hκ
      rw [hnv]
      show storeSave store key ⟨c + 1, bmSet bmp (ls &&& 63)⟩ κ = store κ
      unfold storeSave
      rw [if_neg (by omega)]
  | node bn c r l ihr ihl =>
    intro b key ls store hwf hls hst hkey
    simp only [wf, Bool.and_eq_true, beq_iff_eq, decide_eq_true_eq] at hwf
    obtain ⟨⟨⟨⟨hbn, hb6⟩, hwr⟩, hwl⟩, hc⟩ := hwf
    subst hbn
    have hP1 : 2 ^ (bn + 1) = 2 * 2 ^ bn := by rw [pow_succ]; ring
    have hP2 : 2 ^ (bn + 2) = 4 * 2 ^ bn := by rw [pow_succ, pow_succ]; ring
    have hP3 : 64 ≤ 2 ^ bn := by
      calc (64 : Nat) = 2 ^ 6 := by norm_num
      _ ≤ 2 ^ bn := Nat.pow_le_pow_right (by omega) hb6
    have hbb1 : bn - 1 + 1 = bn := by omega
    have hbb2 : bn - 1 + 2 = bn + 1 := by omega
    simp only [StoreOK, Bool.and_eq_true] at hst
    obtain ⟨⟨hstself, hstr⟩, hstl⟩ := hst
    have hkeyr : 2 ^ (bn - 1 + 2) ≤ (key - 2 ^ (bn + 1)) + 128 := by
      rw [hbb2]
      omega
    have hkeyl : 2 ^ (bn - 1 + 2) ≤ (key - 1) + 128 := by
      rw [hbb2]
      omega
    have hkey_big : 2 ^ (bn + 1) ≤ key := by omega
    have hjlt : ls % 2 ^ (bn + 1) < 2 ^ (bn + 1) := Nat.mod_lt _ (by omega)
    have htb := mod_two_pow_testBit ls bn
    have hmm := mod_mod_two_pow ls bn
    by_cases hclear : bmIsClear ls bn = true
    · have hbit : Nat.testBit ls bn = false := by
        rw [bmIsClear_iff] at hclear
        cases h : Nat.testBit ls bn
        · rfl
        · rw [h] at hclear
          simp at hclear
      have hjbit : Nat.testBit (ls % 2 ^ (bn + 1)) bn = false := by
        rw [htb, hbit]
      have hjlow : ls % 2 ^ (bn + 1) < 2 ^ bn :=
        lt_pow_of_testBit_false _ bn hjlt hjbit
      have hjeq : ls % 2 ^ (bn + 1) = ls % 2 ^ bn := by
        have := Nat.mod_eq_of_lt hjlow
        rw [← hmm, this]
      have hlsr : struckAt r (ls % 2 ^ (bn - 1 + 1)) = false := by
        rw [hbb1]
        rw [show struckAt (.node bn c r l) (ls % 2 ^ (bn + 1)) =
          (if Nat.testBit (ls % 2 ^ (bn + 1)) bn then
            struckAt l (ls % 2 ^ (bn + 1) % 2 ^ bn)
            else struckAt r (ls % 2 ^ (bn + 1) % 2 ^ bn)) from rfl,
          if_neg (by rw [hjbit]; simp), hmm] at hls
        exact hls
      have hstr2 : StoreOK r (key - 2 ^ (bn + 1))
          (storeSave store key ⟨c + 1, 0⟩) = true := by
        have hcg := StoreOK_congr r (bn - 1) (key - 2 ^ (bn + 1)) store
          (storeSave store key ⟨c + 1, 0⟩) hwr hkeyr (fun κ h1 h2 => by
            unfold storeSave
            rw [if_neg (by omega)])
        rw [← hcg]
        exact hstr
      have hrec := ihr (bn - 1) (key - 2 ^ (bn + 1)) ls
        (storeSave store key ⟨c + 1, 0⟩) hwr hlsr hstr2 hkeyr
      obtain ⟨hv1, hv2, hv3, hv4, hv5⟩ := hrec
      rw [hbb1] at hv3
      rw [hbb2] at hv5
      have hnv : reserveTree (.node bn c r l) key ls store =
          (.node bn (c + 1) (reserveTree r (key - 2 ^ (bn + 1)) ls
              (storeSave store key ⟨c + 1, 0⟩)).1 l,
            (reserveTree r (key - 2 ^ (bn + 1)) ls
              (storeSave store key ⟨c + 1, 0⟩)).2) := by
        simp only [reserveTree]
        rw [if_pos hclear]
      refine ⟨?_, ?_, ?_, ?_, ?_⟩
      · rw [hnv]
        simp only [wf, Bool.and_eq_true, beq_iff_eq, decide_eq_true_eq]
        exact ⟨⟨⟨⟨trivial, hb6⟩, hv1⟩, hwl⟩, by rw [hv2]; omega⟩
      · rw [hnv]
        simp only [Tree.struckCount]
      · intro x hx
        rw [hnv]
        by_cases hxb : Nat.testBit x bn = true
        · have hxge : 2 ^ bn ≤ x := Nat.testBit_implies_ge hxb
          have hj : x - 2 ^ bn < 2 ^ bn := by omega
          have hxd : x = 2 ^ bn + (x - 2 ^ bn) := by omega
          rw [hxd, struckAt_node_high bn (c + 1) _ l _ hj,
            struckAt_node_high bn c r l _ hj]
          have hne : decide (2 ^ bn + (x - 2 ^ bn) = ls % 2 ^ (bn + 1)) = false := by
            simp
            omega
          rw [hne]
          simp
        · rw [Bool.not_eq_true] at hxb
          have hxlt : x < 2 ^ bn := lt_pow_of_testBit_false x bn hx hxb
          rw [struckAt_node_low bn (c + 1) _ l x hxlt,
            struckAt_node_low bn c r l x hxlt, hv3 x hxlt, hjeq]
      · rw [hnv]
        simp only [StoreOK, Bool.and_eq_true]
        refine ⟨⟨?_, hv4⟩, ?_⟩
        · have hfr := hv5 key (Or.inl (by omega))
          rw [if_neg (by omega), hfr]
          unfold storeSave
          rw [if_pos rfl]
          simp
        · have hcg := StoreOK_congr l (bn - 1) (key - 1) store
            (reserveTree r (key - 2 ^ (bn + 1)) ls
              (storeSave store key ⟨c + 1, 0⟩)).2 hwl hkeyl (fun κ h1 h2 => by
              rw [hbb2] at h1
              have hfr := hv5 κ (Or.inl (by omega))
              rw [hfr]
              unfold storeSave
              rw [if_neg (by omega)])
          rw [← hcg]
          exact hstl
      · intro κ hκ
        rw [hnv]
        have hfr := hv5 κ (by omega)
        rw [hfr]
        unfold storeSave
        rw [if_neg (by omega)]
    · have hbit : Nat.testBit ls bn = true := by
        rw [bmIsClear_iff] at hclear
        cases h : Nat.testBit ls bn
        · rw [h] at hclear
          simp at hclear
        · rfl
      have hjbit : Nat.testBit (ls % 2 ^ (bn + 1)) bn = true := by
        rw [htb, hbit]
      obtain ⟨hjmod, hjge⟩ := high_decompose _ bn hjlt hjbit
      have hlsl : struckAt l (ls % 2 ^ (bn - 1 + 1)) = false := by
        rw [hbb1]
        rw [show struckAt (.node bn c r l) (ls % 2 ^ (bn + 1)) =
          (if Nat.testBit (ls % 2 ^ (bn + 1)) bn then
            struckAt l (ls % 2 ^ (bn + 1) % 2 ^ bn)
            else struckAt r (ls % 2 ^ (bn + 1) % 2 ^ bn)) from rfl,
          if_pos (by rw [hjbit]), hmm] at hls
        exact hls
      have hstl2 : StoreOK l (key - 1)
          (storeSave store key ⟨c + 1, 0⟩) = true := by
        have hcg := StoreOK_congr l (bn - 1) (key - 1) store
          (storeSave store key ⟨c + 1, 0⟩) hwl hkeyl (fun κ h1 h2 => by
            unfold storeSave
            rw [if_neg (by omega)])
        rw [← hcg]
        exact hstl
      have hrec := ihl (bn - 1) (key - 1) ls
        (storeSave store key ⟨c + 1, 0⟩) hwl hlsl hstl2 hkeyl
      obtain ⟨hv1, hv2, hv3, hv4, hv5⟩ := hrec
      rw [hbb1] at hv3
      rw [hbb2] at hv5
      have hnv : reserveTree (.node bn c r l) key ls store =
          (.node bn (c + 1) r (reserveTree l (key - 1) ls
              (storeSave store key ⟨c + 1, 0⟩)).1,
            (reserveTree l (key - 1) ls
              (storeSave store key ⟨c + 1, 0⟩)).2) := by
        simp only [reserveTree]
        rw [if_neg hclear]
      refine ⟨?_, ?_, ?_, ?_, ?_⟩
      · rw [hnv]
        simp only [wf, Bool.and_eq_true, beq_iff_eq, decide_eq_true_eq]
        exact ⟨⟨⟨⟨trivial, hb6⟩, hwr⟩, hv1⟩, by rw [hv2]; omega⟩
      · rw [hnv]
        simp only [Tree.struckCount]
      · intro x hx
        rw [hnv]
        by_cases hxb : Nat.testBit x bn = true
        · have hxge : 2 ^ bn ≤ x := Nat.testBit_implies_ge hxb
          have hj : x - 2 ^ bn < 2 ^ bn := by omega
          have hxd : x = 2 ^ bn + (x - 2 ^ bn) := by omega
          rw [hxd, struckAt_node_high bn (c + 1) r _ _ hj,
            struckAt_node_high bn c r l _ hj, hv3 (x - 2 ^ bn) hj]
          by_cases hje : x - 2 ^ bn = ls % 2 ^ bn
          · have he1 : decide (x - 2 ^ bn = ls % 2 ^ bn) = true := by
              simp [hje]
            have he2 : decide (2 ^ bn + (x - 2 ^ bn) = ls % 2 ^ (bn + 1)) = true := by
              simp
              omega
            rw [he1, he2]
          · have he1 : decide (x - 2 ^ bn = ls % 2 ^ bn) = false := by
              simp
              omega
            have he2 : decide (2 ^ bn + (x - 2 ^ bn) = ls % 2 ^ (bn + 1)) = false := by
              simp
              omega
            rw [he1, he2]
        · rw [Bool.not_eq_true] at hxb
          have hxlt : x < 2 ^ bn := lt_pow_of_testBit_false x bn hx hxb
          rw [struckAt_node_low bn (c + 1) r _ x hxlt,
            struckAt_node_low bn c r l x hxlt]
          have hne : decide (x = ls % 2 ^ (bn + 1)) = false := by
            simp
            omega
          rw [hne]
          simp
      · rw [hnv]
        simp only [StoreOK, Bool.and_eq_true]
        refine ⟨⟨?_, ?_⟩, hv4⟩
        · have hfr := hv5 key (Or.inl (by omega))
          rw [if_neg (by omega), hfr]
          unfold storeSave
          rw [if_pos rfl]
          simp
        · have hcg := StoreOK_congr r (bn - 1) (key - 2 ^ (bn + 1)) store
            (reserveTree l (key - 1) ls
              (storeSave store key ⟨c + 1, 0⟩)).2 hwr hkeyr (fun κ h1 h2 => by
              rw [hbb2] at h1
              have hfr := hv5 κ (Or.inr (by omega))
              rw [hfr]
              unfold storeSave
              rw [if_neg (by omega)])
          rw [← hcg]
          exact hstr
      · intro κ hκ
        rw [hnv]
        have hfr := hv5 κ (by omega)
        rw [hfr]
        unfold storeSave
        rw [if_neg (by omega)]

theorem unreserveTree_spec : ∀ (t : Tree) (b key ls : Nat) (store : Store),
    wf t b = true → struckAt t (ls % 2 ^ (b + 1)) = true →
    StoreOK t key store = true → 2 ^ (b + 2) ≤ key + 128 →
    1 ≤ t.struckCount ∧
    wf (unreserveTree t key ls store).1 b = true ∧
    ((unreserveTree t key ls store).1).struckCount = t.struckCount - 1 ∧
    (∀ x, x < 2 ^ (b + 1) → struckAt (unreserveTree t key ls store).1 x =
      (struckAt t x && !(decide (x = ls % 2 ^ (b + 1))))) ∧
    StoreOK (unreserveTree t key ls store).1 key
      (unreserveTree t key ls store).2 = true ∧
    (∀ κ, key < κ ∨ κ + 2 ^ (b + 2) < key + 128 →
      (unreserveTree t key ls store).2 κ = store κ) := by
  intro t
  induction t with
  | term c bmp =>
    intro b key ls store hwf hls hst hkey
    simp only [wf, Bool.and_eq_true, beq_iff_eq, decide_eq_true_eq] at hwf
    obtain ⟨⟨hb5, hlt⟩, hc⟩ := hwf
    subst hb5
    have h64 : (2 : Nat) ^ (5 + 1) = 64 := by norm_num
    have hbit : Nat.testBit bmp (ls % 64) = true := by
      rw [show struckAt (.term c bmp) (ls % 2 ^ (5 + 1)) =
        Nat.testBit bmp (ls % 2 ^ (5 + 1)) from rfl, h64] at hls
      exact hls
    have hmlt : ls % 64 < 64 := Nat.mod_lt _ (by omega)
    have hand := and63_eq_mod ls
    have hc1 : 1 ≤ c := by
      have hb0 : bmp ≠ 0 := by
        intro h0
        rw [h0, Nat.zero_testBit] at hbit
        exact absurd hbit (by simp)
      have := popCount_eq_zero (x := bmp)
      omega
    have hclr := popCount_clear 64 bmp (ls % 64) hlt hmlt hbit
    obtain ⟨hpc2, hadd⟩ := hclr
    have hnv : unreserveTree (.term c bmp) key ls store =
        (.term (c - 1) (bmClear 64 bmp (ls &&& 63)),
          if c - 1 != 0 then
            storeSave store key ⟨c - 1, bmClear 64 bmp (ls &&& 63)⟩
          else storeDelete store key) := rfl
    have hblt : bmClear 64 bmp (ls &&& 63) < 2 ^ 64 := by
      have h1 : bmClear 64 bmp (ls &&& 63) ≤ bmp := Nat.and_le_left
      omega
    refine ⟨hc1, ?_, ?_, ?_, ?_, ?_⟩
    · rw [hnv]
      simp only [wf, Bool.and_eq_true, beq_iff_eq, decide_eq_true_eq]
      refine ⟨⟨trivial, hblt⟩, ?_⟩
      rw [hand, hpc2]
      omega
    · rw [hnv]
      rfl
    · intro x hx
      rw [hnv]
      show Nat.testBit (bmClear 64 bmp (ls &&& 63)) x = _
      rw [hand]
      rw [show struckAt (.term c bmp) x = Nat.testBit bmp x from rfl]
      rw [bmClear_testBit 64 bmp (ls % 64) hlt hmlt x, h64]
      by_cases hxe : x = ls % 64
      · subst hxe
        simp
      · have h1 : decide (ls % 64 = x) = false := by simp; omega
        have h2 : decide (x = ls % 64) = false := by simp; omega
        rw [h1, h2]
    · rw [hnv]
      by_cases hc0 : c - 1 = 0
      · have hb : (c - 1 != 0) = false := by simp; omega
        rw [hb]
        show (if c - 1 = 0 then storeDelete store key key == none else _) = true
        rw [if_pos hc0]
        unfold storeDelete
        rw [if_pos rfl]
        rfl
      · have hb : (c - 1 != 0) = true := by simp; omega
        rw [hb]
        show (if c - 1 = 0 then _ else
          storeSave store key ⟨c - 1, bmClear 64 bmp (ls &&& 63)⟩ key ==
            some ⟨c - 1, bmClear 64 bmp (ls &&& 63)⟩) = true
        rw [if_neg hc0]
        unfold storeSave
        rw [if_pos rfl]
        simp
    · intro κ hκ
      rw [hnv]
      cases h : (c - 1 != 0)
      · show storeDelete store key κ = store κ
        unfold storeDelete
        rw [if_neg (by omega)]
      · show storeSave store key ⟨c - 1, bmClear 64 bmp (ls &&& 63)⟩ κ = store κ
        unfold storeSave
        rw [if_neg (by omega)]
  | node bn c r l ihr ihl =>
    intro b key ls store hwf hls hst hkey
    simp only [wf, Bool.and_eq_true, beq_iff_eq, decide_eq_true_eq] at hwf
    obtain ⟨⟨⟨⟨hbn, hb6⟩, hwr⟩, hwl⟩, hc⟩ := hwf
    subst hbn
    have hP1 : 2 ^ (bn + 1) = 2 * 2 ^ bn := by rw [pow_succ]; ring
    have hP2 : 2 ^ (bn + 2) = 4 * 2 ^ bn := by rw [pow_succ, pow_succ]; ring
    have hP3 : 64 ≤ 2 ^ bn := by
      calc (64 : Nat) = 2 ^ 6 := by norm_num
      _ ≤ 2 ^ bn := Nat.pow_le_pow_right (by omega) hb6
    have hbb1 : bn - 1 + 1 = bn := by omega
    have hbb2 : bn - 1 + 2 = bn + 1 := by omega
    simp only [StoreOK, Bool.and_eq_true] at hst
    obtain ⟨⟨hstself, hstr⟩, hstl⟩ := hst
    have hkeyr : 2 ^ (bn - 1 + 2) ≤ (key - 2 ^ (bn + 1)) + 128 := by
      rw [hbb2]
      omega
    have hkeyl : 2 ^ (bn - 1 + 2) ≤ (key - 1) + 128 := by
      rw [hbb2]
      omega
    have hkey_big : 2 ^ (bn + 1) ≤ key := by omega
    have hjlt : ls % 2 ^ (bn + 1) < 2 ^ (bn + 1) := Nat.mod_lt _ (by omega)
    have htb := mod_two_pow_testBit ls bn
    have hmm := mod_mod_two_pow ls bn
    have hstore2 : ∀ κ, κ ≠ key →
        (if c - 1 != 0 then storeSave store key ⟨c - 1, 0⟩
          else storeDelete store key) κ = store κ := by
      intro κ hκ
      cases (c - 1 != 0)
      · show storeDelete store key κ = store κ
        unfold storeDelete
        rw [if_neg hκ]
      · show storeSave store key ⟨c - 1, 0⟩ κ = store κ
        unfold storeSave
        rw [if_neg hκ]
    by_cases hclear : bmIsClear ls bn = true
    · have hbit : Nat.testBit ls bn = false := by
        rw [bmIsClear_iff] at hclear
        cases h : Nat.testBit ls bn
        · rfl
        · rw [h] at hclear
          simp at hclear
      have hjbit : Nat.testBit (ls % 2 ^ (bn + 1)) bn = false := by
        rw [htb, hbit]
      have hjlow : ls % 2 ^ (bn + 1) < 2 ^ bn :=
        lt_pow_of_testBit_false _ bn hjlt hjbit
      have hjeq : ls % 2 ^ (bn + 1) = ls % 2 ^ bn := by
        have := Nat.mod_eq_of_lt hjlow
        rw [← hmm, this]
      have hlsr : struckAt r (ls % 2 ^ (bn - 1 + 1)) = true := by
        rw [hbb1]
        rw [show struckAt (.node bn c r l) (ls % 2 ^ (bn + 1)) =
          (if Nat.testBit (ls % 2 ^ (bn + 1)) bn then
            struckAt l (ls % 2 ^ (bn + 1) % 2 ^ bn)
            else struckAt r (ls % 2 ^ (bn + 1) % 2 ^ bn)) from rfl,
          if_neg (by rw [hjbit]; simp), hmm] at hls
        exact hls
      have hrc1 : 1 ≤ r.struckCount :=
        count_pos_of_struckAt r (bn - 1) _ hwr hlsr
      have hc1 : 1 ≤ c := by omega
      have hstr2 : StoreOK r (key - 2 ^ (bn + 1))
          (if c - 1 != 0 then storeSave store key ⟨c - 1, 0⟩
            else storeDelete store key) = true := by
        have hcg := StoreOK_congr r (bn - 1) (key - 2 ^ (bn + 1)) store _
          hwr hkeyr (fun κ h1 h2 => hstore2 κ (by omega))
        rw [← hcg]
        exact hstr
      have hrec := ihr (bn - 1) (key - 2 ^ (bn + 1)) ls _ hwr hlsr hstr2 hkeyr
      obtain ⟨hv0, hv1, hv2, hv3, hv4, hv5⟩ := hrec
      rw [hbb1] at hv3
      rw [hbb2] at hv5
      have hnv : unreserveTree (.node bn c r l) key ls store =
          (.node bn (c - 1) (unreserveTree r (key - 2 ^ (bn + 1)) ls
              (if c - 1 != 0 then storeSave store key ⟨c - 1, 0⟩
                else storeDelete store key)).1 l,
            (unreserveTree r (key - 2 ^ (bn + 1)) ls
              (if c - 1 != 0 then storeSave store key ⟨c - 1, 0⟩
                else storeDelete store key)).2) := by
        simp only [unreserveTree]
        rw [if_pos hclear]
      refine ⟨hc1, ?_, ?_, ?_, ?_, ?_⟩
      · rw [hnv]
        simp only [wf, Bool.and_eq_true, beq_iff_eq, decide_eq_true_eq]
        exact ⟨⟨⟨⟨trivial, hb6⟩, hv1⟩, hwl⟩, by rw [hv2]; omega⟩
      · rw [hnv]
        simp only [Tree.struckCount]
      · intro x hx
        rw [hnv]
        by_cases hxb : Nat.testBit x bn = true
        · have hxge : 2 ^ bn ≤ x := Nat.testBit_implies_ge hxb
          have hj : x - 2 ^ bn < 2 ^ bn := by omega
          have hxd : x = 2 ^ bn + (x - 2 ^ bn) := by omega
          rw [hxd, struckAt_node_high bn (c - 1) _ l _ hj,
            struckAt_node_high bn c r l _ hj]
          have hne : decide (2 ^ bn + (x - 2 ^ bn) = ls % 2 ^ (bn + 1)) = false := by
            simp
            omega
          rw [hne]
          simp
        · rw [Bool.not_eq_true] at hxb
          have hxlt : x < 2 ^ bn := lt_pow_of_testBit_false x bn hx hxb
          rw [struckAt_node_low bn (c - 1) _ l x hxlt,
            struckAt_node_low bn c r l x hxlt, hv3 x hxlt, hjeq]
      · rw [hnv]
        simp only [StoreOK, Bool.and_eq_true]
        refine ⟨⟨?_, hv4⟩, ?_⟩
        · have hfr := hv5 key (Or.inl (by omega))
          rw [hfr]
          by_cases hc0 : c - 1 = 0
          · rw [if_pos hc0]
            have hb : (c - 1 != 0) = false := by simp; omega
            rw [hb]
            show (storeDelete store key key == none) = true
            unfold storeDelete
            rw [if_pos rfl]
            rfl
          · rw [if_neg hc0]
            have hb : (c - 1 != 0) = true := by simp; omega
            rw [hb]
            show (storeSave store key ⟨c - 1, 0⟩ key == some ⟨c - 1, 0⟩) = true
            unfold storeSave
            rw [if_pos rfl]
            simp
        · have hcg := StoreOK_congr l (bn - 1) (key - 1) store
            (unreserveTree r (key - 2 ^ (bn + 1)) ls
              (if c - 1 != 0 then storeSave store key ⟨c - 1, 0⟩
                else storeDelete store key)).2 hwl hkeyl (fun κ h1 h2 => by
              rw [hbb2] at h1
              have hfr := hv5 κ (Or.inl (by omega))
              rw [hfr]
              exact hstore2 κ (by omega))
          rw [← hcg]
          exact hstl
      · intro κ hκ
        rw [hnv]
        have hfr := hv5 κ (by omega)
        rw [hfr]
        exact hstore2 κ (by omega)
    · have hbit : Nat.testBit ls bn = true := by
        rw [bmIsClear_iff] at hclear
        cases h : Nat.testBit ls bn
        · rw [h] at hclear
          simp at hclear
        · rfl
      have hjbit : Nat.testBit (ls % 2 ^ (bn + 1)) bn = true := by
        rw [htb, hbit]
      obtain ⟨hjmod, hjge⟩ := high_decompose _ bn hjlt hjbit
      have hlsl : struckAt l (ls % 2 ^ (bn - 1 + 1)) = true := by
        rw [hbb1]
        rw [show struckAt (.node bn c r l) (ls % 2 ^ (bn + 1)) =
          (if Nat.testBit (ls % 2 ^ (bn + 1)) bn then
            struckAt l (ls % 2 ^ (bn + 1) % 2 ^ bn)
            else struckAt r (ls % 2 ^ (bn + 1) % 2 ^ bn)) from rfl,
          if_pos (by rw [hjbit]), hmm] at hls
        exact hls
      have hlc1 : 1 ≤ l.struckCount :=
        count_pos_of_struckAt l (bn - 1) _ hwl hlsl
      have hc1 : 1 ≤ c := by omega
      have hstl2 : StoreOK l (key - 1)
          (if c - 1 != 0 then storeSave store key ⟨c - 1, 0⟩
            else storeDelete store key) = true := by
        have hcg := StoreOK_congr l (bn - 1) (key - 1) store _
          hwl hkeyl (fun κ h1 h2 => hstore2 κ (by omega))
        rw [← hcg]
        exact hstl
      have hrec := ihl (bn - 1) (key - 1) ls _ hwl hlsl hstl2 hkeyl
      obtain ⟨hv0, hv1, hv2, hv3, hv4, hv5⟩ := hrec
      rw [hbb1] at hv3
      rw [hbb2] at hv5
      have hnv : unreserveTree (.node bn c r l) key ls store =
          (.node bn (c - 1) r (unreserveTree l (key - 1) ls
              (if c - 1 != 0 then storeSave store key ⟨c - 1, 0⟩
                else storeDelete store key)).1,
            (unreserveTree l (key - 1) ls
              (if c - 1 != 0 then storeSave store key ⟨c - 1, 0⟩
                else storeDelete store key)).2) := by
        simp only [unreserveTree]
        rw [if_neg hclear]
      refine ⟨hc1, ?_, ?_, ?_, ?_, ?_⟩
      · rw [hnv]
        simp only [wf, Bool.and_eq_true, beq_iff_eq, decide_eq_true_eq]
        exact ⟨⟨⟨⟨trivial, hb6⟩, hwr⟩, hv1⟩, by rw [hv2]; omega⟩
      · rw [hnv]
        simp only [Tree.struckCount]
      · intro x hx
        rw [hnv]
        by_cases hxb : Nat.testBit x bn = true
        · have hxge : 2 ^ bn ≤ x := Nat.testBit_implies_ge hxb
          have hj : x - 2 ^ bn < 2 ^ bn := by omega
          have hxd : x = 2 ^ bn + (x - 2 ^ bn) := by omega
          rw [hxd, struckAt_node_high bn (c - 1) r _ _ hj,
            struckAt_node_high bn c r l _ hj, hv3 (x - 2 ^ bn) hj]
          by_cases hje : x - 2 ^ bn = ls % 2 ^ bn
          · have he1 : decide (x - 2 ^ bn = ls % 2 ^ bn) = true := by
              simp [hje]
            have he2 : decide (2 ^ bn + (x - 2 ^ bn) = ls % 2 ^ (bn + 1)) = true := by
              simp
              omega
            rw [he1, he2]
          · have he1 : decide (x - 2 ^ bn = ls % 2 ^ bn) = false := by
              simp
              omega
            have he2 : decide (2 ^ bn + (x - 2 ^ bn) = ls % 2 ^ (bn + 1)) = false := by
              simp
              omega
            rw [he1, he2]
        · rw [Bool.not_eq_true] at hxb
          have hxlt : x < 2 ^ bn := lt_pow_of_testBit_false x bn hx hxb
          rw [struckAt_node_low bn (c - 1) r _ x hxlt,
            struckAt_node_low bn c r l x hxlt]
          have hne : decide (x = ls % 2 ^ (bn + 1)) = false := by
            simp
            omega
          rw [hne]
          simp
      · rw [hnv]
        simp only [StoreOK, Bool.and_eq_true]
        refine ⟨⟨?_, ?_⟩, hv4⟩
        · have hfr := hv5 key (Or.inl (by omega))
          rw [hfr]
          by_cases hc0 : c - 1 = 0
          · rw [if_pos hc0]
            have hb : (c - 1 != 0) = false := by simp; omega
            rw [hb]
            show (storeDelete store key key == none) = true
            unfold storeDelete
            rw [if_pos rfl]
            rfl
          · rw [if_neg hc0]
            have hb : (c - 1 != 0) = true := by simp; omega
            rw [hb]
            show (storeSave store key ⟨c - 1, 0⟩ key == some ⟨c - 1, 0⟩) = true
            unfold storeSave
            rw [if_pos rfl]
            simp
        · have hcg := StoreOK_congr r (bn - 1) (key - 2 ^ (bn + 1)) store
            (unreserveTree l (key - 1) ls
              (if c - 1 != 0 then storeSave store key ⟨c - 1, 0⟩
                else storeDelete store key)).2 hwr hkeyr (fun κ h1 h2 => by
              rw [hbb2] at h1
              have hfr := hv5 κ (Or.inr (by omega))
              rw [hfr]
              exact hstore2 κ (by omega))
          rw [← hcg]
          exact hstr
      · intro κ hκ
        rw [hnv]
        have hfr := hv5 κ (by omega)
        rw [hfr]
        exact hstore2 κ (by omega)


theorem wf_node_intro (bn c : Nat) (r l : Tree) (hb : 6 ≤ bn)
    (hr : wf r (bn - 1) = true) (hl : wf l (bn - 1) = true)
    (hc : c = r.struckCount + l.struckCount) :
    wf (.node bn c r l) bn = true := by
  show (bn == bn && decide (6 ≤ bn) && wf r (bn - 1) && wf l (bn - 1) &&
    (c == r.struckCount + l.struckCount)) = true
  rw [hr, hl, hc]
  simp [hb]

theorem StoreOK_node_intro (bn c : Nat) (r l : Tree) (key : Nat) (store : Store)
    (hself : (if c = 0 then store key == none
      else store key == some ⟨c, 0⟩) = true)
    (hr : StoreOK r (key - 2 ^ (bn + 1)) store = true)
    (hl : StoreOK l (key - 1) store = true) :
    StoreOK (.node bn c r l) key store = true := by
  show ((if c = 0 then store key == none else store key == some ⟨c, 0⟩) &&
    StoreOK r (key - 2 ^ (bn + 1)) store && StoreOK l (key - 1) store) = true
  rw [hself, hr, hl]
  rfl

theorem storeSave_self (s : Store) (key : Nat) (st : NodeState) :
    storeSave s key st key = some st := by
  unfold storeSave
  rw [if_pos rfl]

theorem storeSave_ne (s : Store) (key : Nat) (st : NodeState) (κ : Nat)
    (h : κ ≠ key) : storeSave s key st κ = s κ := by
  unfold storeSave
  rw [if_neg h]

theorem storeDelete_self (s : Store) (key : Nat) :
    storeDelete s key key = none := by
  unfold storeDelete
  rw [if_pos rfl]

theorem storeDelete_ne (s : Store) (key κ : Nat) (h : κ ≠ key) :
    storeDelete s key κ = s κ := by
  unfold storeDelete
  rw [if_neg h]

theorem stampTree_spec : ∀ (f : Nat) (old : Tree) (β : Nat) (store : Store),
    5 ≤ β → β ≤ f + 5 → wf old β = true → old.struckCount ≠ 0 →
    StoreOK old (2 ^ (β + 2) - 1) store = true →
    (∀ κ, 2 ^ (β + 2) - 1 < κ → κ < 2 ^ (f + 8) → store κ = none) →
    wf (stampTree old.struckCount f store (2 ^ (f + 8) - 1)).1 (f + 6) = true ∧
    ((stampTree old.struckCount f store (2 ^ (f + 8) - 1)).1).struckCount =
      old.struckCount ∧
    (∀ x, x < 2 ^ (β + 1) →
      struckAt (stampTree old.struckCount f store (2 ^ (f + 8) - 1)).1 x =
        struckAt old x) ∧
    (∀ x, 2 ^ (β + 1) ≤ x → x < 2 ^ (f + 7) →
      struckAt (stampTree old.struckCount f store (2 ^ (f + 8) - 1)).1 x = false) ∧
    StoreOK (stampTree old.struckCount f store (2 ^ (f + 8) - 1)).1
      (2 ^ (f + 8) - 1)
      (stampTree old.struckCount f store (2 ^ (f + 8) - 1)).2 = true ∧
    (∀ κ, κ ≤ 2 ^ (β + 2) - 1 →
      (stampTree old.struckCount f store (2 ^ (f + 8) - 1)).2 κ = store κ) ∧
    (∀ κ, 2 ^ (f + 8) - 1 < κ →
      (stampTree old.struckCount f store (2 ^ (f + 8) - 1)).2 κ = store κ) ∧
    (∀ m, β + 3 ≤ m → m ≤ f + 8 →
      (stampTree old.struckCount f store (2 ^ (f + 8) - 1)).2 (2 ^ m - 1) =
        some ⟨old.struckCount, 0⟩) := by
  intro f
  induction f with
  | zero =>
    intro old β store h5β hβ5 hwold hoc hstold hK
    have hβ : β = 5 := by omega
    subst hβ
    have hE : (2 : Nat) ^ (0 + 8) = 256 := by norm_num
    have hE7 : (2 : Nat) ^ 7 = 128 := by norm_num
    have hE6 : (2 : Nat) ^ (5 + 1) = 64 := by norm_num
    have hEold : (2 : Nat) ^ (5 + 2) = 128 := by norm_num
    have hstold2 : StoreOK old (2 ^ (5 + 2) - 1)
        (storeSave store (2 ^ (0 + 8) - 1) ⟨old.struckCount, 0⟩) = true := by
      have hcg := StoreOK_congr old 5 (2 ^ (5 + 2) - 1) store
        (storeSave store (2 ^ (0 + 8) - 1) ⟨old.struckCount, 0⟩) hwold
        (by norm_num)
        (fun κ h1 h2 => storeSave_ne store _ _ κ (by omega))
      rw [← hcg]
      exact hstold
    have hr : restoreTreeF 0
        (storeSave store (2 ^ (0 + 8) - 1) ⟨old.struckCount, 0⟩)
        (2 ^ (0 + 8) - 1 - 2 ^ 7) true = old := by
      rw [show (2 : Nat) ^ (0 + 8) - 1 - 2 ^ 7 = 2 ^ (5 + 2) - 1 by omega]
      exact restoreTreeF_eq old 5 (2 ^ (5 + 2) - 1) _ hwold hstold2
    have hlnone : storeSave store (2 ^ (0 + 8) - 1) ⟨old.struckCount, 0⟩
        (2 ^ (0 + 8) - 1 - 1) = none := by
      rw [storeSave_ne store _ _ _ (by omega)]
      exact hK _ (by omega) (by omega)
    have hl : restoreTreeF 0
        (storeSave store (2 ^ (0 + 8) - 1) ⟨old.struckCount, 0⟩)
        (2 ^ (0 + 8) - 1 - 1) true = zeroTree 5 :=
      restoreTreeF_none 0 _ _ hlnone
    simp only [stampTree]
    rw [hr, hl]
    refine ⟨?_, ?_, ?_, ?_, ?_, ?_, ?_, ?_⟩
    · apply wf_node_intro 6 old.struckCount old (zeroTree 5) (by omega)
      · exact hwold
      · exact wf_zeroTree 5 (by omega)
      · simp [zeroTree_struckCount]
    · rfl
    · intro x hx
      rw [hE6] at hx
      exact struckAt_node_low 6 old.struckCount old (zeroTree 5) x
        (by have h26 : (2 : Nat) ^ 6 = 64 := by norm_num
            omega)
    · intro x hx1 hx2
      rw [hE6] at hx1
      rw [show (2 : Nat) ^ (0 + 7) = 128 by norm_num] at hx2
      have h26 : (2 : Nat) ^ 6 = 64 := by norm_num
      rw [show x = 2 ^ 6 + (x - 2 ^ 6) by omega,
        struckAt_node_high 6 old.struckCount old (zeroTree 5) (x - 2 ^ 6)
          (by omega),
        struckAt_zeroTree]
    · apply StoreOK_node_intro
      · rw [if_neg hoc, storeSave_self]
        simp
      · rw [show (2 : Nat) ^ (0 + 8) - 1 - 2 ^ (6 + 1) = 2 ^ (5 + 2) - 1 by
          norm_num]
        exact hstold2
      · apply StoreOK_zero 5 (2 ^ (0 + 8) - 1 - 1) _ (by omega) (by norm_num)
        intro κ h1 h2
        rw [storeSave_ne store _ _ κ (by norm_num at h1 h2 ⊢; omega)]
        exact hK κ (by norm_num at h1 h2 ⊢; omega) (by norm_num at h1 h2 ⊢; omega)
    · intro κ hκ
      exact storeSave_ne store _ _ κ (by omega)
    · intro κ hκ
      exact storeSave_ne store _ _ κ (by omega)
    · intro m hm1 hm2
      have hm : m = 8 := by omega
      subst hm
      show storeSave store (2 ^ (0 + 8) - 1) ⟨old.struckCount, 0⟩ (2 ^ 8 - 1) = _
      rw [show (2 : Nat) ^ 8 - 1 = 2 ^ (0 + 8) - 1 from rfl, storeSave_self]
  | succ f ih =>
    intro old β store h5β hβ6 hwold hoc hstold hK
    have hg7 : (2 : Nat) ^ (f + 1 + 8) = 2 * 2 ^ (f + 8) := by rw [pow_succ]; ring
    have hg6 : (2 : Nat) ^ (f + 8) = 2 * 2 ^ (f + 7) := by rw [pow_succ]; ring
    have hg5 : (2 : Nat) ^ (f + 7) = 2 * 2 ^ (f + 6) := by rw [pow_succ]; ring
    have hβ8 : (2 : Nat) ^ (β + 2) ≤ 2 ^ (f + 8) :=
      Nat.pow_le_pow_right (by omega) (by omega)
    have hβ7 : (2 : Nat) ^ (β + 1) ≤ 2 ^ (f + 7) :=
      Nat.pow_le_pow_right (by omega) (by omega)
    have h2pos : (1 : Nat) ≤ 2 ^ (β + 1) := Nat.one_le_two_pow
    have h2pos2 : (1 : Nat) ≤ 2 ^ (β + 2) := Nat.one_le_two_pow
    have hstold2 : StoreOK old (2 ^ (β + 2) - 1)
        (storeSave store (2 ^ (f + 1 + 8) - 1) ⟨old.struckCount, 0⟩) = true := by
      have hcg := StoreOK_congr old β (2 ^ (β + 2) - 1) store
        (storeSave store (2 ^ (f + 1 + 8) - 1) ⟨old.struckCount, 0⟩) hwold
        (by omega)
        (fun κ h1 h2 => storeSave_ne store _ _ κ (by omega))
      rw [← hcg]
      exact hstold
    by_cases hβtop : β = f + 6
    · have hr : restoreTreeF (f + 1)
          (storeSave store (2 ^ (f + 1 + 8) - 1) ⟨old.struckCount, 0⟩)
          (2 ^ (f + 1 + 8) - 1 - 2 ^ (f + 8)) true = old := by
        rw [show (2 : Nat) ^ (f + 1 + 8) - 1 - 2 ^ (f + 8) = 2 ^ (β + 2) - 1 by
          rw [hβtop]
          show 2 ^ (f + 1 + 8) - 1 - 2 ^ (f + 8) = 2 ^ (f + 6 + 2) - 1
          rw [show f + 6 + 2 = f + 8 from rfl]
          omega]
        have := restoreTreeF_eq old β (2 ^ (β + 2) - 1) _ hwold hstold2
        rw [show β - 5 = f + 1 by omega] at this
        exact this
      have hlnone : storeSave store (2 ^ (f + 1 + 8) - 1) ⟨old.struckCount, 0⟩
          (2 ^ (f + 1 + 8) - 1 - 1) = none := by
        rw [storeSave_ne store _ _ _ (by omega)]
        exact hK _ (by omega) (by omega)
      have hl : restoreTreeF (f + 1)
          (storeSave store (2 ^ (f + 1 + 8) - 1) ⟨old.struckCount, 0⟩)
          (2 ^ (f + 1 + 8) - 1 - 1) true = zeroTree (f + 6) :=
        restoreTreeF_none (f + 1) _ _ hlnone
      simp only [stampTree]
      rw [hr, hl]
      rw [if_pos (by simp only [bne_iff_ne, ne_eq]; exact hoc)]
      dsimp only
      refine ⟨?_, ?_, ?_, ?_, ?_, ?_, ?_, ?_⟩
      · apply wf_node_intro (f + 7) old.struckCount old (zeroTree (f + 6))
          (by omega)
        · rw [show f + 7 - 1 = f + 6 from rfl, ← hβtop]
          exact hwold
        · exact wf_zeroTree (f + 6) (by omega)
        · simp [zeroTree_struckCount]
      · rfl
      · intro x hx
        have hxlt : x < 2 ^ (f + 7) := by omega
        exact struckAt_node_low (f + 7) old.struckCount old (zeroTree (f + 6)) x
          hxlt
      · intro x hx1 hx2
        rw [show f + 1 + 7 = f + 8 from rfl] at hx2
        rw [hβtop, show f + 6 + 1 = f + 7 from rfl] at hx1
        rw [show x = 2 ^ (f + 7) + (x - 2 ^ (f + 7)) by omega,
          struckAt_node_high (f + 7) old.struckCount old (zeroTree (f + 6))
            (x - 2 ^ (f + 7)) (by omega),
          struckAt_zeroTree]
      · apply StoreOK_node_intro
        · rw [if_neg hoc, storeSave_self]
          simp
        · rw [show (2 : Nat) ^ (f + 1 + 8) - 1 - 2 ^ (f + 7 + 1) =
            2 ^ (β + 2) - 1 by
              rw [hβtop]
              show 2 ^ (f + 1 + 8) - 1 - 2 ^ (f + 7 + 1) = 2 ^ (f + 6 + 2) - 1
              rw [show f + 7 + 1 = f + 8 from rfl,
                show f + 6 + 2 = f + 8 from rfl]
              omega]
          exact hstold2
        · apply StoreOK_zero (f + 6) (2 ^ (f + 1 + 8) - 1 - 1) _ (by omega)
            (by
              show (2 : Nat) ^ (f + 6 + 2) ≤ 2 ^ (f + 1 + 8) - 1 - 1 + 128
              rw [show f + 6 + 2 = f + 8 from rfl]
              omega)
          intro κ h1 h2
          rw [show f + 6 + 2 = f + 8 from rfl] at h1
          rw [storeSave_ne store _ _ κ (by omega)]
          apply hK
          · rw [hβtop]
            show 2 ^ (f + 6 + 2) - 1 < κ
            rw [show f + 6 + 2 = f + 8 from rfl]
            omega
          · omega
      · intro κ hκ
        rw [hβtop, show f + 6 + 2 = f + 8 from rfl] at hκ
        exact storeSave_ne store _ _ κ (by omega)
      · intro κ hκ
        exact storeSave_ne store _ _ κ (by omega)
      · intro m hm1 hm2
        have hm : m = f + 1 + 8 := by omega
        subst hm
        exact storeSave_self store _ _
    · have hβle : β ≤ f + 5 := by omega
      have hβ2b : (2 : Nat) ^ (β + 2) ≤ 2 ^ (f + 7) :=
        Nat.pow_le_pow_right (by omega) (by omega)
      have hrnone : storeSave store (2 ^ (f + 1 + 8) - 1) ⟨old.struckCount, 0⟩
          (2 ^ (f + 1 + 8) - 1 - 2 ^ (f + 8)) = none := by
        rw [storeSave_ne store _ _ _ (by omega)]
        exact hK _ (by omega) (by omega)
      have hr : restoreTreeF (f + 1)
          (storeSave store (2 ^ (f + 1 + 8) - 1) ⟨old.struckCount, 0⟩)
          (2 ^ (f + 1 + 8) - 1 - 2 ^ (f + 8)) true = zeroTree (f + 6) :=
        restoreTreeF_none (f + 1) _ _ hrnone
      have hK2 : ∀ κ, 2 ^ (β + 2) - 1 < κ → κ < 2 ^ (f + 8) →
          storeSave store (2 ^ (f + 1 + 8) - 1) ⟨old.struckCount, 0⟩ κ = none := by
        intro κ h1 h2
        rw [storeSave_ne store _ _ κ (by omega)]
        exact hK κ h1 (by omega)
      have hrec := ih old β
        (storeSave store (2 ^ (f + 1 + 8) - 1) ⟨old.struckCount, 0⟩)
        h5β hβle hwold hoc hstold2 hK2
      obtain ⟨hw1, hw2, hw3, hw4, hw5, hw6, hw7, hw8⟩ := hrec
      have hrk : (2 : Nat) ^ (f + 1 + 8) - 1 - 2 ^ (f + 8) = 2 ^ (f + 8) - 1 := by
        omega
      rw [hrk] at hr
      have hlkey : (stampTree old.struckCount f
          (storeSave store (2 ^ (f + 1 + 8) - 1) ⟨old.struckCount, 0⟩)
          (2 ^ (f + 8) - 1)).2 (2 ^ (f + 1 + 8) - 1 - 1) = none := by
        rw [hw7 _ (by omega)]
        rw [storeSave_ne store _ _ _ (by omega)]
        exact hK _ (by omega) (by omega)
      have hl : restoreTreeF (f + 1)
          (stampTree old.struckCount f
            (storeSave store (2 ^ (f + 1 + 8) - 1) ⟨old.struckCount, 0⟩)
            (2 ^ (f + 8) - 1)).2
          (2 ^ (f + 1 + 8) - 1 - 1) true = zeroTree (f + 6) :=
        restoreTreeF_none (f + 1) _ _ hlkey
      simp only [stampTree]
      rw [show (2 : Nat) ^ (f + 1 + 8) - 1 - 2 ^ (f + 8) = 2 ^ (f + 8) - 1 from
        hrk]
      rw [hr]
      rw [if_neg (by rw [zeroTree_struckCount]; simp)]
      rw [hl]
      dsimp only
      refine ⟨?_, ?_, ?_, ?_, ?_, ?_, ?_, ?_⟩
      · apply wf_node_intro (f + 7) old.struckCount
          (stampTree old.struckCount f
            (storeSave store (2 ^ (f + 1 + 8) - 1) ⟨old.struckCount, 0⟩)
            (2 ^ (f + 8) - 1)).1
          (zeroTree (f + 6)) (by omega)
        · exact hw1
        · exact wf_zeroTree (f + 6) (by omega)
        · simp [zeroTree_struckCount, hw2]
      · rfl
      · intro x hx
        have hxlt : x < 2 ^ (f + 7) := by omega
        rw [struckAt_node_low (f + 7) old.struckCount _ (zeroTree (f + 6)) x
          hxlt]
        exact hw3 x hx
      · intro x hx1 hx2
        rw [show f + 1 + 7 = f + 8 from rfl] at hx2
        by_cases hxlt : x < 2 ^ (f + 7)
        · rw [struckAt_node_low (f + 7) old.struckCount _ (zeroTree (f + 6)) x
            hxlt]
          exact hw4 x hx1 hxlt
        · push_neg at hxlt
          rw [show x = 2 ^ (f + 7) + (x - 2 ^ (f + 7)) by omega,
            struckAt_node_high (f + 7) old.struckCount _ (zeroTree (f + 6))
              (x - 2 ^ (f + 7)) (by omega),
            struckAt_zeroTree]
      · apply StoreOK_node_intro
        · rw [if_neg hoc]
          rw [hw7 _ (by omega), storeSave_self]
          simp
        · rw [show (2 : Nat) ^ (f + 1 + 8) - 1 - 2 ^ (f + 7 + 1) =
            2 ^ (f + 8) - 1 by
              rw [show f + 7 + 1 = f + 8 from rfl]
              omega]
          exact hw5
        · apply StoreOK_zero (f + 6) (2 ^ (f + 1 + 8) - 1 - 1) _ (by omega)
            (by
              show (2 : Nat) ^ (f + 6 + 2) ≤ 2 ^ (f + 1 + 8) - 1 - 1 + 128
              rw [show f + 6 + 2 = f + 8 from rfl]
              omega)
          intro κ h1 h2
          rw [show f + 6 + 2 = f + 8 from rfl] at h1
          rw [hw7 κ (by omega)]
          rw [storeSave_ne store _ _ κ (by omega)]
          exact hK κ (by omega) (by omega)
      · intro κ hκ
        rw [hw6 κ hκ]
        exact storeSave_ne store _ _ κ (by omega)
      · intro κ hκ
        rw [hw7 κ (by omega)]
        exact storeSave_ne store _ _ κ (by omega)
      · intro m hm1 hm2
        by_cases hm : m = f + 1 + 8
        · subst hm
          rw [hw7 _ (by
            show 2 ^ (f + 8) - 1 < 2 ^ (f + 1 + 8) - 1
            omega)]
          exact storeSave_self store _ _
        · exact hw8 m hm1 (by omega)

theorem count_eq_size_sub_unstruck (t : Tree) (b size : Nat)
    (hwf : wf t b = true) (hsz : size ≤ 2 ^ (b + 1))
    (hhigh : ∀ v, size ≤ v → v < 2 ^ (b + 1) → struckAt t v = false) :
    t.struckCount + unstruckIn t size = size := by
  have hc := wf_count t b hwf
  have he := unstruckIn_ext t (2 ^ (b + 1) - size) size
    (fun v h1 h2 => hhigh v h1 (by omega))
  rw [show size + (2 ^ (b + 1) - size) = 2 ^ (b + 1) by omega] at he
  have hle := unstruckIn_le t size
  omega

/-- The canonical store contents determined by the in-memory tree: the
persistence key space owned by a subtree rooted at key k with bit
number b is [k + 128 - 2^(b+2), k]; the node itself is stored at k
exactly when its struck count is non-zero, the right child owns keys up
to k - 2^(b+1), the left child keys up to k - 1, and keys in between or
outside are absent. -/
def treeStore : Tree → Nat → Nat → Option NodeState
  | .term c bmp, key, κ =>
      if κ = key then (if c = 0 then none else some ⟨c, bmp⟩) else none
  | .node bn c r l, key, κ =>
      if κ = key then (if c = 0 then none else some ⟨c, 0⟩)
      else if κ ≤ key - 2 ^ (bn + 1) then treeStore r (key - 2 ^ (bn + 1)) κ
      else if κ ≤ key - 1 then treeStore l (key - 1) κ
      else none

theorem treeStore_gt : ∀ (t : Tree) (key κ : Nat), key < κ →
    treeStore t key κ = none := by
  intro t
  induction t with
  | term c bmp =>
    intro key κ h
    show (if κ = key then _ else none) = none
    rw [if_neg (by omega)]
  | node bn c r l ihr ihl =>
    intro key κ h
    show (if κ = key then _
      else if κ ≤ key - 2 ^ (bn + 1) then treeStore r (key - 2 ^ (bn + 1)) κ
      else if κ ≤ key - 1 then treeStore l (key - 1) κ
      else none) = none
    have hle : key - 2 ^ (bn + 1) ≤ key := Nat.sub_le _ _
    have h1 : κ ≠ key := by omega
    have h2 : ¬(κ ≤ key - 2 ^ (bn + 1)) := by omega
    have h3 : ¬(κ ≤ key - 1) := by omega
    rw [if_neg h1, if_neg h2, if_neg h3]

theorem treeStore_lt_none : ∀ (t : Tree) (b key κ : Nat), wf t b = true →
    κ + 2 ^ (b + 2) < key + 128 → treeStore t key κ = none := by
  intro t
  induction t with
  | term c bmp =>
    intro b key κ hwf h
    simp only [wf, Bool.and_eq_true, beq_iff_eq, decide_eq_true_eq] at hwf
    obtain ⟨⟨hb5, -⟩, -⟩ := hwf
    subst hb5
    rw [show (2 : Nat) ^ (5 + 2) = 128 by norm_num] at h
    show (if κ = key then _ else none) = none
    rw [if_neg (by omega)]
  | node bn c r l ihr ihl =>
    intro b key κ hwf h
    simp only [wf, Bool.and_eq_true, beq_iff_eq, decide_eq_true_eq] at hwf
    obtain ⟨⟨⟨⟨hbn, hb6⟩, hwr⟩, hwl⟩, -⟩ := hwf
    subst hbn
    have hP1 : 2 ^ (bn + 1) = 2 * 2 ^ bn := by rw [pow_succ]; ring
    have hP2 : 2 ^ (bn + 2) = 4 * 2 ^ bn := by rw [pow_succ, pow_succ]; ring
    have hP3 : 64 ≤ 2 ^ bn := by
      calc (64 : Nat) = 2 ^ 6 := by norm_num
      _ ≤ 2 ^ bn := Nat.pow_le_pow_right (by omega) hb6
    have hbb2 : bn - 1 + 2 = bn + 1 := by omega
    show (if κ = key then _
      else if κ ≤ key - 2 ^ (bn + 1) then treeStore r (key - 2 ^ (bn + 1)) κ
      else if κ ≤ key - 1 then treeStore l (key - 1) κ
      else none) = none
    rw [if_neg (by omega)]
    by_cases hr : κ ≤ key - 2 ^ (bn + 1)
    · rw [if_pos hr]
      exact ihr (bn - 1) _ κ hwr (by rw [hbb2]; omega)
    · rw [if_neg hr]
      by_cases hl : κ ≤ key - 1
      · rw [if_pos hl]
        exact ihl (bn - 1) _ κ hwl (by rw [hbb2]; omega)
      · rw [if_neg hl]

theorem treeStore_zeroTree : ∀ (b key κ : Nat),
    treeStore (zeroTree b) key κ = none := by
  intro b
  induction b using Nat.strong_induction_on with
  | _ b ih =>
    intro key κ
    match b with
    | 0 | 1 | 2 | 3 | 4 | 5 =>
      show (if κ = key then (if (0 : Nat) = 0 then none else _) else none) = none
      by_cases h : κ = key
      · rw [if_pos h, if_pos rfl]
      · rw [if_neg h]
    | m + 6 =>
      show (if κ = key then (if (0 : Nat) = 0 then none else _)
        else if κ ≤ key - 2 ^ (m + 6 + 1) then
          treeStore (zeroTree (m + 5)) (key - 2 ^ (m + 6 + 1)) κ
        else if κ ≤ key - 1 then treeStore (zeroTree (m + 5)) (key - 1) κ
        else none) = none
      by_cases h : κ = key
      · rw [if_pos h, if_pos rfl]
      · rw [if_neg h]
        by_cases h2 : κ ≤ key - 2 ^ (m + 6 + 1)
        · rw [if_pos h2]
          exact ih (m + 5) (by omega) _ _
        · rw [if_neg h2]
          by_cases h3 : κ ≤ key - 1
          · rw [if_pos h3]
            exact ih (m + 5) (by omega) _ _
          · rw [if_neg h3]

theorem treeStore_StoreOK : ∀ (t : Tree) (b key : Nat) (store : Store),
    wf t b = true → 2 ^ (b + 2) ≤ key + 128 →
    (∀ κ, key + 128 ≤ κ + 2 ^ (b + 2) → κ ≤ key → store κ = treeStore t key κ) →
    StoreOK t key store = true := by
  intro t
  induction t with
  | term c bmp =>
    intro b key store hwf hkey hex
    simp only [wf, Bool.and_eq_true, beq_iff_eq, decide_eq_true_eq] at hwf
    obtain ⟨⟨hb5, -⟩, -⟩ := hwf
    subst hb5
    have hself := hex key (by omega) (Nat.le_refl _)
    rw [show treeStore (.term c bmp) key key =
      (if c = 0 then none else some ⟨c, bmp⟩) by
        show (if key = key then _ else none) = _
        rw [if_pos rfl]] at hself
    show (if c = 0 then store key == none else store key == some ⟨c, bmp⟩) = true
    by_cases hc : c = 0
    · rw [if_pos hc, hself, if_pos hc]
      rfl
    · rw [if_neg hc, hself, if_neg hc]
      simp
  | node bn c r l ihr ihl =>
    intro b key store hwf hkey hex
    simp only [wf, Bool.and_eq_true, beq_iff_eq, decide_eq_true_eq] at hwf
    obtain ⟨⟨⟨⟨hbn, hb6⟩, hwr⟩, hwl⟩, -⟩ := hwf
    subst hbn
    have hP1 : 2 ^ (bn + 1) = 2 * 2 ^ bn := by rw [pow_succ]; ring
    have hP2 : 2 ^ (bn + 2) = 4 * 2 ^ bn := by rw [pow_succ, pow_succ]; ring
    have hP3 : 64 ≤ 2 ^ bn := by
      calc (64 : Nat) = 2 ^ 6 := by norm_num
      _ ≤ 2 ^ bn := Nat.pow_le_pow_right (by omega) hb6
    have hbb2 : bn - 1 + 2 = bn + 1 := by omega
    have hself := hex key (by omega) (Nat.le_refl _)
    rw [show treeStore (.node bn c r l) key key =
      (if c = 0 then none else some ⟨c, 0⟩) by
        show (if key = key then _ else _) = _
        rw [if_pos rfl]] at hself
    apply StoreOK_node_intro
    · by_cases hc : c = 0
      · rw [if_pos hc, hself, if_pos hc]
        rfl
      · rw [if_neg hc, hself, if_neg hc]
        simp
    · apply ihr (bn - 1) (key - 2 ^ (bn + 1)) store hwr (by rw [hbb2]; omega)
      intro κ h1 h2
      rw [hbb2] at h1
      rw [hex κ (by omega) (by omega)]
      show treeStore (.node bn c r l) key κ = _
      rw [show treeStore (.node bn c r l) key κ =
        (if κ = key then (if c = 0 then none else some ⟨c, 0⟩)
          else if κ ≤ key - 2 ^ (bn + 1) then treeStore r (key - 2 ^ (bn + 1)) κ
          else if κ ≤ key - 1 then treeStore l (key - 1) κ
          else none) from rfl]
      rw [if_neg (by omega), if_pos h2]
    · apply ihl (bn - 1) (key - 1) store hwl (by rw [hbb2]; omega)
      intro κ h1 h2
      rw [hbb2] at h1
      rw [hex κ (by omega) (by omega)]
      show treeStore (.node bn c r l) key κ = _
      rw [show treeStore (.node bn c r l) key κ =
        (if κ = key then (if c = 0 then none else some ⟨c, 0⟩)
          else if κ ≤ key - 2 ^ (bn + 1) then treeStore r (key - 2 ^ (bn + 1)) κ
          else if κ ≤ key - 1 then treeStore l (key - 1) κ
          else none) from rfl]
      rw [if_neg (by omega), if_neg (by omega), if_pos h2]

/-- The state invariant of the shuffler, cyclic components guarded by
the cyclic flag: a well-formed tree consistent with the node store; the
cached remaining size; struck entries below size; both maps mutually
consistent, with negative entries the open-loop markers of the cyclic
regime (stale value-to-index entries may survive only for struck
complements). -/
structure Inv (s : SState) : Prop where
  hsize : 1 ≤ s.size
  hbits : s.rootBits = sizeBitLength s.size
  hwf : wf s.root (s.rootBits - 1) = true
  hstoreX : ∀ κ, s.nodeStore κ = treeStore s.root (2 ^ (s.rootBits + 1) - 1) κ
  hrem : s.remainingSize = s.size - s.root.struckCount
  hcnt : s.root.struckCount ≤ s.size
  hhigh : ∀ v, s.size ≤ v → v < 2 ^ s.rootBits → struckAt s.root v = false
  hdom : ∀ i x, s.idx2val i = some x → i < s.size
  hpos : ∀ i v, s.idx2val i = some (Int.ofNat v) →
    v < s.size ∧ struckAt s.root v = true
  hneg : ∀ e m, s.idx2val e = some (Int.negSucc m) → s.cyclic = true ∧
    m < s.size ∧ struckAt s.root m = false ∧ s.idx2val m ≠ none ∧
    struckAt s.root e = true
  hinj : ∀ i j x, s.idx2val i = some x → s.idx2val j = some x → i = j
  hfwd : ∀ i x, s.idx2val i = some x → s.val2idx x = some i
  hbak : ∀ v i, s.val2idx (Int.ofNat v) = some i →
    s.idx2val i = some (Int.ofNat v)
  hbakneg : ∀ m i, s.val2idx (Int.negSucc m) = some i →
    s.idx2val i = some (Int.negSucc m) ∨
    (m < s.size ∧ struckAt s.root m = true)
  hsur : ∀ v, v < s.size → struckAt s.root v = true →
    (∃ i, s.idx2val i = some (Int.ofNat v)) ∧
    (s.cyclic = true → s.idx2val v ≠ none)
  hopen : s.cyclic = true → ∀ m, m < s.size → struckAt s.root m = false →
    s.idx2val m ≠ none → s.val2idx (Int.negSucc m) ≠ none
  hmark : s.cyclic = true → 1 ≤ s.root.struckCount → 1 ≤ s.remainingSize →
    ∃ e m, s.idx2val e = some (Int.negSucc m)
  hnofix : s.cyclic = true → 2 ≤ s.size →
    ∀ i, s.idx2val i ≠ some (Int.ofNat i)

theorem Inv.hb6 {s : SState} (hs : Inv s) : 6 ≤ s.rootBits := by
  rw [hs.hbits]
  exact sbl_ge_six s.size

theorem Inv.hcap {s : SState} (hs : Inv s) : s.size ≤ 2 ^ s.rootBits := by
  rw [hs.hbits]
  exact size_le_two_pow_sbl s.size

theorem Inv.hrem2 {s : SState} (hs : Inv s) :
    s.root.struckCount + unstruckIn s.root s.size = s.size := by
  have hb6 := hs.hb6
  have hbb : s.rootBits - 1 + 1 = s.rootBits := by omega
  apply count_eq_size_sub_unstruck s.root (s.rootBits - 1) s.size hs.hwf
  · rw [hbb]
    exact hs.hcap
  · rw [hbb]
    exact hs.hhigh

theorem Inv.hkeys {s : SState} (hs : Inv s) :
    ∀ κ, 2 ^ (s.rootBits + 1) - 1 < κ → s.nodeStore κ = none := by
  intro κ hκ
  rw [hs.hstoreX κ]
  exact treeStore_gt s.root _ κ hκ

theorem Inv.hstore {s : SState} (hs : Inv s) :
    StoreOK s.root (2 ^ (s.rootBits + 1) - 1) s.nodeStore = true := by
  have hb6 := hs.hb6
  have hbb : s.rootBits - 1 + 2 = s.rootBits + 1 := by omega
  apply treeStore_StoreOK s.root (s.rootBits - 1) _ s.nodeStore hs.hwf
  · rw [hbb]
    omega
  · intro κ h1 h2
    exact hs.hstoreX κ

theorem mkShuffler_eq (size : Nat) (cyclic : Bool) :
    mkShuffler size cyclic =
      { size := size, cyclic := cyclic,
        rootBits := sizeBitLength size,
        root := zeroTree (sizeBitLength size - 1),
        remainingSize := size, nodeStore := emptyStore,
        idx2val := fun _ => none, val2idx := fun _ => none } := by
  have h6 := sbl_ge_six size
  unfold mkShuffler buildRoot
  rw [if_pos (show (!false || (sizeBitLength size != 0)) = true from rfl)]
  rw [if_neg (show ¬((false && (Tree.struckCount (.term 0 0) != 0)) = true) by
    simp)]
  rw [show (restoreTreeF (sizeBitLength size - 6) emptyStore
      (2 ^ (sizeBitLength size + 1) - 1) (!false)) =
    zeroTree (sizeBitLength size - 1) by
      rw [show (!false) = true from rfl,
        restoreTreeF_none (sizeBitLength size - 6) emptyStore _ rfl,
        show sizeBitLength size - 6 + 5 = sizeBitLength size - 1 by omega]]
  simp [zeroTree_struckCount]

theorem mkShuffler_inv (size : Nat) (cyclic : Bool) (h1 : 1 ≤ size) :
    Inv (mkShuffler size cyclic) := by
  rw [mkShuffler_eq]
  have h6 := sbl_ge_six size
  constructor
  · exact h1
  · rfl
  · exact wf_zeroTree (sizeBitLength size - 1) (by omega)
  · intro κ
    rw [treeStore_zeroTree]
    rfl
  · show size = size - (zeroTree (sizeBitLength size - 1)).struckCount
    rw [zeroTree_struckCount]
    omega
  · show (zeroTree (sizeBitLength size - 1)).struckCount ≤ size
    rw [zeroTree_struckCount]
    omega
  · intro v h1 h2
    exact struckAt_zeroTree _ _
  · intro i x h
    exact Option.noConfusion h
  · intro i v h
    exact Option.noConfusion h
  · intro e m h
    exact Option.noConfusion h
  · intro i j x hi hj
    exact Option.noConfusion hi
  · intro i x h
    exact Option.noConfusion h
  · intro v i h
    exact Option.noConfusion h
  · intro m i h
    exact Option.noConfusion h
  · intro v h1 h2
    rw [struckAt_zeroTree] at h2
    exact Bool.noConfusion h2
  · intro hcc m h1 h2 h3
    exact absurd rfl h3
  · intro hc hcount h2
    have hz : (zeroTree (sizeBitLength size - 1)).struckCount = 0 :=
      zeroTree_struckCount _
    exact absurd (le_trans hcount (le_of_eq hz)) (by omega)
  · intro hc h2 i h
    exact Option.noConfusion h

theorem treeStore_node_self (bn c : Nat) (r l : Tree) (key : Nat) :
    treeStore (.node bn c r l) key key =
      (if c = 0 then none else some ⟨c, 0⟩) := by
  show (if key = key then _ else _) = _
  rw [if_pos rfl]

theorem treeStore_node_right (bn c : Nat) (r l : Tree) (key κ : Nat)
    (h1 : κ ≠ key) (h2 : κ ≤ key - 2 ^ (bn + 1)) :
    treeStore (.node bn c r l) key κ = treeStore r (key - 2 ^ (bn + 1)) κ := by
  show (if κ = key then _ else if κ ≤ key - 2 ^ (bn + 1) then _ else _) = _
  rw [if_neg h1, if_pos h2]

theorem treeStore_node_left (bn c : Nat) (r l : Tree) (key κ : Nat)
    (h1 : κ ≠ key) (h2 : ¬(κ ≤ key - 2 ^ (bn + 1))) (h3 : κ ≤ key - 1) :
    treeStore (.node bn c r l) key κ = treeStore l (key - 1) κ := by
  show (if κ = key then _ else if κ ≤ key - 2 ^ (bn + 1) then _
    else if κ ≤ key - 1 then _ else _) = _
  rw [if_neg h1, if_neg h2, if_pos h3]

theorem nextValue_exact : ∀ (t : Tree) (b w key value k : Nat) (store : Store),
    wf t b = true → b + 2 ≤ w → k + t.struckCount < 2 ^ (b + 1) →
    2 ^ (b + 2) ≤ key + 128 →
    (∀ κ, key + 128 ≤ κ + 2 ^ (b + 2) → κ ≤ key → store κ = treeStore t key κ) →
    ∀ κ, key + 128 ≤ κ + 2 ^ (b + 2) → κ ≤ key →
      (nextValue w t key value k store).2.2 κ =
        treeStore (nextValue w t key value k store).2.1 key κ := by
  intro t
  induction t with
  | term c bmp =>
    intro b w key value k store hwf hw hk hkey hex κ hκ1 hκ2
    simp only [wf, Bool.and_eq_true, beq_iff_eq, decide_eq_true_eq] at hwf
    obtain ⟨⟨hb5, hlt⟩, hc⟩ := hwf
    subst hb5
    rw [show (2 : Nat) ^ (5 + 2) = 128 by norm_num] at hκ1
    have hκ : key = κ := by omega
    subst hκ
    show storeSave store key ⟨c + 1, bmSet bmp (terminalStep bmp k).1⟩ key =
      treeStore (.term (c + 1) (bmSet bmp (terminalStep bmp k).1)) key key
    rw [storeSave_self]
    simp only [treeStore]
    rw [if_pos trivial, if_neg (by omega)]
  | node bn c r l ihr ihl =>
    intro b w key value k store hwf hw hk hkey hex κ hκ1 hκ2
    have hwf2 := hwf
    simp only [wf, Bool.and_eq_true, beq_iff_eq, decide_eq_true_eq] at hwf2
    obtain ⟨⟨⟨⟨hbn, hb6⟩, hwr⟩, hwl⟩, hc⟩ := hwf2
    subst hbn
    have hP1 : 2 ^ (bn + 1) = 2 * 2 ^ bn := by rw [pow_succ]; ring
    have hP2 : 2 ^ (bn + 2) = 4 * 2 ^ bn := by rw [pow_succ, pow_succ]; ring
    have hP3 : 64 ≤ 2 ^ bn := by
      calc (64 : Nat) = 2 ^ 6 := by norm_num
      _ ≤ 2 ^ bn := Nat.pow_le_pow_right (by omega) hb6
    have hbb1 : bn - 1 + 1 = bn := by omega
    have hbb2 : bn - 1 + 2 = bn + 1 := by omega
    have hkey_big : 2 ^ (bn + 1) ≤ key := by omega
    have hst : StoreOK (.node bn c r l) key store = true :=
      treeStore_StoreOK _ bn key store hwf hkey hex
    have hspec := nextValue_spec (.node bn c r l) bn w key value k store hwf hw
      hk hst hkey
    obtain ⟨v, -, -, -, -, hwf3, -, -, hstok3, hfr3⟩ := hspec
    simp only [StoreOK, Bool.and_eq_true] at hst
    obtain ⟨⟨hstself, hstr⟩, hstl⟩ := hst
    have hkeyr : 2 ^ (bn - 1 + 2) ≤ (key - 2 ^ (bn + 1)) + 128 := by
      rw [hbb2]
      omega
    have hkeyl : 2 ^ (bn - 1 + 2) ≤ (key - 1) + 128 := by
      rw [hbb2]
      omega
    have hkc : k + c < 2 ^ (bn + 1) := by
      have hcc : Tree.struckCount (.node bn c r l) = c := rfl
      rw [hcc] at hk
      omega
    by_cases hclear : bmIsClear (k + Tree.struckCount r) bn = true
    · -- right descent
      have hbit : Nat.testBit (k + Tree.struckCount r) bn = false := by
        rw [bmIsClear_iff] at hclear
        cases h : Nat.testBit (k + Tree.struckCount r) bn
        · rfl
        · rw [h] at hclear
          simp at hclear
      have hrno_lt : k + Tree.struckCount r < 2 ^ bn := by
        by_contra hge
        push_neg at hge
        have hrc_le : Tree.struckCount r ≤ c := by omega
        have hdecomp : k + Tree.struckCount r =
            2 ^ bn + (k + Tree.struckCount r - 2 ^ bn) := by omega
        have h2 : Nat.testBit (k + Tree.struckCount r) bn = true := by
          rw [hdecomp, Nat.testBit_two_pow_add_eq,
            Nat.testBit_lt_two_pow (show k + Tree.struckCount r - 2 ^ bn < 2 ^ bn by
              omega)]
          rfl
        rw [h2] at hbit
        exact absurd hbit (by simp)
      have hex2 : ∀ κ2, (key - 2 ^ (bn + 1)) + 128 ≤ κ2 + 2 ^ (bn - 1 + 2) →
          κ2 ≤ key - 2 ^ (bn + 1) →
          storeSave store key ⟨c + 1, 0⟩ κ2 = treeStore r (key - 2 ^ (bn + 1)) κ2 := by
        intro κ2 h1 h2
        rw [hbb2] at h1
        rw [storeSave_ne store _ _ κ2 (by omega)]
        rw [hex κ2 (by omega) (by omega)]
        exact treeStore_node_right bn c r l key κ2 (by omega) h2
      have hrec := ihr (bn - 1) w (key - 2 ^ (bn + 1)) value k
        (storeSave store key ⟨c + 1, 0⟩) hwr (by omega) (by rw [hbb1]; omega)
        hkeyr hex2
      have hstr2 : StoreOK r (key - 2 ^ (bn + 1))
          (storeSave store key ⟨c + 1, 0⟩) = true := by
        apply treeStore_StoreOK r (bn - 1) _ _ hwr hkeyr hex2
      have hspecr := nextValue_spec r (bn - 1) w (key - 2 ^ (bn + 1)) value k
        (storeSave store key ⟨c + 1, 0⟩) hwr (by omega) (by rw [hbb1]; omega)
        hstr2 hkeyr
      obtain ⟨vr, -, -, -, -, hwfr2, -, -, -, hfrr⟩ := hspecr
      rw [hbb2] at hfrr
      have hnv : nextValue w (.node bn c r l) key value k store =
          ((nextValue w r (key - 2 ^ (bn + 1)) value k
              (storeSave store key ⟨c + 1, 0⟩)).1,
            .node bn (c + 1) (nextValue w r (key - 2 ^ (bn + 1)) value k
              (storeSave store key ⟨c + 1, 0⟩)).2.1 l,
            (nextValue w r (key - 2 ^ (bn + 1)) value k
              (storeSave store key ⟨c + 1, 0⟩)).2.2) := by
        simp only [nextValue]
        rw [if_pos hclear]
      rw [hnv]
      by_cases hκk : κ = key
      · subst hκk
        rw [hfrr κ (Or.inl (by omega)), storeSave_self, treeStore_node_self]
        rw [if_neg (by omega)]
      · by_cases hκr : κ ≤ key - 2 ^ (bn + 1)
        · rw [treeStore_node_right bn (c + 1) _ l key κ hκk hκr]
          exact hrec κ (by rw [hbb2]; omega) hκr
        · rw [treeStore_node_left bn (c + 1) _ l key κ hκk hκr (by omega)]
          rw [hfrr κ (Or.inl (by omega)), storeSave_ne store _ _ κ hκk]
          rw [hex κ hκ1 hκ2]
          exact treeStore_node_left bn c r l key κ hκk hκr (by omega)
    · -- left descent
      have hw2 : 2 ^ (bn + 1) ≤ 2 ^ w := Nat.pow_le_pow_right (by omega) (by omega)
      have hbit : Nat.testBit (k + Tree.struckCount r) bn = true := by
        rw [bmIsClear_iff] at hclear
        cases h : Nat.testBit (k + Tree.struckCount r) bn
        · rw [h] at hclear
          simp at hclear
        · rfl
      have hge : 2 ^ bn ≤ k + Tree.struckCount r := Nat.testBit_implies_ge hbit
      have hrc_le : Tree.struckCount r ≤ c := by omega
      have hclear_eq : bmClear w (k + Tree.struckCount r) bn =
          k + Tree.struckCount r - 2 ^ bn :=
        bmClear_spec w _ bn (by omega) (by omega) hbit
      have hex2 : ∀ κ2, (key - 1) + 128 ≤ κ2 + 2 ^ (bn - 1 + 2) →
          κ2 ≤ key - 1 →
          storeSave store key ⟨c + 1, 0⟩ κ2 = treeStore l (key - 1) κ2 := by
        intro κ2 h1 h2
        rw [hbb2] at h1
        rw [storeSave_ne store _ _ κ2 (by omega)]
        rw [hex κ2 (by omega) (by omega)]
        exact treeStore_node_left bn c r l key κ2 (by omega) (by omega) h2
      have hstl2 : StoreOK l (key - 1)
          (storeSave store key ⟨c + 1, 0⟩) = true := by
        apply treeStore_StoreOK l (bn - 1) _ _ hwl hkeyl hex2
      have hrec := ihl (bn - 1) w (key - 1) (bmSet value bn)
        (bmClear w (k + Tree.struckCount r) bn)
        (storeSave store key ⟨c + 1, 0⟩) hwl (by omega)
        (by rw [hclear_eq, hbb1]; omega) hkeyl hex2
      have hspecl := nextValue_spec l (bn - 1) w (key - 1) (bmSet value bn)
        (bmClear w (k + Tree.struckCount r) bn)
        (storeSave store key ⟨c + 1, 0⟩) hwl (by omega)
        (by rw [hclear_eq, hbb1]; omega) hstl2 hkeyl
      obtain ⟨vl, -, -, -, -, hwfl2, -, -, -, hfrl⟩ := hspecl
      rw [hbb2] at hfrl
      have hnv : nextValue w (.node bn c r l) key value k store =
          ((nextValue w l (key - 1) (bmSet value bn)
              (bmClear w (k + Tree.struckCount r) bn)
              (storeSave store key ⟨c + 1, 0⟩)).1,
            .node bn (c + 1) r (nextValue w l (key - 1) (bmSet value bn)
              (bmClear w (k + Tree.struckCount r) bn)
              (storeSave store key ⟨c + 1, 0⟩)).2.1,
            (nextValue w l (key - 1) (bmSet value bn)
              (bmClear w (k + Tree.struckCount r) bn)
              (storeSave store key ⟨c + 1, 0⟩)).2.2) := by
        simp only [nextValue]
        rw [if_neg hclear]
      rw [hnv]
      by_cases hκk : κ = key
      · subst hκk
        rw [hfrl κ (Or.inl (by omega)), storeSave_self, treeStore_node_self]
        rw [if_neg (by omega)]
      · by_cases hκr : κ ≤ key - 2 ^ (bn + 1)
        · rw [treeStore_node_right bn (c + 1) r _ key κ hκk hκr]
          rw [hfrl κ (Or.inr (by omega)), storeSave_ne store _ _ κ hκk]
          rw [hex κ hκ1 hκ2]
          exact treeStore_node_right bn c r l key κ hκk hκr
        · rw [treeStore_node_left bn (c + 1) r _ key κ hκk hκr (by omega)]
          by_cases hκg : (key - 1) + 128 ≤ κ + 2 ^ (bn + 1)
          · exact hrec κ (by rw [hbb2]; omega) (by omega)
          · have hz1 : (nextValue w l (key - 1) (bmSet value bn)
                (bmClear w (k + Tree.struckCount r) bn)
                (storeSave store key ⟨c + 1, 0⟩)).2.2 κ = none := by
              rw [hfrl κ (Or.inr (by omega)), storeSave_ne store _ _ κ hκk]
              rw [hex κ hκ1 hκ2]
              rw [treeStore_node_left bn c r l key κ hκk hκr (by omega)]
              exact treeStore_lt_none l (bn - 1) (key - 1) κ hwl
                (by rw [hbb2]; omega)
            have hz2 : treeStore (nextValue w l (key - 1) (bmSet value bn)
                (bmClear w (k + Tree.struckCount r) bn)
                (storeSave store key ⟨c + 1, 0⟩)).2.1 (key - 1) κ = none :=
              treeStore_lt_none _ (bn - 1) (key - 1) κ hwfl2
                (by rw [hbb2]; omega)
            rw [hz1, hz2]

theorem reserveTree_exact : ∀ (t : Tree) (b key ls : Nat) (store : Store),
    wf t b = true → struckAt t (ls % 2 ^ (b + 1)) = false →
    2 ^ (b + 2) ≤ key + 128 →
    (∀ κ, key + 128 ≤ κ + 2 ^ (b + 2) → κ ≤ key → store κ = treeStore t key κ) →
    ∀ κ, key + 128 ≤ κ + 2 ^ (b + 2) → κ ≤ key →
      (reserveTree t key ls store).2 κ =
        treeStore (reserveTree t key ls store).1 key κ := by
  intro t
  induction t with
  | term c bmp =>
    intro b key ls store hwf hls hkey hex κ hκ1 hκ2
    simp only [wf, Bool.and_eq_true, beq_iff_eq, decide_eq_true_eq] at hwf
    obtain ⟨⟨hb5, hlt⟩, hc⟩ := hwf
    subst hb5
    rw [show (2 : Nat) ^ (5 + 2) = 128 by norm_num] at hκ1
    have hκ : key = κ := by omega
    subst hκ
    show storeSave store key ⟨c + 1, bmSet bmp (ls &&& 63)⟩ key =
      treeStore (.term (c + 1) (bmSet bmp (ls &&& 63))) key key
    rw [storeSave_self]
    simp only [treeStore]
    rw [if_pos trivial, if_neg (by omega)]
  | node bn c r l ihr ihl =>
    intro b key ls store hwf hls hkey hex κ hκ1 hκ2
    have hwf2 := hwf
    simp only [wf, Bool.and_eq_true, beq_iff_eq, decide_eq_true_eq] at hwf2
    obtain ⟨⟨⟨⟨hbn, hb6⟩, hwr⟩, hwl⟩, hc⟩ := hwf2
    subst hbn
    have hP1 : 2 ^ (bn + 1) = 2 * 2 ^ bn := by rw [pow_succ]; ring
    have hP2 : 2 ^ (bn + 2) = 4 * 2 ^ bn := by rw [pow_succ, pow_succ]; ring
    have hP3 : 64 ≤ 2 ^ bn := by
      calc (64 : Nat) = 2 ^ 6 := by norm_num
      _ ≤ 2 ^ bn := Nat.pow_le_pow_right (by omega) hb6
    have hbb1 : bn - 1 + 1 = bn := by omega
    have hbb2 : bn - 1 + 2 = bn + 1 := by omega
    have hkey_big : 2 ^ (bn + 1) ≤ key := by omega
    have hkeyr : 2 ^ (bn - 1 + 2) ≤ (key - 2 ^ (bn + 1)) + 128 := by
      rw [hbb2]
      omega
    have hkeyl : 2 ^ (bn - 1 + 2) ≤ (key - 1) + 128 := by
      rw [hbb2]
      omega
    have hjlt : ls % 2 ^ (bn + 1) < 2 ^ (bn + 1) := Nat.mod_lt _ (by omega)
    have htb := mod_two_pow_testBit ls bn
    have hmm := mod_mod_two_pow ls bn
    by_cases hclear : bmIsClear ls bn = true
    · -- right descent
      have hbit : Nat.testBit ls bn = false := by
        rw [bmIsClear_iff] at hclear
        cases h : Nat.testBit ls bn
        · rfl
        · rw [h] at hclear
          simp at hclear
      have hjbit : Nat.testBit (ls % 2 ^ (bn + 1)) bn = false := by
        rw [htb, hbit]
      have hlsr : struckAt r (ls % 2 ^ (bn - 1 + 1)) = false := by
        rw [hbb1]
        rw [show struckAt (.node bn c r l) (ls % 2 ^ (bn + 1)) =
          (if Nat.testBit (ls % 2 ^ (bn + 1)) bn then
            struckAt l (ls % 2 ^ (bn + 1) % 2 ^ bn)
            else struckAt r (ls % 2 ^ (bn + 1) % 2 ^ bn)) from rfl,
          if_neg (by rw [hjbit]; simp), hmm] at hls
        exact hls
      have hex2 : ∀ κ2, (key - 2 ^ (bn + 1)) + 128 ≤ κ2 + 2 ^ (bn - 1 + 2) →
          κ2 ≤ key - 2 ^ (bn + 1) →
          storeSave store key ⟨c + 1, 0⟩ κ2 = treeStore r (key - 2 ^ (bn + 1)) κ2 := by
        intro κ2 h1 h2
        rw [hbb2] at h1
        rw [storeSave_ne store _ _ κ2 (by omega)]
        rw [hex κ2 (by omega) (by omega)]
        exact treeStore_node_right bn c r l key κ2 (by omega) h2
      have hstr2 : StoreOK r (key - 2 ^ (bn + 1))
          (storeSave store key ⟨c + 1, 0⟩) = true := by
        apply treeStore_StoreOK r (bn - 1) _ _ hwr hkeyr hex2
      have hrec := ihr (bn - 1) (key - 2 ^ (bn + 1)) ls
        (storeSave store key ⟨c + 1, 0⟩) hwr hlsr hkeyr hex2
      have hspecr := reserveTree_spec r (bn - 1) (key - 2 ^ (bn + 1)) ls
        (storeSave store key ⟨c + 1, 0⟩) hwr hlsr hstr2 hkeyr
      obtain ⟨hwfr2, -, -, -, hfrr⟩ := hspecr
      rw [hbb2] at hfrr
      have hnv : reserveTree (.node bn c r l) key ls store =
          (.node bn (c + 1) (reserveTree r (key - 2 ^ (bn + 1)) ls
              (storeSave store key ⟨c + 1, 0⟩)).1 l,
            (reserveTree r (key - 2 ^ (bn + 1)) ls
              (storeSave store key ⟨c + 1, 0⟩)).2) := by
        simp only [reserveTree]
        rw [if_pos hclear]
      rw [hnv]
      by_cases hκk : κ = key
      · subst hκk
        rw [hfrr κ (Or.inl (by omega)), storeSave_self, treeStore_node_self]
        rw [if_neg (by omega)]
      · by_cases hκr : κ ≤ key - 2 ^ (bn + 1)
        · rw [treeStore_node_right bn (c + 1) _ l key κ hκk hκr]
          exact hrec κ (by rw [hbb2]; omega) hκr
        · rw [treeStore_node_left bn (c + 1) _ l key κ hκk hκr (by omega)]
          rw [hfrr κ (Or.inl (by omega)), storeSave_ne store _ _ κ hκk]
          rw [hex κ hκ1 hκ2]
          exact treeStore_node_left bn c r l key κ hκk hκr (by omega)
    · -- left descent
      have hbit : Nat.testBit ls bn = true := by
        rw [bmIsClear_iff] at hclear
        cases h : Nat.testBit ls bn
        · rw [h] at hclear
          simp at hclear
        · rfl
      have hjbit : Nat.testBit (ls % 2 ^ (bn + 1)) bn = true := by
        rw [htb, hbit]
      have hlsl : struckAt l (ls % 2 ^ (bn - 1 + 1)) = false := by
        rw [hbb1]
        rw [show struckAt (.node bn c r l) (ls % 2 ^ (bn + 1)) =
          (if Nat.testBit (ls % 2 ^ (bn + 1)) bn then
            struckAt l (ls % 2 ^ (bn + 1) % 2 ^ bn)
            else struckAt r (ls % 2 ^ (bn + 1) % 2 ^ bn)) from rfl,
          if_pos (by rw [hjbit]), hmm] at hls
        exact hls
      have hex2 : ∀ κ2, (key - 1) + 128 ≤ κ2 + 2 ^ (bn - 1 + 2) →
          κ2 ≤ key - 1 →
          storeSave store key ⟨c + 1, 0⟩ κ2 = treeStore l (key - 1) κ2 := by
        intro κ2 h1 h2
        rw [hbb2] at h1
        rw [storeSave_ne store _ _ κ2 (by omega)]
        rw [hex κ2 (by omega) (by omega)]
        exact treeStore_node_left bn c r l key κ2 (by omega) (by omega) h2
      have hstl2 : StoreOK l (key - 1)
          (storeSave store key ⟨c + 1, 0⟩) = true := by
        apply treeStore_StoreOK l (bn - 1) _ _ hwl hkeyl hex2
      have hrec := ihl (bn - 1) (key - 1) ls
        (storeSave store key ⟨c + 1, 0⟩) hwl hlsl hkeyl hex2
      have hspecl := reserveTree_spec l (bn - 1) (key - 1) ls
        (storeSave store key ⟨c + 1, 0⟩) hwl hlsl hstl2 hkeyl
      obtain ⟨hwfl2, -, -, -, hfrl⟩ := hspecl
      rw [hbb2] at hfrl
      have hnv : reserveTree (.node bn c r l) key ls store =
          (.node bn (c + 1) r (reserveTree l (key - 1) ls
              (storeSave store key ⟨c + 1, 0⟩)).1,
            (reserveTree l (key - 1) ls
              (storeSave store key ⟨c + 1, 0⟩)).2) := by
        simp only [reserveTree]
        rw [if_neg hclear]
      rw [hnv]
      by_cases hκk : κ = key
      · subst hκk
        rw [hfrl κ (Or.inl (by omega)), storeSave_self, treeStore_node_self]
        rw [if_neg (by omega)]
      · by_cases hκr : κ ≤ key - 2 ^ (bn + 1)
        · rw [treeStore_node_right bn (c + 1) r _ key κ hκk hκr]
          rw [hfrl κ (Or.inr (by omega)), storeSave_ne store _ _ κ hκk]
          rw [hex κ hκ1 hκ2]
          exact treeStore_node_right bn c r l key κ hκk hκr
        · rw [treeStore_node_left bn (c + 1) r _ key κ hκk hκr (by omega)]
          by_cases hκg : (key - 1) + 128 ≤ κ + 2 ^ (bn + 1)
          · exact hrec κ (by rw [hbb2]; omega) (by omega)
          · have hz1 : (reserveTree l (key - 1) ls
                (storeSave store key ⟨c + 1, 0⟩)).2 κ = none := by
              rw [hfrl κ (Or.inr (by omega)), storeSave_ne store _ _ κ hκk]
              rw [hex κ hκ1 hκ2]
              rw [treeStore_node_left bn c r l key κ hκk hκr (by omega)]
              exact treeStore_lt_none l (bn - 1) (key - 1) κ hwl
                (by rw [hbb2]; omega)
            have hz2 : treeStore (reserveTree l (key - 1) ls
                (storeSave store key ⟨c + 1, 0⟩)).1 (key - 1) κ = none :=
              treeStore_lt_none _ (bn - 1) (key - 1) κ hwfl2
                (by rw [hbb2]; omega)
            rw [hz1, hz2]

theorem unreserveTree_exact : ∀ (t : Tree) (b key ls : Nat) (store : Store),
    wf t b = true → struckAt t (ls % 2 ^ (b + 1)) = true →
    2 ^ (b + 2) ≤ key + 128 →
    (∀ κ, key + 128 ≤ κ + 2 ^ (b + 2) → κ ≤ key → store κ = treeStore t key κ) →
    ∀ κ, key + 128 ≤ κ + 2 ^ (b + 2) → κ ≤ key →
      (unreserveTree t key ls store).2 κ =
        treeStore (unreserveTree t key ls store).1 key κ := by
  intro t
  induction t with
  | term c bmp =>
    intro b key ls store hwf hls hkey hex κ hκ1 hκ2
    simp only [wf, Bool.and_eq_true, beq_iff_eq, decide_eq_true_eq] at hwf
    obtain ⟨⟨hb5, hlt⟩, hc⟩ := hwf
    subst hb5
    rw [show (2 : Nat) ^ (5 + 2) = 128 by norm_num] at hκ1
    have hκ : key = κ := by omega
    subst hκ
    by_cases hc0 : c - 1 = 0
    · have hb : (c - 1 != 0) = false := by simp; omega
      show (if (c - 1 != 0) = true then
          storeSave store key ⟨c - 1, bmClear 64 bmp (ls &&& 63)⟩
          else storeDelete store key) key =
        treeStore (.term (c - 1) (bmClear 64 bmp (ls &&& 63))) key key
      rw [hb, if_neg (by simp), storeDelete_self]
      simp only [treeStore]
      rw [if_pos trivial, if_pos hc0]
    · have hb : (c - 1 != 0) = true := by simp; omega
      show (if (c - 1 != 0) = true then
          storeSave store key ⟨c - 1, bmClear 64 bmp (ls &&& 63)⟩
          else storeDelete store key) key =
        treeStore (.term (c - 1) (bmClear 64 bmp (ls &&& 63))) key key
      rw [hb, if_pos rfl, storeSave_self]
      simp only [treeStore]
      rw [if_pos trivial, if_neg hc0]
  | node bn c r l ihr ihl =>
    intro b key ls store hwf hls hkey hex κ hκ1 hκ2
    have hwf2 := hwf
    simp only [wf, Bool.and_eq_true, beq_iff_eq, decide_eq_true_eq] at hwf2
    obtain ⟨⟨⟨⟨hbn, hb6⟩, hwr⟩, hwl⟩, hc⟩ := hwf2
    subst hbn
    have hP1 : 2 ^ (bn + 1) = 2 * 2 ^ bn := by rw [pow_succ]; ring
    have hP2 : 2 ^ (bn + 2) = 4 * 2 ^ bn := by rw [pow_succ, pow_succ]; ring
    have hP3 : 64 ≤ 2 ^ bn := by
      calc (64 : Nat) = 2 ^ 6 := by norm_num
      _ ≤ 2 ^ bn := Nat.pow_le_pow_right (by omega) hb6
    have hbb1 : bn - 1 + 1 = bn := by omega
    have hbb2 : bn - 1 + 2 = bn + 1 := by omega
    have hkey_big : 2 ^ (bn + 1) ≤ key := by omega
    have hkeyr : 2 ^ (bn - 1 + 2) ≤ (key - 2 ^ (bn + 1)) + 128 := by
      rw [hbb2]
      omega
    have hkeyl : 2 ^ (bn - 1 + 2) ≤ (key - 1) + 128 := by
      rw [hbb2]
      omega
    have hjlt : ls % 2 ^ (bn + 1) < 2 ^ (bn + 1) := Nat.mod_lt _ (by omega)
    have htb := mod_two_pow_testBit ls bn
    have hmm := mod_mod_two_pow ls bn
    have hstore2 : ∀ κ2, κ2 ≠ key →
        (if c - 1 != 0 then storeSave store key ⟨c - 1, 0⟩
          else storeDelete store key) κ2 = store κ2 := by
      intro κ2 hne
      cases (c - 1 != 0)
      · show storeDelete store key κ2 = store κ2
        exact storeDelete_ne store key κ2 hne
      · show storeSave store key ⟨c - 1, 0⟩ κ2 = store κ2
        exact storeSave_ne store key ⟨c - 1, 0⟩ κ2 hne
    by_cases hclear : bmIsClear ls bn = true
    · -- right descent
      have hbit : Nat.testBit ls bn = false := by
        rw [bmIsClear_iff] at hclear
        cases h : Nat.testBit ls bn
        · rfl
        · rw [h] at hclear
          simp at hclear
      have hjbit : Nat.testBit (ls % 2 ^ (bn + 1)) bn = false := by
        rw [htb, hbit]
      have hlsr : struckAt r (ls % 2 ^ (bn - 1 + 1)) = true := by
        rw [hbb1]
        rw [show struckAt (.node bn c r l) (ls % 2 ^ (bn + 1)) =
          (if Nat.testBit (ls % 2 ^ (bn + 1)) bn then
            struckAt l (ls % 2 ^ (bn + 1) % 2 ^ bn)
            else struckAt r (ls % 2 ^ (bn + 1) % 2 ^ bn)) from rfl,
          if_neg (by rw [hjbit]; simp), hmm] at hls
        exact hls
      have hex2 : ∀ κ2, (key - 2 ^ (bn + 1)) + 128 ≤ κ2 + 2 ^ (bn - 1 + 2) →
          κ2 ≤ key - 2 ^ (bn + 1) →
          (if c - 1 != 0 then storeSave store key ⟨c - 1, 0⟩
            else storeDelete store key) κ2 =
            treeStore r (key - 2 ^ (bn + 1)) κ2 := by
        intro κ2 h1 h2
        rw [hbb2] at h1
        rw [hstore2 κ2 (by omega)]
        rw [hex κ2 (by omega) (by omega)]
        exact treeStore_node_right bn c r l key κ2 (by omega) h2
      have hstr2 : StoreOK r (key - 2 ^ (bn + 1))
          (if c - 1 != 0 then storeSave store key ⟨c - 1, 0⟩
            else storeDelete store key) = true := by
        apply treeStore_StoreOK r (bn - 1) _ _ hwr hkeyr hex2
      have hrec := ihr (bn - 1) (key - 2 ^ (bn + 1)) ls
        (if c - 1 != 0 then storeSave store key ⟨c - 1, 0⟩
          else storeDelete store key) hwr hlsr hkeyr hex2
      have hspecr := unreserveTree_spec r (bn - 1) (key - 2 ^ (bn + 1)) ls
        (if c - 1 != 0 then storeSave store key ⟨c - 1, 0⟩
          else storeDelete store key) hwr hlsr hstr2 hkeyr
      obtain ⟨-, hwfr2, -, -, -, hfrr⟩ := hspecr
      rw [hbb2] at hfrr
      have hnv : unreserveTree (.node bn c r l) key ls store =
          (.node bn (c - 1) (unreserveTree r (key - 2 ^ (bn + 1)) ls
              (if c - 1 != 0 then storeSave store key ⟨c - 1, 0⟩
                else storeDelete store key)).1 l,
            (unreserveTree r (key - 2 ^ (bn + 1)) ls
              (if c - 1 != 0 then storeSave store key ⟨c - 1, 0⟩
                else storeDelete store key)).2) := by
        simp only [unreserveTree]
        rw [if_pos hclear]
      rw [hnv]
      by_cases hκk : κ = key
      · subst hκk
        rw [hfrr κ (Or.inl (by omega)), treeStore_node_self]
        by_cases hc0 : c - 1 = 0
        · have hb : (c - 1 != 0) = false := by simp; omega
          rw [hb, if_neg (by simp), if_pos hc0]
          exact storeDelete_self store κ
        · have hb : (c - 1 != 0) = true := by simp; omega
          rw [hb, if_pos rfl, if_neg hc0]
          exact storeSave_self store κ ⟨c - 1, 0⟩
      · by_cases hκr : κ ≤ key - 2 ^ (bn + 1)
        · rw [treeStore_node_right bn (c - 1) _ l key κ hκk hκr]
          exact hrec κ (by rw [hbb2]; omega) hκr
        · rw [treeStore_node_left bn (c - 1) _ l key κ hκk hκr (by omega)]
          rw [hfrr κ (Or.inl (by omega)), hstore2 κ hκk]
          rw [hex κ hκ1 hκ2]
          exact treeStore_node_left bn c r l key κ hκk hκr (by omega)
    · -- left descent
      have hbit : Nat.testBit ls bn = true := by
        rw [bmIsClear_iff] at hclear
        cases h : Nat.testBit ls bn
        · rw [h] at hclear
          simp at hclear
        · rfl
      have hjbit : Nat.testBit (ls % 2 ^ (bn + 1)) bn = true := by
        rw [htb, hbit]
      have hlsl : struckAt l (ls % 2 ^ (bn - 1 + 1)) = true := by
        rw [hbb1]
        rw [show struckAt (.node bn c r l) (ls % 2 ^ (bn + 1)) =
          (if Nat.testBit (ls % 2 ^ (bn + 1)) bn then
            struckAt l (ls % 2 ^ (bn + 1) % 2 ^ bn)
            else struckAt r (ls % 2 ^ (bn + 1) % 2 ^ bn)) from rfl,
          if_pos (by rw [hjbit]), hmm] at hls
        exact hls
      have hex2 : ∀ κ2, (key - 1) + 128 ≤ κ2 + 2 ^ (bn - 1 + 2) →
          κ2 ≤ key - 1 →
          (if c - 1 != 0 then storeSave store key ⟨c - 1, 0⟩
            else storeDelete store key) κ2 = treeStore l (key - 1) κ2 := by
        intro κ2 h1 h2
        rw [hbb2] at h1
        rw [hstore2 κ2 (by omega)]
        rw [hex κ2 (by omega) (by omega)]
        exact treeStore_node_left bn c r l key κ2 (by omega) (by omega) h2
      have hstl2 : StoreOK l (key - 1)
          (if c - 1 != 0 then storeSave store key ⟨c - 1, 0⟩
            else storeDelete store key) = true := by
        apply treeStore_StoreOK l (bn - 1) _ _ hwl hkeyl hex2
      have hrec := ihl (bn - 1) (key - 1) ls
        (if c - 1 != 0 then storeSave store key ⟨c - 1, 0⟩
          else storeDelete store key) hwl hlsl hkeyl hex2
      have hspecl := unreserveTree_spec l (bn - 1) (key - 1) ls
        (if c - 1 != 0 then storeSave store key ⟨c - 1, 0⟩
          else storeDelete store key) hwl hlsl hstl2 hkeyl
      obtain ⟨-, hwfl2, -, -, -, hfrl⟩ := hspecl
      rw [hbb2] at hfrl
      have hnv : unreserveTree (.node bn c r l) key ls store =
          (.node bn (c - 1) r (unreserveTree l (key - 1) ls
              (if c - 1 != 0 then storeSave store key ⟨c - 1, 0⟩
                else storeDelete store key)).1,
            (unreserveTree l (key - 1) ls
              (if c - 1 != 0 then storeSave store key ⟨c - 1, 0⟩
                else storeDelete store key)).2) := by
        simp only [unreserveTree]
        rw [if_neg hclear]
      rw [hnv]
      by_cases hκk : κ = key
      · subst hκk
        rw [hfrl κ (Or.inl (by omega)), treeStore_node_self]
        by_cases hc0 : c - 1 = 0
        · have hb : (c - 1 != 0) = false := by simp; omega
          rw [hb, if_neg (by simp), if_pos hc0]
          exact storeDelete_self store κ
        · have hb : (c - 1 != 0) = true := by simp; omega
          rw [hb, if_pos rfl, if_neg hc0]
          exact storeSave_self store κ ⟨c - 1, 0⟩
      · by_cases hκr : κ ≤ key - 2 ^ (bn + 1)
        · rw [treeStore_node_right bn (c - 1) r _ key κ hκk hκr]
          rw [hfrl κ (Or.inr (by omega)), hstore2 κ hκk]
          rw [hex κ hκ1 hκ2]
          exact treeStore_node_right bn c r l key κ hκk hκr
        · rw [treeStore_node_left bn (c - 1) r _ key κ hκk hκr (by omega)]
          by_cases hκg : (key - 1) + 128 ≤ κ + 2 ^ (bn + 1)
          · exact hrec κ (by rw [hbb2]; omega) (by omega)
          · have hz1 : (unreserveTree l (key - 1) ls
                (if c - 1 != 0 then storeSave store key ⟨c - 1, 0⟩
                  else storeDelete store key)).2 κ = none := by
              rw [hfrl κ (Or.inr (by omega)), hstore2 κ hκk]
              rw [hex κ hκ1 hκ2]
              rw [treeStore_node_left bn c r l key κ hκk hκr (by omega)]
              exact treeStore_lt_none l (bn - 1) (key - 1) κ hwl
                (by rw [hbb2]; omega)
            have hz2 : treeStore (unreserveTree l (key - 1) ls
                (if c - 1 != 0 then storeSave store key ⟨c - 1, 0⟩
                  else storeDelete store key)).1 (key - 1) κ = none :=
              treeStore_lt_none _ (bn - 1) (key - 1) κ hwfl2
                (by rw [hbb2]; omega)
            rw [hz1, hz2]

theorem unstruckIn_pos (t : Tree) (n v : Nat) (hv : v < n)
    (hu : struckAt t v = false) : 1 ≤ unstruckIn t n := by
  unfold unstruckIn
  rw [Nat.succ_le_iff, Finset.card_pos]
  exact ⟨v, Finset.mem_filter.mpr ⟨Finset.mem_range.mpr hv, hu⟩⟩

theorem Inv_strike (s : SState) (index v : Nat) (t2 : Tree) (st2 : Store)
    (hs : Inv s) (hcyc : s.cyclic = false) (hidx : index < s.size)
    (hidx2 : s.idx2val index = none)
    (hvsize : v < s.size) (hvuns : struckAt s.root v = false)
    (hwf2 : wf t2 (s.rootBits - 1) = true)
    (hcnt2 : t2.struckCount = s.root.struckCount + 1)
    (hpt : ∀ x, x < 2 ^ s.rootBits →
      struckAt t2 x = (struckAt s.root x || decide (x = v)))
    (hstX : ∀ κ, st2 κ = treeStore t2 (2 ^ (s.rootBits + 1) - 1) κ) :
    Inv { s with
            root := t2, nodeStore := st2,
            remainingSize := s.remainingSize - 1,
            idx2val := fun i =>
              if i = index then some (Int.ofNat v) else s.idx2val i,
            val2idx := fun y =>
              if y = Int.ofNat v then some index else s.val2idx y } := by
  have hvlt : v < 2 ^ s.rootBits := lt_of_lt_of_le hvsize hs.hcap
  have hcount_lt : s.root.struckCount < s.size := by
    have h1 := unstruckIn_pos s.root s.size v hvsize hvuns
    have h2 := hs.hrem2
    omega
  constructor
  · exact hs.hsize
  · exact hs.hbits
  · exact hwf2
  · exact hstX
  · show s.remainingSize - 1 = s.size - t2.struckCount
    rw [hcnt2, hs.hrem]
    omega
  · show t2.struckCount ≤ s.size
    rw [hcnt2]
    omega
  · intro u h1 h2
    have h1b : s.size ≤ u := h1
    have h2b : u < 2 ^ s.rootBits := h2
    show struckAt t2 u = false
    rw [hpt u h2b, hs.hhigh u h1b h2b]
    simp
    omega
  · intro i x h
    have h2 : (if i = index then some (Int.ofNat v) else s.idx2val i) =
      some x := h
    by_cases hi : i = index
    · subst hi
      exact hidx
    · rw [if_neg hi] at h2
      exact hs.hdom i x h2
  · intro i u h
    have h2 : (if i = index then some (Int.ofNat v) else s.idx2val i) =
      some (Int.ofNat u) := h
    by_cases hi : i = index
    · rw [if_pos hi] at h2
      injection h2 with h3
      injection h3 with h4
      subst h4
      refine ⟨hvsize, ?_⟩
      show struckAt t2 v = true
      rw [hpt v hvlt, hvuns]
      simp
    · rw [if_neg hi] at h2
      obtain ⟨hu1, hu2⟩ := hs.hpos i u h2
      refine ⟨hu1, ?_⟩
      show struckAt t2 u = true
      rw [hpt u (lt_of_lt_of_le hu1 hs.hcap), hu2]
      simp
  · intro e m h
    have h2 : (if e = index then some (Int.ofNat v) else s.idx2val e) =
      some (Int.negSucc m) := h
    by_cases he : e = index
    · rw [if_pos he] at h2
      simp at h2
    · rw [if_neg he] at h2
      obtain ⟨hcc, -⟩ := hs.hneg e m h2
      rw [hcyc] at hcc
      exact Bool.noConfusion hcc
  · intro i j x hi hj
    have hi2 : (if i = index then some (Int.ofNat v) else s.idx2val i) =
      some x := hi
    have hj2 : (if j = index then some (Int.ofNat v) else s.idx2val j) =
      some x := hj
    by_cases hii : i = index
    · by_cases hjj : j = index
      · rw [hii, hjj]
      · rw [if_pos hii] at hi2
        rw [if_neg hjj] at hj2
        injection hi2 with h3
        subst h3
        have := (hs.hpos j v hj2).2
        rw [hvuns] at this
        exact Bool.noConfusion this
    · by_cases hjj : j = index
      · rw [if_neg hii] at hi2
        rw [if_pos hjj] at hj2
        injection hj2 with h3
        subst h3
        have := (hs.hpos i v hi2).2
        rw [hvuns] at this
        exact Bool.noConfusion this
      · rw [if_neg hii] at hi2
        rw [if_neg hjj] at hj2
        exact hs.hinj i j x hi2 hj2
  · intro i x h
    have h2 : (if i = index then some (Int.ofNat v) else s.idx2val i) =
      some x := h
    show (if x = Int.ofNat v then some index else s.val2idx x) = some i
    by_cases hi : i = index
    · subst hi
      rw [if_pos rfl] at h2
      injection h2 with h3
      subst h3
      rw [if_pos rfl]
    · rw [if_neg hi] at h2
      have hx : x ≠ Int.ofNat v := by
        intro he
        subst he
        have := (hs.hpos i v h2).2
        rw [hvuns] at this
        exact Bool.noConfusion this
      rw [if_neg hx]
      exact hs.hfwd i x h2
  · intro u i h
    have h2 : (if Int.ofNat u = Int.ofNat v then some index
      else s.val2idx (Int.ofNat u)) = some i := h
    by_cases hu : Int.ofNat u = Int.ofNat v
    · rw [if_pos hu] at h2
      injection h2 with h3
      subst h3
      show (if index = index then some (Int.ofNat v) else s.idx2val index) =
        some (Int.ofNat u)
      rw [if_pos rfl, ← hu]
    · rw [if_neg hu] at h2
      have h3 := hs.hbak u i h2
      have hi : i ≠ index := by
        intro he
        subst he
        rw [hidx2] at h3
        exact Option.noConfusion h3
      show (if i = index then some (Int.ofNat v) else s.idx2val i) =
        some (Int.ofNat u)
      rw [if_neg hi]
      exact h3
  · intro m i h
    have h2 : (if Int.negSucc m = Int.ofNat v then some index
      else s.val2idx (Int.negSucc m)) = some i := h
    rw [if_neg (by intro he; exact Int.noConfusion he)] at h2
    rcases hs.hbakneg m i h2 with hold | ⟨hm1, hm2⟩
    · left
      have hi : i ≠ index := by
        intro he
        subst he
        rw [hidx2] at hold
        exact Option.noConfusion hold
      show (if i = index then some (Int.ofNat v) else s.idx2val i) =
        some (Int.negSucc m)
      rw [if_neg hi]
      exact hold
    · right
      refine ⟨hm1, ?_⟩
      show struckAt t2 m = true
      rw [hpt m (lt_of_lt_of_le hm1 hs.hcap), hm2]
      simp
  · intro u hu1 hu2
    have hu3 : struckAt t2 u = true := hu2
    rw [hpt u (lt_of_lt_of_le hu1 hs.hcap), Bool.or_eq_true] at hu3
    constructor
    · rcases hu3 with hold | heq
      · obtain ⟨⟨i, hi⟩, -⟩ := hs.hsur u hu1 hold
        have hi_ne : i ≠ index := by
          intro he
          subst he
          rw [hidx2] at hi
          exact Option.noConfusion hi
        refine ⟨i, ?_⟩
        show (if i = index then some (Int.ofNat v) else s.idx2val i) =
          some (Int.ofNat u)
        rw [if_neg hi_ne]
        exact hi
      · have heq2 : u = v := by
          simpa using heq
        subst heq2
        refine ⟨index, ?_⟩
        show (if index = index then some (Int.ofNat u) else s.idx2val index) =
          some (Int.ofNat u)
        rw [if_pos rfl]
    · intro hcc
      have hcc2 : s.cyclic = true := hcc
      rw [hcyc] at hcc2
      exact Bool.noConfusion hcc2
  · intro hcc
    have hcc2 : s.cyclic = true := hcc
    rw [hcyc] at hcc2
    exact Bool.noConfusion hcc2
  · intro hcc
    have hcc2 : s.cyclic = true := hcc
    rw [hcyc] at hcc2
    exact Bool.noConfusion hcc2
  · intro hcc
    have hcc2 : s.cyclic = true := hcc
    rw [hcyc] at hcc2
    exact Bool.noConfusion hcc2

theorem valueAt_nc_spec (s : SState) (index k : Nat) (hs : Inv s)
    (hcyc : s.cyclic = false) (hidx : index < s.size)
    (hk : k < s.remainingSize) :
    Inv (valueAt s index k).1 ∧
    (valueAt s index k).1.cyclic = s.cyclic ∧
    (valueAt s index k).1.size = s.size ∧
    (∃ v : Nat, (valueAt s index k).2 = Int.ofNat v ∧ v < s.size ∧
      (valueAt s index k).1.idx2val index = some (Int.ofNat v)) ∧
    (∀ i x, s.idx2val i = some x → (valueAt s index k).1.idx2val i = some x) ∧
    (∀ x, s.idx2val index = some x →
      (valueAt s index k).1 = s ∧ (valueAt s index k).2 = x) ∧
    (s.idx2val index = none →
      ((valueAt s index k).1.root).struckCount = s.root.struckCount + 1 ∧
      (valueAt s index k).1.remainingSize = s.remainingSize - 1) := by
  have hb6 := hs.hb6
  have hbb1 : s.rootBits - 1 + 1 = s.rootBits := by omega
  have hbb2 : s.rootBits - 1 + 2 = s.rootBits + 1 := by omega
  cases hidx2 : s.idx2val index with
  | some x =>
    have hva : valueAt s index k = (s, x) := by
      have hncyc : (!s.cyclic) = true := by
        rw [hcyc]
        rfl
      unfold valueAt
      rw [if_pos hncyc, hidx2]
    have hofn : ∃ u : Nat, x = Int.ofNat u ∧ u < s.size := by
      cases x with
      | ofNat u => exact ⟨u, rfl, (hs.hpos index u hidx2).1⟩
      | negSucc m =>
          obtain ⟨hcc, -⟩ := hs.hneg index m hidx2
          rw [hcyc] at hcc
          exact Bool.noConfusion hcc
    obtain ⟨u, hux, husz⟩ := hofn
    refine ⟨?_, ?_, ?_, ?_, ?_, ?_, ?_⟩
    · rw [hva]
      exact hs
    · rw [hva]
    · rw [hva]
    · refine ⟨u, ?_, husz, ?_⟩
      · rw [hva]
        exact hux
      · rw [hva]
        show s.idx2val index = some (Int.ofNat u)
        rw [hidx2, hux]
    · intro i y h
      rw [hva]
      exact h
    · intro y hy
      injection hy with hy2
      subst hy2
      exact ⟨by rw [hva], by rw [hva]⟩
    · intro h0
      exact Option.noConfusion h0
  | none =>
    have hcount_lt : s.root.struckCount < s.size := by
      have h1 := hs.hrem
      omega
    have hkey : 2 ^ (s.rootBits - 1 + 2) ≤ (2 ^ (s.rootBits + 1) - 1) + 128 := by
      rw [hbb2]
      omega
    have hk2 : k + s.root.struckCount < 2 ^ (s.rootBits - 1 + 1) := by
      rw [hbb1]
      have hcap := hs.hcap
      have hrem := hs.hrem
      omega
    obtain ⟨v, hv1, hv2, hv3, hv4, hv5, hv6, hv7, hv8, hv9⟩ :=
      nextValue_spec s.root (s.rootBits - 1) (s.rootBits + 1)
        (2 ^ (s.rootBits + 1) - 1) 0 k s.nodeStore hs.hwf (by omega) hk2
        hs.hstore hkey
    rw [hbb1] at hv2 hv7
    have hv1b : (nextValue (s.rootBits + 1) s.root (2 ^ (s.rootBits + 1) - 1)
        0 k s.nodeStore).1 = v := by
      rw [hv1]
      exact Nat.zero_or v
    have hvsize : v < s.size := by
      apply unstruck_lt_of_unstruckIn s.root v s.size
      rw [hv4]
      have hrem2 := hs.hrem2
      have hrem := hs.hrem
      omega
    have hexact := nextValue_exact s.root (s.rootBits - 1) (s.rootBits + 1)
      (2 ^ (s.rootBits + 1) - 1) 0 k s.nodeStore hs.hwf (by omega) hk2 hkey
      (fun κ h1 h2 => hs.hstoreX κ)
    have hstoreX2 : ∀ κ,
        (nextValue (s.rootBits + 1) s.root (2 ^ (s.rootBits + 1) - 1)
          0 k s.nodeStore).2.2 κ =
        treeStore (nextValue (s.rootBits + 1) s.root (2 ^ (s.rootBits + 1) - 1)
          0 k s.nodeStore).2.1 (2 ^ (s.rootBits + 1) - 1) κ := by
      intro κ
      by_cases hgt : 2 ^ (s.rootBits + 1) - 1 < κ
      · rw [treeStore_gt _ _ _ hgt, hv9 κ (Or.inl hgt), hs.hstoreX κ]
        exact treeStore_gt _ _ _ hgt
      · by_cases hlow : (2 ^ (s.rootBits + 1) - 1) + 128 ≤
            κ + 2 ^ (s.rootBits - 1 + 2)
        · exact hexact κ hlow (by omega)
        · push_neg at hlow
          rw [hv9 κ (Or.inr hlow), hs.hstoreX κ]
          rw [treeStore_lt_none s.root (s.rootBits - 1) _ κ hs.hwf hlow]
          rw [treeStore_lt_none _ (s.rootBits - 1) _ κ hv5 hlow]
    have hva : valueAt s index k =
        ({ s with
             root := (nextValue (s.rootBits + 1) s.root
               (2 ^ (s.rootBits + 1) - 1) 0 k s.nodeStore).2.1,
             nodeStore := (nextValue (s.rootBits + 1) s.root
               (2 ^ (s.rootBits + 1) - 1) 0 k s.nodeStore).2.2,
             remainingSize := s.remainingSize - 1,
             idx2val := (ivSave s.idx2val s.val2idx index
               (Int.ofNat (nextValue (s.rootBits + 1) s.root
                 (2 ^ (s.rootBits + 1) - 1) 0 k s.nodeStore).1)).1,
             val2idx := (ivSave s.idx2val s.val2idx index
               (Int.ofNat (nextValue (s.rootBits + 1) s.root
                 (2 ^ (s.rootBits + 1) - 1) 0 k s.nodeStore).1)).2 },
          Int.ofNat (nextValue (s.rootBits + 1) s.root
            (2 ^ (s.rootBits + 1) - 1) 0 k s.nodeStore).1) := by
      have hncyc : (!s.cyclic) = true := by
        rw [hcyc]
        rfl
      unfold valueAt
      rw [if_pos hncyc, hidx2]
    rw [hva, hv1b]
    refine ⟨?_, rfl, rfl, ?_, ?_, ?_, ?_⟩
    · exact Inv_strike s index v _ _ hs hcyc hidx hidx2 hvsize hv3 hv5 hv6
        hv7 hstoreX2
    · refine ⟨v, rfl, hvsize, ?_⟩
      show (if index = index then some (Int.ofNat v) else s.idx2val index) =
        some (Int.ofNat v)
      rw [if_pos rfl]
    · intro i y h
      have hi : i ≠ index := by
        intro he
        subst he
        rw [hidx2] at h
        exact Option.noConfusion h
      show (if i = index then some (Int.ofNat v) else s.idx2val i) = some y
      rw [if_neg hi]
      exact h
    · intro y hy
      exact Option.noConfusion hy
    · intro h0
      exact ⟨hv6, rfl⟩

theorem stampTree_frame_above : ∀ (f oc : Nat) (store : Store) (key κ : Nat),
    key < κ → (stampTree oc f store key).2 κ = store κ := by
  intro f
  induction f with
  | zero =>
    intro oc store key κ hκ
    show storeSave store key ⟨oc, 0⟩ κ = store κ
    exact storeSave_ne store key ⟨oc, 0⟩ κ (by omega)
  | succ f2 ih =>
    intro oc store key κ hκ
    simp only [stampTree]
    by_cases hr : ((restoreTreeF (f2 + 1)
        (storeSave store key ⟨oc, 0⟩) (key - 2 ^ (f2 + 8)) true).struckCount
        != 0) = true
    · rw [if_pos hr]
      exact storeSave_ne store key ⟨oc, 0⟩ κ (by omega)
    · rw [if_neg hr]
      show (stampTree oc f2 (storeSave store key ⟨oc, 0⟩)
        (key - 2 ^ (f2 + 8))).2 κ = store κ
      rw [ih oc (storeSave store key ⟨oc, 0⟩) (key - 2 ^ (f2 + 8)) κ
        (lt_of_le_of_lt (Nat.sub_le _ _) hκ)]
      exact storeSave_ne store key ⟨oc, 0⟩ κ (by omega)

theorem stampTree_exact : ∀ (f : Nat) (old : Tree) (β : Nat) (store : Store),
    5 ≤ β → β ≤ f + 5 → wf old β = true → old.struckCount ≠ 0 →
    (∀ κ, κ ≤ 2 ^ (f + 8) - 1 → store κ = treeStore old (2 ^ (β + 2) - 1) κ) →
    ∀ κ, κ ≤ 2 ^ (f + 8) - 1 →
      (stampTree old.struckCount f store (2 ^ (f + 8) - 1)).2 κ =
        treeStore (stampTree old.struckCount f store (2 ^ (f + 8) - 1)).1
          (2 ^ (f + 8) - 1) κ := by
  intro f
  induction f with
  | zero =>
    intro old β store h5β hβ5 hwold hoc hex κ hκ
    have hβ : β = 5 := by omega
    subst hβ
    have hE : (2 : Nat) ^ (0 + 8) = 256 := by norm_num
    have hEold : (2 : Nat) ^ (5 + 2) = 128 := by norm_num
    have hstold2 : StoreOK old (2 ^ (5 + 2) - 1)
        (storeSave store (2 ^ (0 + 8) - 1) ⟨old.struckCount, 0⟩) = true := by
      apply treeStore_StoreOK old 5 _ _ hwold (by norm_num)
      intro κ2 h1 h2
      rw [storeSave_ne store _ _ κ2 (by omega)]
      exact hex κ2 (by omega)
    have hr : restoreTreeF 0
        (storeSave store (2 ^ (0 + 8) - 1) ⟨old.struckCount, 0⟩)
        (2 ^ (0 + 8) - 1 - 2 ^ 7) true = old := by
      rw [show (2 : Nat) ^ (0 + 8) - 1 - 2 ^ 7 = 2 ^ (5 + 2) - 1 by omega]
      exact restoreTreeF_eq old 5 (2 ^ (5 + 2) - 1) _ hwold hstold2
    have hlnone : storeSave store (2 ^ (0 + 8) - 1) ⟨old.struckCount, 0⟩
        (2 ^ (0 + 8) - 1 - 1) = none := by
      rw [storeSave_ne store _ _ _ (by omega)]
      rw [hex _ (by omega)]
      exact treeStore_gt old _ _ (by omega)
    have hl : restoreTreeF 0
        (storeSave store (2 ^ (0 + 8) - 1) ⟨old.struckCount, 0⟩)
        (2 ^ (0 + 8) - 1 - 1) true = zeroTree 5 :=
      restoreTreeF_none 0 _ _ hlnone
    simp only [stampTree]
    rw [hr, hl]
    by_cases hκk : κ = 2 ^ (0 + 8) - 1
    · subst hκk
      rw [storeSave_self, treeStore_node_self]
      rw [if_neg hoc]
    · rw [storeSave_ne store _ _ κ hκk]
      by_cases hκr : κ ≤ 2 ^ (0 + 8) - 1 - 2 ^ (6 + 1)
      · rw [treeStore_node_right 6 old.struckCount old (zeroTree 5) _ κ hκk hκr]
        rw [hex κ hκ]
        rw [show (2 : Nat) ^ (0 + 8) - 1 - 2 ^ (6 + 1) = 2 ^ (5 + 2) - 1 by
          omega]
      · rw [treeStore_node_left 6 old.struckCount old (zeroTree 5) _ κ hκk hκr
          (by omega)]
        rw [hex κ hκ, treeStore_gt old _ _ (by omega), treeStore_zeroTree]
  | succ f2 ih =>
    intro old β store h5β hβ5 hwold hoc hex κ hκ
    have hP : (2 : Nat) ^ (f2 + 1 + 8) = 2 * 2 ^ (f2 + 8) := by
      rw [show f2 + 1 + 8 = (f2 + 8) + 1 by omega, pow_succ]
      ring
    have hP64 : 64 ≤ 2 ^ (f2 + 8) := by
      calc (64 : Nat) = 2 ^ 6 := by norm_num
      _ ≤ 2 ^ (f2 + 8) := Nat.pow_le_pow_right (by omega) (by omega)
    have hPβ : 2 ^ (β + 2) ≤ 2 ^ (f2 + 8) := Nat.pow_le_pow_right (by omega)
      (by omega)
    have harg : 2 ^ (f2 + 1 + 8) - 1 - 2 ^ (f2 + 8) = 2 ^ (f2 + 8) - 1 := by
      omega
    have hsave : ∀ κ2, κ2 ≤ 2 ^ (f2 + 8) - 1 →
        storeSave store (2 ^ (f2 + 1 + 8) - 1) ⟨old.struckCount, 0⟩ κ2 =
          store κ2 := by
      intro κ2 h2
      exact storeSave_ne store _ _ κ2 (by omega)
    simp only [stampTree]
    rw [harg]
    by_cases hend : β = f2 + 6
    · -- the old root is the immediate right child
      subst hend
      have hstold2 : StoreOK old (2 ^ (f2 + 6 + 2) - 1)
          (storeSave store (2 ^ (f2 + 1 + 8) - 1) ⟨old.struckCount, 0⟩)
          = true := by
        apply treeStore_StoreOK old (f2 + 6) _ _ hwold (by omega)
        intro κ2 h1 h2
        rw [hsave κ2 (by omega)]
        exact hex κ2 (by omega)
      have hr : restoreTreeF (f2 + 1)
          (storeSave store (2 ^ (f2 + 1 + 8) - 1) ⟨old.struckCount, 0⟩)
          (2 ^ (f2 + 8) - 1) true = old := by
        rw [show f2 + 1 = f2 + 6 - 5 by omega,
          show (2 : Nat) ^ (f2 + 8) - 1 = 2 ^ (f2 + 6 + 2) - 1 by rfl]
        exact restoreTreeF_eq old (f2 + 6) _ _ hwold hstold2
      rw [hr]
      rw [if_pos (by
        cases h : (old.struckCount != 0)
        · rw [bne] at h
          simp at h
          exact absurd h hoc
        · rfl)]
      have hlnone : storeSave store (2 ^ (f2 + 1 + 8) - 1) ⟨old.struckCount, 0⟩
          (2 ^ (f2 + 1 + 8) - 1 - 1) = none := by
        rw [storeSave_ne store _ _ _ (by omega)]
        rw [hex _ (by omega)]
        exact treeStore_gt old _ _ (by omega)
      have hl : restoreTreeF (f2 + 1)
          (storeSave store (2 ^ (f2 + 1 + 8) - 1) ⟨old.struckCount, 0⟩)
          (2 ^ (f2 + 1 + 8) - 1 - 1) true = zeroTree (f2 + 6) :=
        restoreTreeF_none (f2 + 1) _ _ hlnone
      rw [hl]
      dsimp only
      by_cases hκk : κ = 2 ^ (f2 + 1 + 8) - 1
      · subst hκk
        rw [storeSave_self, treeStore_node_self]
        rw [if_neg hoc]
      · rw [storeSave_ne store _ _ κ hκk]
        have e1 : (2 : Nat) ^ (f2 + 7 + 1) = 2 ^ (f2 + 8) := rfl
        have e3 : (2 : Nat) ^ (f2 + 6 + 2) = 2 ^ (f2 + 8) := rfl
        have heq : 2 ^ (f2 + 1 + 8) - 1 - 2 ^ (f2 + 7 + 1) =
            2 ^ (f2 + 6 + 2) - 1 := by
          rw [e1, e3, hP]
          omega
        by_cases hκr : κ ≤ 2 ^ (f2 + 1 + 8) - 1 - 2 ^ (f2 + 7 + 1)
        · rw [treeStore_node_right (f2 + 7) old.struckCount old
            (zeroTree (f2 + 6)) _ κ hκk hκr]
          rw [hex κ hκ, heq]
        · rw [treeStore_node_left (f2 + 7) old.struckCount old
            (zeroTree (f2 + 6)) _ κ hκk hκr (by omega)]
          rw [hex κ hκ]
          rw [heq] at hκr
          rw [treeStore_gt old _ _ (by omega), treeStore_zeroTree]
    · -- the walk continues into the right child
      have hβlt : β + 2 < f2 + 8 := by omega
      have hPβ2 : 2 ^ (β + 2) ≤ 2 ^ (f2 + 7) := Nat.pow_le_pow_right
        (by omega) (by omega)
      have hP7 : (2 : Nat) ^ (f2 + 8) = 2 * 2 ^ (f2 + 7) := by
        rw [show f2 + 8 = (f2 + 7) + 1 by omega, pow_succ]
        ring
      have hrnone : storeSave store (2 ^ (f2 + 1 + 8) - 1) ⟨old.struckCount, 0⟩
          (2 ^ (f2 + 8) - 1) = none := by
        rw [hsave _ (Nat.le_refl _), hex _ (by omega)]
        exact treeStore_gt old _ _ (by omega)
      have hr : restoreTreeF (f2 + 1)
          (storeSave store (2 ^ (f2 + 1 + 8) - 1) ⟨old.struckCount, 0⟩)
          (2 ^ (f2 + 8) - 1) true = zeroTree (f2 + 6) :=
        restoreTreeF_none (f2 + 1) _ _ hrnone
      rw [hr]
      rw [if_neg (by rw [zeroTree_struckCount]; simp)]
      have hex2 : ∀ κ2, κ2 ≤ 2 ^ (f2 + 8) - 1 →
          storeSave store (2 ^ (f2 + 1 + 8) - 1) ⟨old.struckCount, 0⟩ κ2 =
            treeStore old (2 ^ (β + 2) - 1) κ2 := by
        intro κ2 h2
        rw [hsave κ2 h2]
        exact hex κ2 (by omega)
      have hrec := ih old β
        (storeSave store (2 ^ (f2 + 1 + 8) - 1) ⟨old.struckCount, 0⟩)
        h5β (by omega) hwold hoc hex2
      have hfr := stampTree_frame_above f2 old.struckCount
        (storeSave store (2 ^ (f2 + 1 + 8) - 1) ⟨old.struckCount, 0⟩)
        (2 ^ (f2 + 8) - 1)
      have hlnone : (stampTree old.struckCount f2
          (storeSave store (2 ^ (f2 + 1 + 8) - 1) ⟨old.struckCount, 0⟩)
          (2 ^ (f2 + 8) - 1)).2 (2 ^ (f2 + 1 + 8) - 1 - 1) = none := by
        rw [hfr _ (by omega)]
        rw [storeSave_ne store _ _ _ (by omega)]
        rw [hex _ (by omega)]
        exact treeStore_gt old _ _ (by omega)
      have hl : restoreTreeF (f2 + 1)
          (stampTree old.struckCount f2
            (storeSave store (2 ^ (f2 + 1 + 8) - 1) ⟨old.struckCount, 0⟩)
            (2 ^ (f2 + 8) - 1)).2
          (2 ^ (f2 + 1 + 8) - 1 - 1) true = zeroTree (f2 + 6) :=
        restoreTreeF_none (f2 + 1) _ _ hlnone
      rw [hl]
      dsimp only
      by_cases hκk : κ = 2 ^ (f2 + 1 + 8) - 1
      · subst hκk
        rw [hfr _ (by omega), storeSave_self, treeStore_node_self]
        rw [if_neg hoc]
      · by_cases hκr : κ ≤ 2 ^ (f2 + 1 + 8) - 1 - 2 ^ (f2 + 7 + 1)
        · rw [treeStore_node_right (f2 + 7) old.struckCount _
            (zeroTree (f2 + 6)) _ κ hκk hκr]
          have hκ2 : κ ≤ 2 ^ (f2 + 8) - 1 := by
            have : (2 : Nat) ^ (f2 + 7 + 1) = 2 ^ (f2 + 8) := rfl
            omega
          rw [show (2 : Nat) ^ (f2 + 1 + 8) - 1 - 2 ^ (f2 + 7 + 1) =
            2 ^ (f2 + 8) - 1 by
              have : (2 : Nat) ^ (f2 + 7 + 1) = 2 ^ (f2 + 8) := rfl
              omega]
          exact hrec κ hκ2
        · rw [treeStore_node_left (f2 + 7) old.struckCount _
            (zeroTree (f2 + 6)) _ κ hκk hκr (by omega)]
          rw [treeStore_zeroTree]
          rw [hfr _ (by
            have : (2 : Nat) ^ (f2 + 7 + 1) = 2 ^ (f2 + 8) := rfl
            omega)]
          rw [storeSave_ne store _ _ κ hκk]
          rw [hex κ hκ]
          exact treeStore_gt old _ _ (by omega)

theorem Inv_no_entries {s : SState} (hs : Inv s)
    (hc : s.root.struckCount = 0) : ∀ i, s.idx2val i = none := by
  intro i
  cases h : s.idx2val i with
  | none => rfl
  | some x =>
    cases x with
    | ofNat v =>
      have h2 := (hs.hpos i v h).2
      have h3 := count_pos_of_struckAt s.root (s.rootBits - 1) v hs.hwf h2
      omega
    | negSucc m =>
      obtain ⟨-, -, -, -, h2⟩ := hs.hneg i m h
      have h3 := count_pos_of_struckAt s.root (s.rootBits - 1) i hs.hwf h2
      omega

theorem Inv_rebuild (s : SState) (n bits2 : Nat) (t2 : Tree) (st2 : Store)
    (hs : Inv s) (hn : 1 ≤ n)
    (hbits2 : bits2 = sizeBitLength n)
    (hwf2 : wf t2 (bits2 - 1) = true)
    (hcnt2 : t2.struckCount = s.root.struckCount)
    (hstX2 : ∀ κ, st2 κ = treeStore t2 (2 ^ (bits2 + 1) - 1) κ)
    (hpt : ∀ x, x < 2 ^ s.rootBits → struckAt t2 x = struckAt s.root x)
    (hhigh2 : ∀ x, 2 ^ s.rootBits ≤ x → x < 2 ^ bits2 → struckAt t2 x = false)
    (hgrow : s.size ≤ n ∨ s.root.struckCount = 0)
    (hcycrem : s.cyclic = true → 1 ≤ s.remainingSize) :
    Inv { s with
            size := n, rootBits := bits2, root := t2, nodeStore := st2,
            remainingSize := n - t2.struckCount } := by
  have hcap2 : n ≤ 2 ^ bits2 := by
    rw [hbits2]
    exact size_le_two_pow_sbl n
  have hentries : s.root.struckCount = 0 → ∀ i, s.idx2val i = none :=
    fun h0 => Inv_no_entries hs h0
  have hzero : s.root.struckCount = 0 → ∀ x, struckAt s.root x = false := by
    intro h0 x
    have hz := wf_count_zero s.root (s.rootBits - 1) hs.hwf h0
    rw [hz]
    exact struckAt_zeroTree _ _
  constructor
  · exact hn
  · exact hbits2
  · exact hwf2
  · exact hstX2
  · rfl
  · show t2.struckCount ≤ n
    rcases hgrow with hg | h0
    · have := hs.hcnt
      omega
    · rw [hcnt2, h0]
      omega
  · intro v h1 h2
    have h1b : n ≤ v := h1
    have h2b : v < 2 ^ bits2 := h2
    show struckAt t2 v = false
    by_cases hlow : v < 2 ^ s.rootBits
    · rw [hpt v hlow]
      by_cases hsz : s.size ≤ v
      · exact hs.hhigh v hsz hlow
      · rcases hgrow with hg | h0
        · omega
        · exact hzero h0 v
    · exact hhigh2 v (by omega) h2b
  · intro i x h
    have h2 : s.idx2val i = some x := h
    show i < n
    rcases hgrow with hg | h0
    · have := hs.hdom i x h2
      omega
    · rw [hentries h0 i] at h2
      exact Option.noConfusion h2
  · intro i v h
    have h2 : s.idx2val i = some (Int.ofNat v) := h
    rcases hgrow with hg | h0
    · obtain ⟨hv1, hv2⟩ := hs.hpos i v h2
      refine ⟨show v < n by omega, ?_⟩
      show struckAt t2 v = true
      rw [hpt v (lt_of_lt_of_le hv1 hs.hcap)]
      exact hv2
    · rw [hentries h0 i] at h2
      exact Option.noConfusion h2
  · intro e m h
    have h2 : s.idx2val e = some (Int.negSucc m) := h
    rcases hgrow with hg | h0
    · obtain ⟨hc1, hc2, hc3, hc4, hc5⟩ := hs.hneg e m h2
      have he := hs.hdom e _ h2
      refine ⟨hc1, show m < n by omega, ?_, hc4, ?_⟩
      · show struckAt t2 m = false
        rw [hpt m (lt_of_lt_of_le hc2 hs.hcap)]
        exact hc3
      · show struckAt t2 e = true
        rw [hpt e (lt_of_lt_of_le he hs.hcap)]
        exact hc5
    · rw [hentries h0 e] at h2
      exact Option.noConfusion h2
  · intro i j x hi hj
    exact hs.hinj i j x hi hj
  · intro i x h
    exact hs.hfwd i x h
  · intro v i h
    exact hs.hbak v i h
  · intro m i h
    rcases hs.hbakneg m i h with hold | ⟨hm1, hm2⟩
    · exact Or.inl hold
    · rcases hgrow with hg | h0
      · refine Or.inr ⟨show m < n by omega, ?_⟩
        show struckAt t2 m = true
        rw [hpt m (lt_of_lt_of_le hm1 hs.hcap)]
        exact hm2
      · rw [hzero h0 m] at hm2
        exact Bool.noConfusion hm2
  · intro v h1 h2
    have h1b : v < n := h1
    have h2b : struckAt t2 v = true := h2
    by_cases hlow : v < 2 ^ s.rootBits
    · rw [hpt v hlow] at h2b
      have hvsz : v < s.size := by
        by_contra hge
        push_neg at hge
        rw [hs.hhigh v hge hlow] at h2b
        exact Bool.noConfusion h2b
      exact hs.hsur v hvsz h2b
    · rw [hhigh2 v (by omega) (by omega)] at h2b
      exact Bool.noConfusion h2b
  · intro hcc m h1 h2 h3
    have hcc2 : s.cyclic = true := hcc
    have h2b : struckAt t2 m = true → False := by
      intro hx
      rw [h2] at hx
      exact Bool.noConfusion hx
    have h3b : s.idx2val m ≠ none := h3
    have hm : m < s.size := by
      cases hmv : s.idx2val m with
      | none => exact absurd hmv h3b
      | some x => exact hs.hdom m x hmv
    apply hs.hopen hcc2 m hm
    · by_cases hu : struckAt s.root m = true
      · exfalso
        apply h2b
        show struckAt t2 m = true
        rw [hpt m (lt_of_lt_of_le hm hs.hcap)]
        exact hu
      · cases hux : struckAt s.root m
        · rfl
        · exact absurd hux hu
    · exact h3b
  · intro hcc hc1 hrm
    have hcc2 : s.cyclic = true := hcc
    have hc1b : 1 ≤ s.root.struckCount := by
      have : 1 ≤ t2.struckCount := hc1
      omega
    exact hs.hmark hcc2 hc1b (hcycrem hcc2)
  · intro hcc h2n i h
    have hcc2 : s.cyclic = true := hcc
    have hi : s.idx2val i = some (Int.ofNat i) := h
    by_cases hsz : 2 ≤ s.size
    · exact hs.hnofix hcc2 hsz i hi
    · have hi1 : i < s.size := hs.hdom i _ hi
      have hstruck := (hs.hpos i i hi).2
      have hcp := count_pos_of_struckAt s.root (s.rootBits - 1) i hs.hwf
        hstruck
      have hrm := hs.hrem
      have hcr := hcycrem hcc2
      have hcnt := hs.hcnt
      omega

theorem resize_spec (s : SState) (n : Nat) (hs : Inv s) (hn : 1 ≤ n)
    (hok : (resize s n).2 = none) :
    Inv (resize s n).1 ∧
    (resize s n).1.size = n ∧
    (resize s n).1.cyclic = s.cyclic ∧
    (resize s n).1.idx2val = s.idx2val ∧
    (resize s n).1.val2idx = s.val2idx ∧
    ((resize s n).1.root).struckCount = s.root.struckCount ∧
    (resize s n).1.remainingSize = n - s.root.struckCount ∧
    (s.root.struckCount ≠ 0 → sizeBitLength n ≠ s.rootBits →
      (resize s n).1.rootBits = sizeBitLength n ∧
      (∀ m, s.rootBits + 2 ≤ m → m ≤ sizeBitLength n + 1 →
        (resize s n).1.nodeStore (2 ^ m - 1) =
          some ⟨s.root.struckCount, 0⟩)) := by
  have hb6 := hs.hb6
  by_cases h1 : n = s.size
  · have hres : resize s n = (s, none) := by
      unfold resize
      rw [if_pos h1]
    rw [hres]
    refine ⟨hs, h1.symm, rfl, rfl, rfl, rfl, ?_, ?_⟩
    · rw [hs.hrem, h1]
    · intro hc0 hne
      exfalso
      apply hne
      rw [h1, ← hs.hbits]
  · by_cases h2 : n < s.size ∧ s.root.struckCount ≠ 0
    · exfalso
      have hres : resize s n = (s, some .shrinkInUse) := by
        unfold resize
        rw [if_neg h1, if_pos h2]
      rw [hres] at hok
      exact Option.noConfusion hok
    · by_cases h3 : s.cyclic = true ∧ s.remainingSize = 0
      · exfalso
        have hres : resize s n = (s, some .resizeClosed) := by
          unfold resize
          rw [if_neg h1, if_neg h2, if_pos h3]
        rw [hres] at hok
        exact Option.noConfusion hok
      · have hcycrem : s.cyclic = true → 1 ≤ s.remainingSize := by
          intro hcc
          by_contra hz
          push_neg at hz
          exact h3 ⟨hcc, by omega⟩
        have hgrow : s.size ≤ n ∨ s.root.struckCount = 0 := by
          by_cases hc0 : s.root.struckCount = 0
          · exact Or.inr hc0
          · left
            by_contra hlt
            push_neg at hlt
            exact h2 ⟨by omega, hc0⟩
        by_cases hD1 : sizeBitLength n = s.rootBits
        · -- no rebuild
          have hbr : buildRoot true n s.root s.rootBits s.nodeStore =
              (s.root, s.rootBits, s.nodeStore) := by
            unfold buildRoot
            rw [if_neg (show ¬((!true ||
                (sizeBitLength n != s.rootBits)) = true) by
              rw [hD1]
              simp)]
          have hres : resize s n =
              ({ s with
                   size := n, rootBits := s.rootBits, root := s.root,
                   nodeStore := s.nodeStore,
                   remainingSize := n - s.root.struckCount }, none) := by
            unfold resize
            rw [if_neg h1, if_neg h2, if_neg h3, hbr]
          rw [hres]
          refine ⟨?_, rfl, rfl, rfl, rfl, rfl, rfl, ?_⟩
          · exact Inv_rebuild s n s.rootBits s.root s.nodeStore hs hn
              hD1.symm hs.hwf rfl hs.hstoreX (fun x hx => rfl)
              (fun x hx1 hx2 => absurd (lt_of_le_of_lt hx1 hx2)
                (lt_irrefl _))
              hgrow hcycrem
          · intro hc0 hne
            exact absurd hD1 hne
        · by_cases hc0 : s.root.struckCount = 0
          · -- rebuild from scratch: the new root is a zero tree
            have hbr : buildRoot true n s.root s.rootBits s.nodeStore =
                (zeroTree (sizeBitLength n - 1), sizeBitLength n,
                  s.nodeStore) := by
              unfold buildRoot
              rw [if_pos (show (!true ||
                  (sizeBitLength n != s.rootBits)) = true by simp [hD1])]
              rw [if_neg (show ¬((true &&
                  (s.root.struckCount != 0)) = true) by simp [hc0])]
              rw [show (!true) = false from rfl, restoreTreeF_false]
              rw [show sizeBitLength n - 6 + 5 = sizeBitLength n - 1 by
                have := sbl_ge_six n
                omega]
            have hres : resize s n =
                ({ s with
                     size := n, rootBits := sizeBitLength n,
                     root := zeroTree (sizeBitLength n - 1),
                     nodeStore := s.nodeStore,
                     remainingSize :=
                       n - (zeroTree (sizeBitLength n - 1)).struckCount },
                  none) := by
              unfold resize
              rw [if_neg h1, if_neg h2, if_neg h3, hbr]
            rw [hres]
            have hroot0 : s.root = zeroTree (s.rootBits - 1) :=
              wf_count_zero s.root (s.rootBits - 1) hs.hwf hc0
            refine ⟨?_, rfl, rfl, rfl, rfl, ?_, ?_, ?_⟩
            · apply Inv_rebuild s n (sizeBitLength n)
                (zeroTree (sizeBitLength n - 1)) s.nodeStore hs hn rfl
              · exact wf_zeroTree (sizeBitLength n - 1)
                  (by have := sbl_ge_six n; omega)
              · rw [zeroTree_struckCount, hc0]
              · intro κ
                rw [treeStore_zeroTree, hs.hstoreX κ, hroot0,
                  treeStore_zeroTree]
              · intro x hx
                rw [struckAt_zeroTree, hroot0, struckAt_zeroTree]
              · intro x hx1 hx2
                rw [struckAt_zeroTree]
              · exact hgrow
              · exact hcycrem
            · rw [zeroTree_struckCount, hc0]
            · rw [zeroTree_struckCount, hc0]
            · intro hcc hne
              exact absurd hc0 hcc
          · -- stamp rebuild along the right spine
            have hge : s.size ≤ n := by
              rcases hgrow with hg | h0
              · exact hg
              · exact absurd h0 hc0
            have hmono : s.rootBits ≤ sizeBitLength n := by
              rw [hs.hbits]
              exact sbl_mono s.size n hge
            have hlt : s.rootBits < sizeBitLength n := by
              rcases Nat.lt_or_ge s.rootBits (sizeBitLength n) with h | h
              · exact h
              · exact absurd (by omega) hD1
            obtain ⟨g, hg⟩ : ∃ g, sizeBitLength n = g + 7 :=
              ⟨sizeBitLength n - 7, by omega⟩
            have hbb1 : s.rootBits - 1 + 1 = s.rootBits := by omega
            have hbb2 : s.rootBits - 1 + 2 = s.rootBits + 1 := by omega
            have hsok : StoreOK s.root (2 ^ (s.rootBits - 1 + 2) - 1)
                s.nodeStore = true := by
              rw [hbb2]
              exact hs.hstore
            have hnone : ∀ κ, 2 ^ (s.rootBits - 1 + 2) - 1 < κ →
                κ < 2 ^ (g + 8) → s.nodeStore κ = none := by
              intro κ hκ1 hκ2
              apply hs.hkeys
              rw [hbb2] at hκ1
              omega
            have hex : ∀ κ, κ ≤ 2 ^ (g + 8) - 1 →
                s.nodeStore κ =
                  treeStore s.root (2 ^ (s.rootBits - 1 + 2) - 1) κ := by
              intro κ hκ
              rw [hbb2]
              exact hs.hstoreX κ
            obtain ⟨hw2, hcn2, hpt2, hhi2, hsok2, hfr2, hfa2, hsp2⟩ :=
              stampTree_spec g s.root (s.rootBits - 1) s.nodeStore
                (by omega) (by omega) hs.hwf hc0 hsok hnone
            have hexact := stampTree_exact g s.root (s.rootBits - 1)
              s.nodeStore (by omega) (by omega) hs.hwf hc0 hex
            have hbr : buildRoot true n s.root s.rootBits s.nodeStore =
                ((stampTree s.root.struckCount g s.nodeStore
                    (2 ^ (g + 8) - 1)).1, g + 7,
                  (stampTree s.root.struckCount g s.nodeStore
                    (2 ^ (g + 8) - 1)).2) := by
              unfold buildRoot
              rw [if_pos (show (!true ||
                  (sizeBitLength n != s.rootBits)) = true by simp [hD1])]
              rw [if_pos (show (true &&
                  (s.root.struckCount != 0)) = true by simp [hc0])]
              rw [hg]
              rfl
            have hres : resize s n =
                ({ s with
                     size := n, rootBits := g + 7,
                     root := (stampTree s.root.struckCount g s.nodeStore
                       (2 ^ (g + 8) - 1)).1,
                     nodeStore := (stampTree s.root.struckCount g s.nodeStore
                       (2 ^ (g + 8) - 1)).2,
                     remainingSize :=
                       n - ((stampTree s.root.struckCount g s.nodeStore
                         (2 ^ (g + 8) - 1)).1).struckCount }, none) := by
              unfold resize
              rw [if_neg h1, if_neg h2, if_neg h3, hbr]
            rw [hres]
            have hstX2 : ∀ κ,
                (stampTree s.root.struckCount g s.nodeStore
                  (2 ^ (g + 8) - 1)).2 κ =
                treeStore (stampTree s.root.struckCount g s.nodeStore
                  (2 ^ (g + 8) - 1)).1 (2 ^ (g + 7 + 1) - 1) κ := by
              intro κ
              rw [show (2 : Nat) ^ (g + 7 + 1) = 2 ^ (g + 8) from rfl]
              by_cases hκ : κ ≤ 2 ^ (g + 8) - 1
              · exact hexact κ hκ
              · push_neg at hκ
                rw [treeStore_gt _ _ _ hκ]
                rw [stampTree_frame_above g s.root.struckCount s.nodeStore
                  (2 ^ (g + 8) - 1) κ hκ]
                rw [hs.hstoreX κ]
                have hpow : 2 ^ (s.rootBits + 1) ≤ 2 ^ (g + 8) :=
                  Nat.pow_le_pow_right (by omega) (by omega)
                exact treeStore_gt _ _ _ (by omega)
            refine ⟨?_, rfl, rfl, rfl, rfl, hcn2, ?_, ?_⟩
            · apply Inv_rebuild s n (g + 7)
                (stampTree s.root.struckCount g s.nodeStore
                  (2 ^ (g + 8) - 1)).1
                (stampTree s.root.struckCount g s.nodeStore
                  (2 ^ (g + 8) - 1)).2 hs hn hg.symm
              · rw [show g + 7 - 1 = g + 6 by omega]
                exact hw2
              · exact hcn2
              · exact hstX2
              · intro x hx
                apply hpt2
                rw [hbb1]
                exact hx
              · intro x hx1 hx2
                apply hhi2 x
                · rw [hbb1]
                  exact hx1
                · exact hx2
              · exact hgrow
              · exact hcycrem
            · rw [hcn2]
            · intro hcc hne
              refine ⟨hg.symm, ?_⟩
              intro m hm1 hm2
              apply hsp2 m (by omega)
              rw [hg] at hm2
              omega

theorem intNot_ofNat (n : Nat) : intNot (Int.ofNat n) = Int.negSucc n := by
  unfold intNot
  show -(n : Int) - 1 = Int.negSucc n
  rw [Int.negSucc_eq]
  ring

theorem intNot_negSucc_toNat (m : Nat) :
    (intNot (Int.negSucc m)).toNat = m := by
  unfold intNot
  rw [Int.negSucc_eq]
  omega

theorem unstruckIn_two (t : Tree) (n u1 u2 : Nat) (h12 : u1 ≠ u2)
    (h1 : u1 < n) (h2 : u2 < n) (hu1 : struckAt t u1 = false)
    (hu2 : struckAt t u2 = false) : 2 ≤ unstruckIn t n := by
  unfold unstruckIn
  have hsub : ({u1, u2} : Finset Nat) ⊆
      (Finset.range n).filter (fun i => struckAt t i = false) := by
    intro x hx
    rcases Finset.mem_insert.mp hx with hx1 | hx2
    · subst hx1
      exact Finset.mem_filter.mpr ⟨Finset.mem_range.mpr h1, hu1⟩
    · rw [Finset.mem_singleton] at hx2
      subst hx2
      exact Finset.mem_filter.mpr ⟨Finset.mem_range.mpr h2, hu2⟩
  calc 2 = ({u1, u2} : Finset Nat).card := by
        rw [Finset.card_insert_of_not_mem (by
          rw [Finset.mem_singleton]
          exact h12), Finset.card_singleton]
  _ ≤ _ := Finset.card_le_card hsub

theorem Inv_cyc_draw (s : SState) (index ls v loopEnd : Nat) (t3 : Tree)
    (st3 : Store)
    (hs : Inv s) (hcyc : s.cyclic = true) (hidx : index < s.size)
    (hls : ls < s.size) (hlsuns : struckAt s.root ls = false)
    (hcase : (s.idx2val index = none ∧ ls = index) ∨
      s.idx2val index = some (Int.negSucc ls))
    (hvsize : v < s.size) (hvuns : struckAt s.root v = false) (hvne : v ≠ ls)
    (hle : s.val2idx (Int.negSucc v) = some loopEnd ∨
      (s.val2idx (Int.negSucc v) = none ∧ loopEnd = v))
    (hwf3 : wf t3 (s.rootBits - 1) = true)
    (hcnt3 : t3.struckCount = s.root.struckCount + 1)
    (hpt3 : ∀ x, x < 2 ^ s.rootBits →
      struckAt t3 x = (struckAt s.root x || decide (x = v)))
    (hstX3 : ∀ κ, st3 κ = treeStore t3 (2 ^ (s.rootBits + 1) - 1) κ) :
    Inv { s with
            root := t3, nodeStore := st3,
            remainingSize := s.remainingSize - 1,
            idx2val := fun i =>
              if i = index then some (Int.ofNat v)
              else if i = loopEnd then some (Int.negSucc ls)
              else s.idx2val i,
            val2idx := fun y =>
              if y = Int.ofNat v then some index
              else if y = Int.negSucc ls then some loopEnd
              else s.val2idx y } := by
  have hvlt : v < 2 ^ s.rootBits := lt_of_lt_of_le hvsize hs.hcap
  have hlslt : ls < 2 ^ s.rootBits := lt_of_lt_of_le hls hs.hcap
  have hcount_lt : s.root.struckCount < s.size := by
    have h1 := unstruckIn_pos s.root s.size v hvsize hvuns
    have h2 := hs.hrem2
    omega
  have hM : s.idx2val index = some (Int.negSucc ls) →
      ls ≠ index ∧ struckAt s.root index = true ∧ s.idx2val ls ≠ none := by
    intro hm
    obtain ⟨-, -, hm3, hm4, hm5⟩ := hs.hneg index ls hm
    refine ⟨?_, hm5, hm4⟩
    intro he
    rw [he] at hm3
    rw [hm3] at hm5
    exact Bool.noConfusion hm5
  have hvindex : v ≠ index := by
    rcases hcase with ⟨h0, hlsi⟩ | hm
    · rw [hlsi] at hvne
      exact hvne
    · intro he
      obtain ⟨-, hm5, -⟩ := hM hm
      rw [← he, hvuns] at hm5
      exact Bool.noConfusion hm5
  have hgen : s.val2idx (Int.negSucc v) = some loopEnd →
      s.idx2val loopEnd = some (Int.negSucc v) := by
    intro h
    rcases hs.hbakneg v loopEnd h with hg | ⟨-, hstale⟩
    · exact hg
    · rw [hvuns] at hstale
      exact Bool.noConfusion hstale
  have hlene : loopEnd ≠ index := by
    rcases hle with hA | ⟨hB, hBeq⟩
    · have hgE := hgen hA
      intro he
      rw [he] at hgE
      rcases hcase with ⟨h0, -⟩ | hm
      · rw [h0] at hgE
        exact Option.noConfusion hgE
      · rw [hm] at hgE
        injection hgE with h2
        injection h2 with h3
        exact hvne h3.symm
    · rw [hBeq]
      exact hvindex
  have hlesize : loopEnd < s.size := by
    rcases hle with hA | ⟨-, hBeq⟩
    · exact hs.hdom loopEnd _ (hgen hA)
    · rw [hBeq]
      exact hvsize
  have hnomark_v : ∀ e, s.idx2val e = some (Int.negSucc v) →
      e = loopEnd := by
    intro e he
    have hf := hs.hfwd e _ he
    rcases hle with hA | ⟨hB, -⟩
    · rw [hA] at hf
      injection hf with h2
      exact h2.symm
    · rw [hB] at hf
      exact Option.noConfusion hf
  have hnomark_ls : ∀ e, s.idx2val e = some (Int.negSucc ls) → e = index := by
    intro e he
    rcases hcase with ⟨h0, hlsi⟩ | hm
    · obtain ⟨-, -, -, h4, -⟩ := hs.hneg e ls he
      rw [hlsi] at h4
      exact absurd h0 h4
    · exact hs.hinj e index _ he hm
  constructor
  · exact hs.hsize
  · exact hs.hbits
  · exact hwf3
  · exact hstX3
  · show s.remainingSize - 1 = s.size - t3.struckCount
    rw [hcnt3, hs.hrem]
    omega
  · show t3.struckCount ≤ s.size
    rw [hcnt3]
    omega
  · intro u h1 h2
    have h1b : s.size ≤ u := h1
    have h2b : u < 2 ^ s.rootBits := h2
    show struckAt t3 u = false
    rw [hpt3 u h2b, hs.hhigh u h1b h2b]
    simp
    omega
  · intro i x h
    have h2 : (if i = index then some (Int.ofNat v)
      else if i = loopEnd then some (Int.negSucc ls)
      else s.idx2val i) = some x := h
    show i < s.size
    by_cases hi : i = index
    · rw [hi]
      exact hidx
    · rw [if_neg hi] at h2
      by_cases hil : i = loopEnd
      · rw [hil]
        exact hlesize
      · rw [if_neg hil] at h2
        exact hs.hdom i x h2
  · intro i u h
    have h2 : (if i = index then some (Int.ofNat v)
      else if i = loopEnd then some (Int.negSucc ls)
      else s.idx2val i) = some (Int.ofNat u) := h
    by_cases hi : i = index
    · rw [if_pos hi] at h2
      injection h2 with h3
      injection h3 with h4
      subst h4
      refine ⟨hvsize, ?_⟩
      show struckAt t3 v = true
      rw [hpt3 v hvlt, hvuns]
      simp
    · rw [if_neg hi] at h2
      by_cases hil : i = loopEnd
      · rw [if_pos hil] at h2
        injection h2 with h3
        exact Int.noConfusion h3
      · rw [if_neg hil] at h2
        obtain ⟨hu1, hu2⟩ := hs.hpos i u h2
        refine ⟨hu1, ?_⟩
        show struckAt t3 u = true
        rw [hpt3 u (lt_of_lt_of_le hu1 hs.hcap), hu2]
        simp
  · intro e q h
    have h2 : (if e = index then some (Int.ofNat v)
      else if e = loopEnd then some (Int.negSucc ls)
      else s.idx2val e) = some (Int.negSucc q) := h
    by_cases hi : e = index
    · rw [if_pos hi] at h2
      injection h2 with h3
      exact Int.noConfusion h3
    · rw [if_neg hi] at h2
      by_cases hil : e = loopEnd
      · rw [if_pos hil] at h2
        injection h2 with h3
        injection h3 with h4
        subst h4
        refine ⟨hcyc, hls, ?_, ?_, ?_⟩
        · show struckAt t3 ls = false
          rw [hpt3 ls hlslt, hlsuns]
          simp
          omega
        · show (if ls = index then some (Int.ofNat v)
            else if ls = loopEnd then some (Int.negSucc ls)
            else s.idx2val ls) ≠ none
          by_cases h5 : ls = index
          · rw [if_pos h5]
            simp
          · rw [if_neg h5]
            by_cases h6 : ls = loopEnd
            · rw [if_pos h6]
              simp
            · rw [if_neg h6]
              rcases hcase with ⟨-, hlsi⟩ | hm
              · exact absurd hlsi h5
              · exact (hM hm).2.2
        · show struckAt t3 e = true
          rw [hil]
          rcases hle with hA | ⟨-, hBeq⟩
          · obtain ⟨-, -, -, -, h5⟩ := hs.hneg loopEnd v (hgen hA)
            rw [hpt3 loopEnd (lt_of_lt_of_le hlesize hs.hcap), h5]
            simp
          · rw [hBeq, hpt3 v hvlt]
            simp
      · rw [if_neg hil] at h2
        obtain ⟨-, hq2, hq3, hq4, hq5⟩ := hs.hneg e q h2
        have hqv : q ≠ v := by
          intro he2
          rw [he2] at h2
          exact hil (hnomark_v e h2)
        have hesize : e < s.size := hs.hdom e _ h2
        refine ⟨hcyc, hq2, ?_, ?_, ?_⟩
        · show struckAt t3 q = false
          rw [hpt3 q (lt_of_lt_of_le hq2 hs.hcap), hq3]
          simp
          exact hqv
        · show (if q = index then some (Int.ofNat v)
            else if q = loopEnd then some (Int.negSucc ls)
            else s.idx2val q) ≠ none
          by_cases h5 : q = index
          · rw [if_pos h5]
            simp
          · rw [if_neg h5]
            by_cases h6 : q = loopEnd
            · rw [if_pos h6]
              simp
            · rw [if_neg h6]
              exact hq4
        · show struckAt t3 e = true
          rw [hpt3 e (lt_of_lt_of_le hesize hs.hcap), hq5]
          simp
  · intro i j x hi hj
    have hi2 : (if i = index then some (Int.ofNat v)
      else if i = loopEnd then some (Int.negSucc ls)
      else s.idx2val i) = some x := hi
    have hj2 : (if j = index then some (Int.ofNat v)
      else if j = loopEnd then some (Int.negSucc ls)
      else s.idx2val j) = some x := hj
    by_cases hii : i = index
    · rw [if_pos hii] at hi2
      by_cases hjj : j = index
      · rw [hii, hjj]
      · rw [if_neg hjj] at hj2
        by_cases hjl : j = loopEnd
        · rw [if_pos hjl] at hj2
          rw [← hi2] at hj2
          injection hj2 with h3
          exact Int.noConfusion h3
        · rw [if_neg hjl] at hj2
          rw [← hi2] at hj2
          obtain ⟨-, hstruck⟩ := hs.hpos j v hj2
          rw [hvuns] at hstruck
          exact Bool.noConfusion hstruck
    · rw [if_neg hii] at hi2
      by_cases hjj : j = index
      · rw [if_pos hjj] at hj2
        by_cases hil : i = loopEnd
        · rw [if_pos hil] at hi2
          rw [← hj2] at hi2
          injection hi2 with h3
          exact Int.noConfusion h3
        · rw [if_neg hil] at hi2
          rw [← hj2] at hi2
          obtain ⟨-, hstruck⟩ := hs.hpos i v hi2
          rw [hvuns] at hstruck
          exact Bool.noConfusion hstruck
      · rw [if_neg hjj] at hj2
        by_cases hil : i = loopEnd
        · rw [if_pos hil] at hi2
          by_cases hjl : j = loopEnd
          · rw [hil, hjl]
          · rw [if_neg hjl] at hj2
            rw [← hi2] at hj2
            exact absurd (hnomark_ls j hj2) hjj
        · rw [if_neg hil] at hi2
          by_cases hjl : j = loopEnd
          · rw [if_pos hjl] at hj2
            rw [← hj2] at hi2
            exact absurd (hnomark_ls i hi2) hii
          · rw [if_neg hjl] at hj2
            exact hs.hinj i j x hi2 hj2
  · intro i x h
    have h2 : (if i = index then some (Int.ofNat v)
      else if i = loopEnd then some (Int.negSucc ls)
      else s.idx2val i) = some x := h
    show (if x = Int.ofNat v then some index
      else if x = Int.negSucc ls then some loopEnd
      else s.val2idx x) = some i
    by_cases hi : i = index
    · rw [if_pos hi] at h2
      injection h2 with h3
      rw [← h3, if_pos rfl, hi]
    · rw [if_neg hi] at h2
      by_cases hil : i = loopEnd
      · rw [if_pos hil] at h2
        injection h2 with h3
        rw [← h3, if_neg (by intro he; exact Int.noConfusion he), if_pos rfl,
          hil]
      · rw [if_neg hil] at h2
        have hxv : x ≠ Int.ofNat v := by
          intro he
          rw [he] at h2
          obtain ⟨-, hstruck⟩ := hs.hpos i v h2
          rw [hvuns] at hstruck
          exact Bool.noConfusion hstruck
        have hxls : x ≠ Int.negSucc ls := by
          intro he
          rw [he] at h2
          exact hi (hnomark_ls i h2)
        rw [if_neg hxv, if_neg hxls]
        exact hs.hfwd i x h2
  · intro u i h
    have h2 : (if Int.ofNat u = Int.ofNat v then some index
      else if Int.ofNat u = Int.negSucc ls then some loopEnd
      else s.val2idx (Int.ofNat u)) = some i := h
    by_cases hu : Int.ofNat u = Int.ofNat v
    · rw [if_pos hu] at h2
      injection h2 with h3
      rw [← h3]
      show (if index = index then some (Int.ofNat v)
        else if index = loopEnd then some (Int.negSucc ls)
        else s.idx2val index) = some (Int.ofNat u)
      rw [if_pos rfl, ← hu]
    · rw [if_neg hu,
        if_neg (show Int.ofNat u ≠ Int.negSucc ls by
          intro he
          exact Int.noConfusion he)] at h2
      have h3 := hs.hbak u i h2
      have hii : i ≠ index := by
        intro he
        rw [he] at h3
        rcases hcase with ⟨h0, -⟩ | hm
        · rw [h0] at h3
          exact Option.noConfusion h3
        · rw [hm] at h3
          injection h3 with h4
          exact Int.noConfusion h4
      have hil : i ≠ loopEnd := by
        intro he
        rw [he] at h3
        rcases hle with hA | ⟨hB, hBeq⟩
        · rw [hgen hA] at h3
          injection h3 with h4
          exact Int.noConfusion h4
        · rw [hBeq] at h3
          exact hs.hopen hcyc v hvsize hvuns (by rw [h3]; simp) hB
      show (if i = index then some (Int.ofNat v)
        else if i = loopEnd then some (Int.negSucc ls)
        else s.idx2val i) = some (Int.ofNat u)
      rw [if_neg hii, if_neg hil]
      exact h3
  · intro q i h
    have h2 : (if Int.negSucc q = Int.ofNat v then some index
      else if Int.negSucc q = Int.negSucc ls then some loopEnd
      else s.val2idx (Int.negSucc q)) = some i := h
    rw [if_neg (show Int.negSucc q ≠ Int.ofNat v by
      intro he
      exact Int.noConfusion he)] at h2
    by_cases hq : Int.negSucc q = Int.negSucc ls
    · rw [if_pos hq] at h2
      injection h2 with h3
      injection hq with h4
      left
      show (if i = index then some (Int.ofNat v)
        else if i = loopEnd then some (Int.negSucc ls)
        else s.idx2val i) = some (Int.negSucc q)
      rw [← h3, if_neg hlene, if_pos rfl, h4]
    · rw [if_neg hq] at h2
      have hql : q ≠ ls := by
        intro he
        exact hq (by rw [he])
      rcases hs.hbakneg q i h2 with hold | ⟨hq1, hq2⟩
      · by_cases hii : i = index
        · rw [hii] at hold
          rcases hcase with ⟨h0, -⟩ | hm
          · rw [h0] at hold
            exact Option.noConfusion hold
          · rw [hm] at hold
            injection hold with h4
            injection h4 with h5
            exact absurd h5.symm hql
        · by_cases hil : i = loopEnd
          · rcases hle with hA | ⟨-, hBeq⟩
            · rw [hil, hgen hA] at hold
              injection hold with h4
              injection h4 with h5
              right
              refine ⟨show q < s.size by rw [← h5]; exact hvsize, ?_⟩
              show struckAt t3 q = true
              rw [← h5, hpt3 v hvlt]
              simp
            · rw [hil, hBeq] at hold
              obtain ⟨-, -, -, -, h5⟩ := hs.hneg v q hold
              rw [hvuns] at h5
              exact Bool.noConfusion h5
          · left
            show (if i = index then some (Int.ofNat v)
              else if i = loopEnd then some (Int.negSucc ls)
              else s.idx2val i) = some (Int.negSucc q)
            rw [if_neg hii, if_neg hil]
            exact hold
      · right
        refine ⟨hq1, ?_⟩
        show struckAt t3 q = true
        rw [hpt3 q (lt_of_lt_of_le hq1 hs.hcap), hq2]
        simp
  · intro u hu1 hu2
    have hu1b : u < s.size := hu1
    have hu3 : struckAt t3 u = true := hu2
    rw [hpt3 u (lt_of_lt_of_le hu1b hs.hcap), Bool.or_eq_true] at hu3
    constructor
    · rcases hu3 with hold | heq
      · obtain ⟨⟨i, hi⟩, -⟩ := hs.hsur u hu1b hold
        have hii : i ≠ index := by
          intro he
          rw [he] at hi
          rcases hcase with ⟨h0, -⟩ | hm
          · rw [h0] at hi
            exact Option.noConfusion hi
          · rw [hm] at hi
            injection hi with h4
            exact Int.noConfusion h4
        have hil : i ≠ loopEnd := by
          intro he
          rw [he] at hi
          rcases hle with hA | ⟨hB, hBeq⟩
          · rw [hgen hA] at hi
            injection hi with h4
            exact Int.noConfusion h4
          · rw [hBeq] at hi
            exact hs.hopen hcyc v hvsize hvuns (by rw [hi]; simp) hB
        refine ⟨i, ?_⟩
        show (if i = index then some (Int.ofNat v)
          else if i = loopEnd then some (Int.negSucc ls)
          else s.idx2val i) = some (Int.ofNat u)
        rw [if_neg hii, if_neg hil]
        exact hi
      · have heq2 : u = v := by
          simpa using heq
        refine ⟨index, ?_⟩
        show (if index = index then some (Int.ofNat v)
          else if index = loopEnd then some (Int.negSucc ls)
          else s.idx2val index) = some (Int.ofNat u)
        rw [if_pos rfl, heq2]
    · intro hcc
      show (if u = index then some (Int.ofNat v)
        else if u = loopEnd then some (Int.negSucc ls)
        else s.idx2val u) ≠ none
      by_cases h5 : u = index
      · rw [if_pos h5]
        simp
      · rw [if_neg h5]
        by_cases h6 : u = loopEnd
        · rw [if_pos h6]
          simp
        · rw [if_neg h6]
          rcases hu3 with hold | heq
          · exact (hs.hsur u hu1b hold).2 hcyc
          · have heq2 : u = v := by
              simpa using heq
            rcases hle with hA | ⟨-, hBeq⟩
            · obtain ⟨-, -, -, h4, -⟩ := hs.hneg loopEnd v (hgen hA)
              rw [heq2]
              exact h4
            · exfalso
              apply h6
              rw [heq2, hBeq]
  · intro hcc m hm1 hm2 hm3
    have hcc2 : s.cyclic = true := hcc
    have hm1b : m < s.size := hm1
    have hm2b : struckAt t3 m = false := hm2
    rw [hpt3 m (lt_of_lt_of_le hm1b hs.hcap)] at hm2b
    have hmold : struckAt s.root m = false ∧ m ≠ v := by
      cases hso : struckAt s.root m
      · refine ⟨rfl, ?_⟩
        intro he
        rw [hso, he] at hm2b
        simp at hm2b
      · rw [hso] at hm2b
        simp at hm2b
    show (if Int.negSucc m = Int.ofNat v then some index
      else if Int.negSucc m = Int.negSucc ls then some loopEnd
      else s.val2idx (Int.negSucc m)) ≠ none
    rw [if_neg (show Int.negSucc m ≠ Int.ofNat v by
      intro he
      exact Int.noConfusion he)]
    by_cases hmls : Int.negSucc m = Int.negSucc ls
    · rw [if_pos hmls]
      simp
    · rw [if_neg hmls]
      have hmls2 : m ≠ ls := by
        intro he
        exact hmls (by rw [he])
      have hmidx : m ≠ index := by
        intro he
        rcases hcase with ⟨-, hlsi⟩ | hm4
        · rw [hlsi] at hmls2
          exact hmls2 he
        · obtain ⟨-, hstruck, -⟩ := hM hm4
          rw [he, hstruck] at hmold
          exact Bool.noConfusion hmold.1
      have hmle : m ≠ loopEnd := by
        intro he
        rcases hle with hA | ⟨-, hBeq⟩
        · obtain ⟨-, -, -, -, h5⟩ := hs.hneg loopEnd v (hgen hA)
          rw [he, h5] at hmold
          exact Bool.noConfusion hmold.1
        · rw [hBeq] at he
          exact hmold.2 he
      apply hs.hopen hcc2 m hm1b hmold.1
      have hm3b : (if m = index then some (Int.ofNat v)
        else if m = loopEnd then some (Int.negSucc ls)
        else s.idx2val m) ≠ none := hm3
      rw [if_neg hmidx, if_neg hmle] at hm3b
      exact hm3b
  · intro hcc hc1 hrm
    refine ⟨loopEnd, ls, ?_⟩
    show (if loopEnd = index then some (Int.ofNat v)
      else if loopEnd = loopEnd then some (Int.negSucc ls)
      else s.idx2val loopEnd) = some (Int.negSucc ls)
    rw [if_neg hlene, if_pos rfl]
  · intro hcc h2n i h
    have hcc2 : s.cyclic = true := hcc
    have h2nb : 2 ≤ s.size := h2n
    have h2 : (if i = index then some (Int.ofNat v)
      else if i = loopEnd then some (Int.negSucc ls)
      else s.idx2val i) = some (Int.ofNat i) := h
    by_cases hi : i = index
    · rw [if_pos hi] at h2
      injection h2 with h3
      injection h3 with h4
      rw [hi] at h4
      exact hvindex h4
    · rw [if_neg hi] at h2
      by_cases hil : i = loopEnd
      · rw [if_pos hil] at h2
        injection h2 with h3
        exact Int.noConfusion h3
      · rw [if_neg hil] at h2
        exact hs.hnofix hcc2 h2nb i h2

theorem Inv_cyc_close (s : SState) (index ls : Nat) (t2 : Tree) (st2 : Store)
    (hs : Inv s) (hcyc : s.cyclic = true) (hidx : index < s.size)
    (hls : ls < s.size) (hlsuns : struckAt s.root ls = false)
    (hcase : (s.idx2val index = none ∧ ls = index) ∨
      s.idx2val index = some (Int.negSucc ls))
    (hrem1 : s.remainingSize = 1)
    (hwf2 : wf t2 (s.rootBits - 1) = true)
    (hcnt2 : t2.struckCount = s.root.struckCount + 1)
    (hpt2 : ∀ x, x < 2 ^ s.rootBits →
      struckAt t2 x = (struckAt s.root x || decide (x = ls)))
    (hstX2 : ∀ κ, st2 κ = treeStore t2 (2 ^ (s.rootBits + 1) - 1) κ) :
    Inv { s with
            root := t2, nodeStore := st2,
            remainingSize := s.remainingSize - 1,
            idx2val := fun i =>
              if i = index then some (Int.ofNat ls) else s.idx2val i,
            val2idx := fun y =>
              if y = Int.ofNat ls then some index
              else if y = Int.negSucc ls then none
              else s.val2idx y } := by
  have hlslt : ls < 2 ^ s.rootBits := lt_of_lt_of_le hls hs.hcap
  have hcount : s.root.struckCount = s.size - 1 := by
    have h1 := hs.hrem
    have h2 := hs.hrem2
    omega
  have hcount_lt : s.root.struckCount < s.size := by
    have h1 := unstruckIn_pos s.root s.size ls hls hlsuns
    have h2 := hs.hrem2
    omega
  have hM : s.idx2val index = some (Int.negSucc ls) →
      ls ≠ index ∧ struckAt s.root index = true ∧ s.idx2val ls ≠ none := by
    intro hm
    obtain ⟨-, -, hm3, hm4, hm5⟩ := hs.hneg index ls hm
    refine ⟨?_, hm5, hm4⟩
    intro he
    rw [he] at hm3
    rw [hm3] at hm5
    exact Bool.noConfusion hm5
  have hnomark_ls : ∀ e, s.idx2val e = some (Int.negSucc ls) → e = index := by
    intro e he
    rcases hcase with ⟨h0, hlsi⟩ | hm
    · obtain ⟨-, -, -, h4, -⟩ := hs.hneg e ls he
      rw [hlsi] at h4
      exact absurd h0 h4
    · exact hs.hinj e index _ he hm
  have hlsne : 2 ≤ s.size → ls ≠ index := by
    intro h2n
    rcases hcase with ⟨h0, hlsi⟩ | hm
    · exfalso
      obtain ⟨e, m, hmark⟩ := hs.hmark hcyc (by omega) (by omega)
      obtain ⟨-, hm2, hm3, hm4, -⟩ := hs.hneg e m hmark
      have hmne : m ≠ index := by
        intro he
        rw [he] at hm4
        exact hm4 h0
      have h2u : 2 ≤ unstruckIn s.root s.size := by
        apply unstruckIn_two s.root s.size m index hmne hm2 hidx hm3
        rw [← hlsi]
        exact hlsuns
      have := hs.hrem2
      omega
    · exact (hM hm).1
  constructor
  · exact hs.hsize
  · exact hs.hbits
  · exact hwf2
  · exact hstX2
  · show s.remainingSize - 1 = s.size - t2.struckCount
    rw [hcnt2, hs.hrem]
    omega
  · show t2.struckCount ≤ s.size
    rw [hcnt2]
    omega
  · intro u h1 h2
    have h1b : s.size ≤ u := h1
    have h2b : u < 2 ^ s.rootBits := h2
    show struckAt t2 u = false
    rw [hpt2 u h2b, hs.hhigh u h1b h2b]
    simp
    omega
  · intro i x h
    have h2 : (if i = index then some (Int.ofNat ls) else s.idx2val i) =
      some x := h
    show i < s.size
    by_cases hi : i = index
    · rw [hi]
      exact hidx
    · rw [if_neg hi] at h2
      exact hs.hdom i x h2
  · intro i u h
    have h2 : (if i = index then some (Int.ofNat ls) else s.idx2val i) =
      some (Int.ofNat u) := h
    by_cases hi : i = index
    · rw [if_pos hi] at h2
      injection h2 with h3
      injection h3 with h4
      subst h4
      refine ⟨hls, ?_⟩
      show struckAt t2 ls = true
      rw [hpt2 ls hlslt, hlsuns]
      simp
    · rw [if_neg hi] at h2
      obtain ⟨hu1, hu2⟩ := hs.hpos i u h2
      refine ⟨hu1, ?_⟩
      show struckAt t2 u = true
      rw [hpt2 u (lt_of_lt_of_le hu1 hs.hcap), hu2]
      simp
  · intro e q h
    have h2 : (if e = index then some (Int.ofNat ls) else s.idx2val e) =
      some (Int.negSucc q) := h
    by_cases hi : e = index
    · rw [if_pos hi] at h2
      injection h2 with h3
      exact Int.noConfusion h3
    · rw [if_neg hi] at h2
      obtain ⟨-, hq2, hq3, hq4, hq5⟩ := hs.hneg e q h2
      have hesize : e < s.size := hs.hdom e _ h2
      have hqls : q ≠ ls := by
        intro he2
        rw [he2] at h2
        exact hi (hnomark_ls e h2)
      refine ⟨hcyc, hq2, ?_, ?_, ?_⟩
      · show struckAt t2 q = false
        rw [hpt2 q (lt_of_lt_of_le hq2 hs.hcap), hq3]
        simp
        exact hqls
      · show (if q = index then some (Int.ofNat ls) else s.idx2val q) ≠ none
        by_cases h5 : q = index
        · rw [if_pos h5]
          simp
        · rw [if_neg h5]
          exact hq4
      · show struckAt t2 e = true
        rw [hpt2 e (lt_of_lt_of_le hesize hs.hcap), hq5]
        simp
  · intro i j x hi hj
    have hi2 : (if i = index then some (Int.ofNat ls) else s.idx2val i) =
      some x := hi
    have hj2 : (if j = index then some (Int.ofNat ls) else s.idx2val j) =
      some x := hj
    by_cases hii : i = index
    · rw [if_pos hii] at hi2
      by_cases hjj : j = index
      · rw [hii, hjj]
      · rw [if_neg hjj] at hj2
        rw [← hi2] at hj2
        obtain ⟨-, hstruck⟩ := hs.hpos j ls hj2
        rw [hlsuns] at hstruck
        exact Bool.noConfusion hstruck
    · rw [if_neg hii] at hi2
      by_cases hjj : j = index
      · rw [if_pos hjj] at hj2
        rw [← hj2] at hi2
        obtain ⟨-, hstruck⟩ := hs.hpos i ls hi2
        rw [hlsuns] at hstruck
        exact Bool.noConfusion hstruck
      · rw [if_neg hjj] at hj2
        exact hs.hinj i j x hi2 hj2
  · intro i x h
    have h2 : (if i = index then some (Int.ofNat ls) else s.idx2val i) =
      some x := h
    show (if x = Int.ofNat ls then some index
      else if x = Int.negSucc ls then none
      else s.val2idx x) = some i
    by_cases hi : i = index
    · rw [if_pos hi] at h2
      injection h2 with h3
      rw [← h3, if_pos rfl, hi]
    · rw [if_neg hi] at h2
      have hxls : x ≠ Int.ofNat ls := by
        intro he
        rw [he] at h2
        obtain ⟨-, hstruck⟩ := hs.hpos i ls h2
        rw [hlsuns] at hstruck
        exact Bool.noConfusion hstruck
      have hxnls : x ≠ Int.negSucc ls := by
        intro he
        rw [he] at h2
        exact hi (hnomark_ls i h2)
      rw [if_neg hxls, if_neg hxnls]
      exact hs.hfwd i x h2
  · intro u i h
    have h2 : (if Int.ofNat u = Int.ofNat ls then some index
      else if Int.ofNat u = Int.negSucc ls then none
      else s.val2idx (Int.ofNat u)) = some i := h
    by_cases hu : Int.ofNat u = Int.ofNat ls
    · rw [if_pos hu] at h2
      injection h2 with h3
      rw [← h3]
      show (if index = index then some (Int.ofNat ls) else s.idx2val index) =
        some (Int.ofNat u)
      rw [if_pos rfl, ← hu]
    · rw [if_neg hu,
        if_neg (show Int.ofNat u ≠ Int.negSucc ls by
          intro he
          exact Int.noConfusion he)] at h2
      have h3 := hs.hbak u i h2
      have hii : i ≠ index := by
        intro he
        rw [he] at h3
        rcases hcase with ⟨h0, -⟩ | hm
        · rw [h0] at h3
          exact Option.noConfusion h3
        · rw [hm] at h3
          injection h3 with h4
          exact Int.noConfusion h4
      show (if i = index then some (Int.ofNat ls) else s.idx2val i) =
        some (Int.ofNat u)
      rw [if_neg hii]
      exact h3
  · intro q i h
    have h2 : (if Int.negSucc q = Int.ofNat ls then some index
      else if Int.negSucc q = Int.negSucc ls then none
      else s.val2idx (Int.negSucc q)) = some i := h
    rw [if_neg (show Int.negSucc q ≠ Int.ofNat ls by
      intro he
      exact Int.noConfusion he)] at h2
    by_cases hq : Int.negSucc q = Int.negSucc ls
    · rw [if_pos hq] at h2
      exact Option.noConfusion h2
    · rw [if_neg hq] at h2
      have hql : q ≠ ls := by
        intro he
        exact hq (by rw [he])
      rcases hs.hbakneg q i h2 with hold | ⟨hq1, hq2⟩
      · left
        have hii : i ≠ index := by
          intro he
          rw [he] at hold
          rcases hcase with ⟨h0, -⟩ | hm
          · rw [h0] at hold
            exact Option.noConfusion hold
          · rw [hm] at hold
            injection hold with h4
            injection h4 with h5
            exact absurd h5.symm hql
        show (if i = index then some (Int.ofNat ls) else s.idx2val i) =
          some (Int.negSucc q)
        rw [if_neg hii]
        exact hold
      · right
        refine ⟨hq1, ?_⟩
        show struckAt t2 q = true
        rw [hpt2 q (lt_of_lt_of_le hq1 hs.hcap), hq2]
        simp
  · intro u hu1 hu2
    have hu1b : u < s.size := hu1
    have hu3 : struckAt t2 u = true := hu2
    rw [hpt2 u (lt_of_lt_of_le hu1b hs.hcap), Bool.or_eq_true] at hu3
    constructor
    · rcases hu3 with hold | heq
      · obtain ⟨⟨i, hi⟩, -⟩ := hs.hsur u hu1b hold
        have hii : i ≠ index := by
          intro he
          rw [he] at hi
          rcases hcase with ⟨h0, -⟩ | hm
          · rw [h0] at hi
            exact Option.noConfusion hi
          · rw [hm] at hi
            injection hi with h4
            exact Int.noConfusion h4
        refine ⟨i, ?_⟩
        show (if i = index then some (Int.ofNat ls) else s.idx2val i) =
          some (Int.ofNat u)
        rw [if_neg hii]
        exact hi
      · have heq2 : u = ls := by
          simpa using heq
        refine ⟨index, ?_⟩
        show (if index = index then some (Int.ofNat ls) else s.idx2val index) =
          some (Int.ofNat u)
        rw [if_pos rfl, heq2]
    · intro hcc
      show (if u = index then some (Int.ofNat ls) else s.idx2val u) ≠ none
      by_cases h5 : u = index
      · rw [if_pos h5]
        simp
      · rw [if_neg h5]
        rcases hu3 with hold | heq
        · exact (hs.hsur u hu1b hold).2 hcyc
        · have heq2 : u = ls := by
            simpa using heq
          rcases hcase with ⟨-, hlsi⟩ | hm
          · exfalso
            apply h5
            rw [heq2, hlsi]
          · rw [heq2]
            exact (hM hm).2.2
  · intro hcc m hm1 hm2 hm3
    have hcc2 : s.cyclic = true := hcc
    have hm1b : m < s.size := hm1
    have hm2b : struckAt t2 m = false := hm2
    rw [hpt2 m (lt_of_lt_of_le hm1b hs.hcap)] at hm2b
    have hmold : struckAt s.root m = false ∧ m ≠ ls := by
      cases hso : struckAt s.root m
      · refine ⟨rfl, ?_⟩
        intro he
        rw [hso, he] at hm2b
        simp at hm2b
      · rw [hso] at hm2b
        simp at hm2b
    have hmidx : m ≠ index := by
      intro he
      rcases hcase with ⟨-, hlsi⟩ | hm4
      · rw [hlsi] at hmold
        exact hmold.2 he
      · obtain ⟨-, hstruck, -⟩ := hM hm4
        rw [he, hstruck] at hmold
        exact Bool.noConfusion hmold.1
    show (if Int.negSucc m = Int.ofNat ls then some index
      else if Int.negSucc m = Int.negSucc ls then none
      else s.val2idx (Int.negSucc m)) ≠ none
    rw [if_neg (show Int.negSucc m ≠ Int.ofNat ls by
      intro he
      exact Int.noConfusion he)]
    rw [if_neg (show Int.negSucc m ≠ Int.negSucc ls by
      intro he
      injection he with h4
      exact hmold.2 h4)]
    apply hs.hopen hcc2 m hm1b hmold.1
    have hm3b : (if m = index then some (Int.ofNat ls) else s.idx2val m) ≠
      none := hm3
    rw [if_neg hmidx] at hm3b
    exact hm3b
  · intro hcc hc1 hrm
    exfalso
    have hrm2 : 1 ≤ s.remainingSize - 1 := hrm
    omega
  · intro hcc h2n i h
    have hcc2 : s.cyclic = true := hcc
    have h2nb : 2 ≤ s.size := h2n
    have h2 : (if i = index then some (Int.ofNat ls) else s.idx2val i) =
      some (Int.ofNat i) := h
    by_cases hi : i = index
    · rw [if_pos hi] at h2
      injection h2 with h3
      injection h3 with h4
      rw [hi] at h4
      exact hlsne h2nb h4
    · rw [if_neg hi] at h2
      exact hs.hnofix hcc2 h2nb i h2

theorem cyclicTail_spec_draw (s : SState) (iv : Nat → Option Int)
    (vi : Int → Option Nat) (index ls k v : Nat)
    (hs : Inv s) (hcyc : s.cyclic = true) (hidx : index < s.size)
    (hls : ls < s.size) (hlsuns : struckAt s.root ls = false)
    (hcase : (iv = s.idx2val ∧ vi = s.val2idx ∧
        s.idx2val index = none ∧ ls = index) ∨
      (iv = (ivDelete s.idx2val s.val2idx index (Int.negSucc ls)).1 ∧
        vi = (ivDelete s.idx2val s.val2idx index (Int.negSucc ls)).2 ∧
        s.idx2val index = some (Int.negSucc ls)))
    (hcase2 : (s.idx2val index = none ∧ ls = index) ∨
      s.idx2val index = some (Int.negSucc ls))
    (hM : s.idx2val index = some (Int.negSucc ls) →
      ls ≠ index ∧ struckAt s.root index = true ∧ s.idx2val ls ≠ none)
    (h2rem : 2 ≤ s.remainingSize)
    (hcne : ((s.remainingSize - 1) != 0) = true)
    (hn1b : (nextValue (s.rootBits + 1) (reserveTree s.root
        (2 ^ (s.rootBits + 1) - 1) ls s.nodeStore).1
        (2 ^ (s.rootBits + 1) - 1) 0 k
        (reserveTree s.root (2 ^ (s.rootBits + 1) - 1) ls
          s.nodeStore).2).1 = v)
    (hvuns : struckAt s.root v = false) (hvne : v ≠ ls)
    (hvsize : v < s.size) (hvindex : v ≠ index)
    (hu_wf : wf (unreserveTree (nextValue (s.rootBits + 1)
        (reserveTree s.root (2 ^ (s.rootBits + 1) - 1) ls s.nodeStore).1
        (2 ^ (s.rootBits + 1) - 1) 0 k
        (reserveTree s.root (2 ^ (s.rootBits + 1) - 1) ls
          s.nodeStore).2).2.1 (2 ^ (s.rootBits + 1) - 1) ls
        (nextValue (s.rootBits + 1) (reserveTree s.root
          (2 ^ (s.rootBits + 1) - 1) ls s.nodeStore).1
          (2 ^ (s.rootBits + 1) - 1) 0 k
          (reserveTree s.root (2 ^ (s.rootBits + 1) - 1) ls
            s.nodeStore).2).2.2).1 (s.rootBits - 1) = true)
    (hu_cnt2 : ((unreserveTree (nextValue (s.rootBits + 1)
        (reserveTree s.root (2 ^ (s.rootBits + 1) - 1) ls s.nodeStore).1
        (2 ^ (s.rootBits + 1) - 1) 0 k
        (reserveTree s.root (2 ^ (s.rootBits + 1) - 1) ls
          s.nodeStore).2).2.1 (2 ^ (s.rootBits + 1) - 1) ls
        (nextValue (s.rootBits + 1) (reserveTree s.root
          (2 ^ (s.rootBits + 1) - 1) ls s.nodeStore).1
          (2 ^ (s.rootBits + 1) - 1) 0 k
          (reserveTree s.root (2 ^ (s.rootBits + 1) - 1) ls
            s.nodeStore).2).2.2).1).struckCount =
        s.root.struckCount + 1)
    (hu_pt2 : ∀ x, x < 2 ^ s.rootBits →
      struckAt (unreserveTree (nextValue (s.rootBits + 1)
        (reserveTree s.root (2 ^ (s.rootBits + 1) - 1) ls s.nodeStore).1
        (2 ^ (s.rootBits + 1) - 1) 0 k
        (reserveTree s.root (2 ^ (s.rootBits + 1) - 1) ls
          s.nodeStore).2).2.1 (2 ^ (s.rootBits + 1) - 1) ls
        (nextValue (s.rootBits + 1) (reserveTree s.root
          (2 ^ (s.rootBits + 1) - 1) ls s.nodeStore).1
          (2 ^ (s.rootBits + 1) - 1) 0 k
          (reserveTree s.root (2 ^ (s.rootBits + 1) - 1) ls
            s.nodeStore).2).2.2).1 x =
        (struckAt s.root x || decide (x = v)))
    (hstX3g : ∀ κ,
      (unreserveTree (nextValue (s.rootBits + 1) (reserveTree s.root
        (2 ^ (s.rootBits + 1) - 1) ls s.nodeStore).1
        (2 ^ (s.rootBits + 1) - 1) 0 k
        (reserveTree s.root (2 ^ (s.rootBits + 1) - 1) ls
          s.nodeStore).2).2.1 (2 ^ (s.rootBits + 1) - 1) ls
        (nextValue (s.rootBits + 1) (reserveTree s.root
          (2 ^ (s.rootBits + 1) - 1) ls s.nodeStore).1
          (2 ^ (s.rootBits + 1) - 1) 0 k
          (reserveTree s.root (2 ^ (s.rootBits + 1) - 1) ls
            s.nodeStore).2).2.2).2 κ =
      treeStore (unreserveTree (nextValue (s.rootBits + 1)
        (reserveTree s.root (2 ^ (s.rootBits + 1) - 1) ls s.nodeStore).1
        (2 ^ (s.rootBits + 1) - 1) 0 k
        (reserveTree s.root (2 ^ (s.rootBits + 1) - 1) ls
          s.nodeStore).2).2.1 (2 ^ (s.rootBits + 1) - 1) ls
        (nextValue (s.rootBits + 1) (reserveTree s.root
          (2 ^ (s.rootBits + 1) - 1) ls s.nodeStore).1
          (2 ^ (s.rootBits + 1) - 1) 0 k
          (reserveTree s.root (2 ^ (s.rootBits + 1) - 1) ls
            s.nodeStore).2).2.2).1 (2 ^ (s.rootBits + 1) - 1) κ) :
    ∃ v2 : Nat,
      (cyclicTail s iv vi index ls (Int.negSucc ls) k).2 = Int.ofNat v2 ∧
      v2 < s.size ∧
      struckAt s.root v2 = false ∧
      (2 ≤ s.size → v2 ≠ index) ∧
      Inv (cyclicTail s iv vi index ls (Int.negSucc ls) k).1 ∧
      (cyclicTail s iv vi index ls (Int.negSucc ls) k).1.cyclic = s.cyclic ∧
      (cyclicTail s iv vi index ls (Int.negSucc ls) k).1.size = s.size ∧
      (cyclicTail s iv vi index ls (Int.negSucc ls) k).1.remainingSize =
        s.remainingSize - 1 ∧
      (cyclicTail s iv vi index ls (Int.negSucc ls) k).1.idx2val index =
        some (Int.ofNat v2) ∧
      (∀ i u, s.idx2val i = some (Int.ofNat u) →
        (cyclicTail s iv vi index ls (Int.negSucc ls) k).1.idx2val i =
          some (Int.ofNat u)) ∧
      ∃ loopEnd : Nat,
        ((s.remainingSize = 1 ∧ v2 = ls ∧
          (∀ i, (cyclicTail s iv vi index ls (Int.negSucc ls) k).1.idx2val i =
            if i = index then some (Int.ofNat ls) else s.idx2val i) ∧
          (∀ y, (cyclicTail s iv vi index ls (Int.negSucc ls) k).1.val2idx y =
            if y = Int.ofNat ls then some index
            else if y = Int.negSucc ls then none
            else s.val2idx y) ∧
          (∀ x, x < 2 ^ s.rootBits →
            struckAt (cyclicTail s iv vi index ls (Int.negSucc ls) k).1.root
              x = (struckAt s.root x || decide (x = ls)))) ∨
        (2 ≤ s.remainingSize ∧
          (s.val2idx (Int.negSucc v2) = some loopEnd ∨
            (s.val2idx (Int.negSucc v2) = none ∧ loopEnd = v2)) ∧
          (∀ i, (cyclicTail s iv vi index ls (Int.negSucc ls) k).1.idx2val i =
            if i = index then some (Int.ofNat v2)
            else if i = loopEnd then some (Int.negSucc ls)
            else s.idx2val i) ∧
          (∀ y, (cyclicTail s iv vi index ls (Int.negSucc ls) k).1.val2idx y =
            if y = Int.ofNat v2 then some index
            else if y = Int.negSucc ls then some loopEnd
            else s.val2idx y) ∧
          (∀ x, x < 2 ^ s.rootBits →
            struckAt (cyclicTail s iv vi index ls (Int.negSucc ls) k).1.root
              x = (struckAt s.root x || decide (x = v2))))) := by
  have hct : cyclicTail s iv vi index ls (Int.negSucc ls) k =
      ({ s with
           root := (unreserveTree (nextValue (s.rootBits + 1)
             (reserveTree s.root (2 ^ (s.rootBits + 1) - 1) ls
               s.nodeStore).1 (2 ^ (s.rootBits + 1) - 1) 0 k
             (reserveTree s.root (2 ^ (s.rootBits + 1) - 1) ls
               s.nodeStore).2).2.1 (2 ^ (s.rootBits + 1) - 1) ls
             (nextValue (s.rootBits + 1) (reserveTree s.root
               (2 ^ (s.rootBits + 1) - 1) ls s.nodeStore).1
               (2 ^ (s.rootBits + 1) - 1) 0 k
               (reserveTree s.root (2 ^ (s.rootBits + 1) - 1) ls
                 s.nodeStore).2).2.2).1,
           nodeStore := (unreserveTree (nextValue (s.rootBits + 1)
             (reserveTree s.root (2 ^ (s.rootBits + 1) - 1) ls
               s.nodeStore).1 (2 ^ (s.rootBits + 1) - 1) 0 k
             (reserveTree s.root (2 ^ (s.rootBits + 1) - 1) ls
               s.nodeStore).2).2.1 (2 ^ (s.rootBits + 1) - 1) ls
             (nextValue (s.rootBits + 1) (reserveTree s.root
               (2 ^ (s.rootBits + 1) - 1) ls s.nodeStore).1
               (2 ^ (s.rootBits + 1) - 1) 0 k
               (reserveTree s.root (2 ^ (s.rootBits + 1) - 1) ls
                 s.nodeStore).2).2.2).2,
           remainingSize := s.remainingSize - 1,
           idx2val := (ivSave (ivSave iv vi
             (match vi (intNot (Int.ofNat (nextValue (s.rootBits + 1)
               (reserveTree s.root (2 ^ (s.rootBits + 1) - 1) ls
                 s.nodeStore).1 (2 ^ (s.rootBits + 1) - 1) 0 k
               (reserveTree s.root (2 ^ (s.rootBits + 1) - 1) ls
                 s.nodeStore).2).1)) with
               | some le => le
               | none => (nextValue (s.rootBits + 1) (reserveTree s.root
                   (2 ^ (s.rootBits + 1) - 1) ls s.nodeStore).1
                   (2 ^ (s.rootBits + 1) - 1) 0 k
                   (reserveTree s.root (2 ^ (s.rootBits + 1) - 1) ls
                     s.nodeStore).2).1)
             (Int.negSucc ls)).1 (ivSave iv vi
             (match vi (intNot (Int.ofNat (nextValue (s.rootBits + 1)
               (reserveTree s.root (2 ^ (s.rootBits + 1) - 1) ls
                 s.nodeStore).1 (2 ^ (s.rootBits + 1) - 1) 0 k
               (reserveTree s.root (2 ^ (s.rootBits + 1) - 1) ls
                 s.nodeStore).2).1)) with
               | some le => le
               | none => (nextValue (s.rootBits + 1) (reserveTree s.root
                   (2 ^ (s.rootBits + 1) - 1) ls s.nodeStore).1
                   (2 ^ (s.rootBits + 1) - 1) 0 k
                   (reserveTree s.root (2 ^ (s.rootBits + 1) - 1) ls
                     s.nodeStore).2).1)
             (Int.negSucc ls)).2 index
             (Int.ofNat (nextValue (s.rootBits + 1) (reserveTree s.root
               (2 ^ (s.rootBits + 1) - 1) ls s.nodeStore).1
               (2 ^ (s.rootBits + 1) - 1) 0 k
               (reserveTree s.root (2 ^ (s.rootBits + 1) - 1) ls
                 s.nodeStore).2).1)).1,
           val2idx := (ivSave (ivSave iv vi
             (match vi (intNot (Int.ofNat (nextValue (s.rootBits + 1)
               (reserveTree s.root (2 ^ (s.rootBits + 1) - 1) ls
                 s.nodeStore).1 (2 ^ (s.rootBits + 1) - 1) 0 k
               (reserveTree s.root (2 ^ (s.rootBits + 1) - 1) ls
                 s.nodeStore).2).1)) with
               | some le => le
               | none => (nextValue (s.rootBits + 1) (reserveTree s.root
                   (2 ^ (s.rootBits + 1) - 1) ls s.nodeStore).1
                   (2 ^ (s.rootBits + 1) - 1) 0 k
                   (reserveTree s.root (2 ^ (s.rootBits + 1) - 1) ls
                     s.nodeStore).2).1)
             (Int.negSucc ls)).1 (ivSave iv vi
             (match vi (intNot (Int.ofNat (nextValue (s.rootBits + 1)
               (reserveTree s.root (2 ^ (s.rootBits + 1) - 1) ls
                 s.nodeStore).1 (2 ^ (s.rootBits + 1) - 1) 0 k
               (reserveTree s.root (2 ^ (s.rootBits + 1) - 1) ls
                 s.nodeStore).2).1)) with
               | some le => le
               | none => (nextValue (s.rootBits + 1) (reserveTree s.root
                   (2 ^ (s.rootBits + 1) - 1) ls s.nodeStore).1
                   (2 ^ (s.rootBits + 1) - 1) 0 k
                   (reserveTree s.root (2 ^ (s.rootBits + 1) - 1) ls
                     s.nodeStore).2).1)
             (Int.negSucc ls)).2 index
             (Int.ofNat (nextValue (s.rootBits + 1) (reserveTree s.root
               (2 ^ (s.rootBits + 1) - 1) ls s.nodeStore).1
               (2 ^ (s.rootBits + 1) - 1) 0 k
               (reserveTree s.root (2 ^ (s.rootBits + 1) - 1) ls
                 s.nodeStore).2).1)).2 },
        Int.ofNat (nextValue (s.rootBits + 1) (reserveTree s.root
          (2 ^ (s.rootBits + 1) - 1) ls s.nodeStore).1
          (2 ^ (s.rootBits + 1) - 1) 0 k
          (reserveTree s.root (2 ^ (s.rootBits + 1) - 1) ls
            s.nodeStore).2).1) := by
    simp only [cyclicTail]
    rw [if_pos hcne]
  have hscrut : vi (intNot (Int.ofNat (nextValue (s.rootBits + 1)
      (reserveTree s.root (2 ^ (s.rootBits + 1) - 1) ls s.nodeStore).1
      (2 ^ (s.rootBits + 1) - 1) 0 k
      (reserveTree s.root (2 ^ (s.rootBits + 1) - 1) ls
        s.nodeStore).2).1)) = s.val2idx (Int.negSucc v) := by
    rw [hn1b, intNot_ofNat]
    rcases hcase with ⟨-, hvi, -, -⟩ | ⟨-, hvi, -⟩
    · rw [hvi]
    · rw [hvi]
      show (if Int.negSucc v = Int.negSucc ls then none
        else s.val2idx (Int.negSucc v)) = _
      rw [if_neg (by
        intro he
        injection he with h4
        exact hvne h4)]
  obtain ⟨loopEnd, hle, hmatch⟩ : ∃ le2,
      (s.val2idx (Int.negSucc v) = some le2 ∨
        (s.val2idx (Int.negSucc v) = none ∧ le2 = v)) ∧
      (match vi (intNot (Int.ofNat (nextValue (s.rootBits + 1)
          (reserveTree s.root (2 ^ (s.rootBits + 1) - 1) ls s.nodeStore).1
          (2 ^ (s.rootBits + 1) - 1) 0 k
          (reserveTree s.root (2 ^ (s.rootBits + 1) - 1) ls
            s.nodeStore).2).1)) with
        | some le => le
        | none => (nextValue (s.rootBits + 1) (reserveTree s.root
            (2 ^ (s.rootBits + 1) - 1) ls s.nodeStore).1
            (2 ^ (s.rootBits + 1) - 1) 0 k
            (reserveTree s.root (2 ^ (s.rootBits + 1) - 1) ls
              s.nodeStore).2).1) = le2 := by
    cases hLE : s.val2idx (Int.negSucc v) with
    | some le => exact ⟨le, Or.inl rfl, by rw [hscrut, hLE]⟩
    | none => exact ⟨v, Or.inr ⟨rfl, rfl⟩, by rw [hscrut, hLE, hn1b]⟩
  have hgen : s.val2idx (Int.negSucc v) = some loopEnd →
      s.idx2val loopEnd = some (Int.negSucc v) := by
    intro h
    rcases hs.hbakneg v loopEnd h with hg | ⟨-, hstale⟩
    · exact hg
    · rw [hvuns] at hstale
      exact Bool.noConfusion hstale
  have hmap1 : (ivSave (ivSave iv vi
      (match vi (intNot (Int.ofNat (nextValue (s.rootBits + 1)
        (reserveTree s.root (2 ^ (s.rootBits + 1) - 1) ls
          s.nodeStore).1 (2 ^ (s.rootBits + 1) - 1) 0 k
        (reserveTree s.root (2 ^ (s.rootBits + 1) - 1) ls
          s.nodeStore).2).1)) with
        | some le => le
        | none => (nextValue (s.rootBits + 1) (reserveTree s.root
            (2 ^ (s.rootBits + 1) - 1) ls s.nodeStore).1
            (2 ^ (s.rootBits + 1) - 1) 0 k
            (reserveTree s.root (2 ^ (s.rootBits + 1) - 1) ls
              s.nodeStore).2).1)
      (Int.negSucc ls)).1 (ivSave iv vi
      (match vi (intNot (Int.ofNat (nextValue (s.rootBits + 1)
        (reserveTree s.root (2 ^ (s.rootBits + 1) - 1) ls
          s.nodeStore).1 (2 ^ (s.rootBits + 1) - 1) 0 k
        (reserveTree s.root (2 ^ (s.rootBits + 1) - 1) ls
          s.nodeStore).2).1)) with
        | some le => le
        | none => (nextValue (s.rootBits + 1) (reserveTree s.root
            (2 ^ (s.rootBits + 1) - 1) ls s.nodeStore).1
            (2 ^ (s.rootBits + 1) - 1) 0 k
            (reserveTree s.root (2 ^ (s.rootBits + 1) - 1) ls
              s.nodeStore).2).1)
      (Int.negSucc ls)).2 index
      (Int.ofNat (nextValue (s.rootBits + 1) (reserveTree s.root
        (2 ^ (s.rootBits + 1) - 1) ls s.nodeStore).1
        (2 ^ (s.rootBits + 1) - 1) 0 k
        (reserveTree s.root (2 ^ (s.rootBits + 1) - 1) ls
          s.nodeStore).2).1)).1 =
      fun i => if i = index then some (Int.ofNat v)
        else if i = loopEnd then some (Int.negSucc ls)
        else s.idx2val i := by
    funext i
    rw [hmatch, hn1b]
    show (if i = index then some (Int.ofNat v)
      else if i = loopEnd then some (Int.negSucc ls) else iv i) = _
    by_cases hi : i = index
    · rw [if_pos hi, if_pos hi]
    · rw [if_neg hi, if_neg hi]
      by_cases hi2 : i = loopEnd
      · rw [if_pos hi2, if_pos hi2]
      · rw [if_neg hi2, if_neg hi2]
        rcases hcase with ⟨hiv, -, -, -⟩ | ⟨hiv, -, -⟩
        · rw [hiv]
        · rw [hiv]
          show (if i = index then none else s.idx2val i) = _
          rw [if_neg hi]
  have hmap2 : (ivSave (ivSave iv vi
      (match vi (intNot (Int.ofNat (nextValue (s.rootBits + 1)
        (reserveTree s.root (2 ^ (s.rootBits + 1) - 1) ls
          s.nodeStore).1 (2 ^ (s.rootBits + 1) - 1) 0 k
        (reserveTree s.root (2 ^ (s.rootBits + 1) - 1) ls
          s.nodeStore).2).1)) with
        | some le => le
        | none => (nextValue (s.rootBits + 1) (reserveTree s.root
            (2 ^ (s.rootBits + 1) - 1) ls s.nodeStore).1
            (2 ^ (s.rootBits + 1) - 1) 0 k
            (reserveTree s.root (2 ^ (s.rootBits + 1) - 1) ls
              s.nodeStore).2).1)
      (Int.negSucc ls)).1 (ivSave iv vi
      (match vi (intNot (Int.ofNat (nextValue (s.rootBits + 1)
        (reserveTree s.root (2 ^ (s.rootBits + 1) - 1) ls
          s.nodeStore).1 (2 ^ (s.rootBits + 1) - 1) 0 k
        (reserveTree s.root (2 ^ (s.rootBits + 1) - 1) ls
          s.nodeStore).2).1)) with
        | some le => le
        | none => (nextValue (s.rootBits + 1) (reserveTree s.root
            (2 ^ (s.rootBits + 1) - 1) ls s.nodeStore).1
            (2 ^ (s.rootBits + 1) - 1) 0 k
            (reserveTree s.root (2 ^ (s.rootBits + 1) - 1) ls
              s.nodeStore).2).1)
      (Int.negSucc ls)).2 index
      (Int.ofNat (nextValue (s.rootBits + 1) (reserveTree s.root
        (2 ^ (s.rootBits + 1) - 1) ls s.nodeStore).1
        (2 ^ (s.rootBits + 1) - 1) 0 k
        (reserveTree s.root (2 ^ (s.rootBits + 1) - 1) ls
          s.nodeStore).2).1)).2 =
      fun y => if y = Int.ofNat v then some index
        else if y = Int.negSucc ls then some loopEnd
        else s.val2idx y := by
    funext y
    rw [hmatch, hn1b]
    show (if y = Int.ofNat v then some index
      else if y = Int.negSucc ls then some loopEnd else vi y) = _
    by_cases hy : y = Int.ofNat v
    · rw [if_pos hy, if_pos hy]
    · rw [if_neg hy, if_neg hy]
      by_cases hy2 : y = Int.negSucc ls
      · rw [if_pos hy2, if_pos hy2]
      · rw [if_neg hy2, if_neg hy2]
        rcases hcase with ⟨-, hvi, -, -⟩ | ⟨-, hvi, -⟩
        · rw [hvi]
        · rw [hvi]
          show (if y = Int.negSucc ls then none else s.val2idx y) = _
          rw [if_neg hy2]
  refine ⟨v, ?_, hvsize, hvuns, fun _ => hvindex, ?_, by rw [hct],
    by rw [hct], by rw [hct], ?_, ?_, loopEnd,
    Or.inr ⟨h2rem, hle, ?_, ?_, ?_⟩⟩
  · rw [hct]
    show Int.ofNat (nextValue (s.rootBits + 1) (reserveTree s.root
      (2 ^ (s.rootBits + 1) - 1) ls s.nodeStore).1
      (2 ^ (s.rootBits + 1) - 1) 0 k
      (reserveTree s.root (2 ^ (s.rootBits + 1) - 1) ls
        s.nodeStore).2).1 = Int.ofNat v
    rw [hn1b]
  · rw [hct, hmap1, hmap2]
    exact Inv_cyc_draw s index ls v loopEnd _ _ hs hcyc hidx hls hlsuns
      hcase2 hvsize hvuns hvne hle hu_wf hu_cnt2 hu_pt2 hstX3g
  · rw [hct, hmap1]
    show (if index = index then some (Int.ofNat v)
      else if index = loopEnd then some (Int.negSucc ls)
      else s.idx2val index) = some (Int.ofNat v)
    rw [if_pos rfl]
  · intro i u h
    rw [hct, hmap1]
    have hi : i ≠ index := by
      intro he
      rw [he] at h
      rcases hcase2 with ⟨h0, -⟩ | hm
      · rw [h0] at h
        exact Option.noConfusion h
      · rw [hm] at h
        injection h with h4
        exact Int.noConfusion h4
    have hi2 : i ≠ loopEnd := by
      intro he
      rw [he] at h
      rcases hle with hA | ⟨hB, hBeq⟩
      · rw [hgen hA] at h
        injection h with h4
        exact Int.noConfusion h4
      · rw [hBeq] at h
        exact hs.hopen hcyc v hvsize hvuns (by rw [h]; simp) hB
    show (if i = index then some (Int.ofNat v)
      else if i = loopEnd then some (Int.negSucc ls)
      else s.idx2val i) = some (Int.ofNat u)
    rw [if_neg hi, if_neg hi2]
    exact h
  · intro i
    rw [hct, hmap1]
  · intro y
    rw [hct, hmap2]
  · intro x hx
    rw [hct]
    exact hu_pt2 x hx


theorem cyclicTail_spec (s : SState) (iv : Nat → Option Int)
    (vi : Int → Option Nat) (index ls k : Nat)
    (hs : Inv s) (hcyc : s.cyclic = true) (hidx : index < s.size)
    (hls : ls < s.size) (hlsuns : struckAt s.root ls = false)
    (hcase : (iv = s.idx2val ∧ vi = s.val2idx ∧
        s.idx2val index = none ∧ ls = index) ∨
      (iv = (ivDelete s.idx2val s.val2idx index (Int.negSucc ls)).1 ∧
        vi = (ivDelete s.idx2val s.val2idx index (Int.negSucc ls)).2 ∧
        s.idx2val index = some (Int.negSucc ls)))
    (hk : k < s.remainingSize - 1 ∨ s.remainingSize = 1) :
    ∃ v : Nat,
      (cyclicTail s iv vi index ls (Int.negSucc ls) k).2 = Int.ofNat v ∧
      v < s.size ∧
      struckAt s.root v = false ∧
      (2 ≤ s.size → v ≠ index) ∧
      Inv (cyclicTail s iv vi index ls (Int.negSucc ls) k).1 ∧
      (cyclicTail s iv vi index ls (Int.negSucc ls) k).1.cyclic = s.cyclic ∧
      (cyclicTail s iv vi index ls (Int.negSucc ls) k).1.size = s.size ∧
      (cyclicTail s iv vi index ls (Int.negSucc ls) k).1.remainingSize =
        s.remainingSize - 1 ∧
      (cyclicTail s iv vi index ls (Int.negSucc ls) k).1.idx2val index =
        some (Int.ofNat v) ∧
      (∀ i u, s.idx2val i = some (Int.ofNat u) →
        (cyclicTail s iv vi index ls (Int.negSucc ls) k).1.idx2val i =
          some (Int.ofNat u)) ∧
      ∃ loopEnd : Nat,
        ((s.remainingSize = 1 ∧ v = ls ∧
          (∀ i, (cyclicTail s iv vi index ls (Int.negSucc ls) k).1.idx2val i =
            if i = index then some (Int.ofNat ls) else s.idx2val i) ∧
          (∀ y, (cyclicTail s iv vi index ls (Int.negSucc ls) k).1.val2idx y =
            if y = Int.ofNat ls then some index
            else if y = Int.negSucc ls then none
            else s.val2idx y) ∧
          (∀ x, x < 2 ^ s.rootBits →
            struckAt (cyclicTail s iv vi index ls (Int.negSucc ls) k).1.root
              x = (struckAt s.root x || decide (x = ls)))) ∨
        (2 ≤ s.remainingSize ∧
          (s.val2idx (Int.negSucc v) = some loopEnd ∨
            (s.val2idx (Int.negSucc v) = none ∧ loopEnd = v)) ∧
          (∀ i, (cyclicTail s iv vi index ls (Int.negSucc ls) k).1.idx2val i =
            if i = index then some (Int.ofNat v)
            else if i = loopEnd then some (Int.negSucc ls)
            else s.idx2val i) ∧
          (∀ y, (cyclicTail s iv vi index ls (Int.negSucc ls) k).1.val2idx y =
            if y = Int.ofNat v then some index
            else if y = Int.negSucc ls then some loopEnd
            else s.val2idx y) ∧
          (∀ x, x < 2 ^ s.rootBits →
            struckAt (cyclicTail s iv vi index ls (Int.negSucc ls) k).1.root
              x = (struckAt s.root x || decide (x = v))))) := by
  have hb6 := hs.hb6
  have hbb1 : s.rootBits - 1 + 1 = s.rootBits := by omega
  have hbb2 : s.rootBits - 1 + 2 = s.rootBits + 1 := by omega
  have hlslt : ls < 2 ^ s.rootBits := lt_of_lt_of_le hls hs.hcap
  have hkey : 2 ^ (s.rootBits - 1 + 2) ≤ (2 ^ (s.rootBits + 1) - 1) + 128 := by
    rw [hbb2]
    omega
  have hcount_lt : s.root.struckCount < s.size := by
    have h1 := unstruckIn_pos s.root s.size ls hls hlsuns
    have h2 := hs.hrem2
    omega
  have hrem1le : 1 ≤ s.remainingSize := by
    have := hs.hrem
    omega
  have hlsarg : struckAt s.root (ls % 2 ^ (s.rootBits - 1 + 1)) = false := by
    rw [hbb1, Nat.mod_eq_of_lt hlslt]
    exact hlsuns
  obtain ⟨hr_wf, hr_cnt, hr_pt, hr_sok, hr_fr⟩ :=
    reserveTree_spec s.root (s.rootBits - 1) (2 ^ (s.rootBits + 1) - 1) ls
      s.nodeStore hs.hwf hlsarg hs.hstore hkey
  have hr_exact := reserveTree_exact s.root (s.rootBits - 1)
    (2 ^ (s.rootBits + 1) - 1) ls s.nodeStore hs.hwf hlsarg hkey
    (fun κ h1 h2 => hs.hstoreX κ)
  rw [hbb1] at hr_pt
  rw [hbb2] at hr_fr
  rw [Nat.mod_eq_of_lt hlslt] at hr_pt
  have hstX1 : ∀ κ,
      (reserveTree s.root (2 ^ (s.rootBits + 1) - 1) ls s.nodeStore).2 κ =
      treeStore (reserveTree s.root (2 ^ (s.rootBits + 1) - 1) ls
        s.nodeStore).1 (2 ^ (s.rootBits + 1) - 1) κ := by
    intro κ
    by_cases hgt : 2 ^ (s.rootBits + 1) - 1 < κ
    · rw [treeStore_gt _ _ _ hgt, hr_fr κ (Or.inl hgt), hs.hstoreX κ]
      exact treeStore_gt _ _ _ hgt
    · by_cases hlow : (2 ^ (s.rootBits + 1) - 1) + 128 ≤
          κ + 2 ^ (s.rootBits - 1 + 2)
      · exact hr_exact κ hlow (by omega)
      · push_neg at hlow
        rw [hr_fr κ (Or.inr (by rw [hbb2] at hlow; omega)), hs.hstoreX κ]
        rw [treeStore_lt_none s.root (s.rootBits - 1) _ κ hs.hwf hlow]
        rw [treeStore_lt_none _ (s.rootBits - 1) _ κ hr_wf hlow]
  have hr_high : ∀ x, s.size ≤ x → x < 2 ^ s.rootBits →
      struckAt (reserveTree s.root (2 ^ (s.rootBits + 1) - 1) ls
        s.nodeStore).1 x = false := by
    intro x h1 h2
    rw [hr_pt x h2, hs.hhigh x h1 h2]
    simp
    omega
  have hM : s.idx2val index = some (Int.negSucc ls) →
      ls ≠ index ∧ struckAt s.root index = true ∧ s.idx2val ls ≠ none := by
    intro hm
    obtain ⟨-, -, hm3, hm4, hm5⟩ := hs.hneg index ls hm
    refine ⟨?_, hm5, hm4⟩
    intro he
    rw [he] at hm3
    rw [hm3] at hm5
    exact Bool.noConfusion hm5
  have hcase2 : (s.idx2val index = none ∧ ls = index) ∨
      s.idx2val index = some (Int.negSucc ls) := by
    rcases hcase with ⟨-, -, h3, h4⟩ | ⟨-, -, h3⟩
    · exact Or.inl ⟨h3, h4⟩
    · exact Or.inr h3
  have hvinone : s.val2idx (Int.negSucc ls) = none → True := fun _ => trivial
  by_cases hrem1 : s.remainingSize = 1
  · -- the reserve exhausts the remaining size: close the loop
    have hcne : ¬(((s.remainingSize - 1) != 0) = true) := by
      rw [hrem1]
      simp
    have hct : cyclicTail s iv vi index ls (Int.negSucc ls) k =
        ({ s with
             root := (reserveTree s.root (2 ^ (s.rootBits + 1) - 1) ls
               s.nodeStore).1,
             nodeStore := (reserveTree s.root (2 ^ (s.rootBits + 1) - 1) ls
               s.nodeStore).2,
             remainingSize := s.remainingSize - 1,
             idx2val := (ivSave iv vi index (Int.ofNat ls)).1,
             val2idx := (ivSave iv vi index (Int.ofNat ls)).2 },
          Int.ofNat ls) := by
      simp only [cyclicTail]
      rw [if_neg hcne]
    have hvinone2 : s.val2idx (Int.negSucc ls) = none ∨
        s.idx2val index = some (Int.negSucc ls) := by
      rcases hcase2 with ⟨h0, hlsi⟩ | hm
      · left
        cases hv : s.val2idx (Int.negSucc ls) with
        | none => rfl
        | some i =>
          exfalso
          rcases hs.hbakneg ls i hv with hold | ⟨-, hstale⟩
          · obtain ⟨-, -, -, h4, -⟩ := hs.hneg i ls hold
            rw [hlsi] at h4
            exact h4 h0
          · rw [hlsuns] at hstale
            exact Bool.noConfusion hstale
      · exact Or.inr hm
    have hmap1 : (ivSave iv vi index (Int.ofNat ls)).1 =
        fun i => if i = index then some (Int.ofNat ls) else s.idx2val i := by
      funext i
      show (if i = index then some (Int.ofNat ls) else iv i) = _
      by_cases hi : i = index
      · rw [if_pos hi, if_pos hi]
      · rw [if_neg hi, if_neg hi]
        rcases hcase with ⟨hiv, -, -, -⟩ | ⟨hiv, -, -⟩
        · rw [hiv]
        · rw [hiv]
          show (if i = index then none else s.idx2val i) = _
          rw [if_neg hi]
    have hmap2 : (ivSave iv vi index (Int.ofNat ls)).2 =
        fun y => if y = Int.ofNat ls then some index
          else if y = Int.negSucc ls then none
          else s.val2idx y := by
      funext y
      show (if y = Int.ofNat ls then some index else vi y) = _
      by_cases hy : y = Int.ofNat ls
      · rw [if_pos hy, if_pos hy]
      · rw [if_neg hy, if_neg hy]
        by_cases hy2 : y = Int.negSucc ls
        · rw [if_pos hy2]
          rcases hcase with ⟨-, hvi, h0, hlsi⟩ | ⟨-, hvi, -⟩
          · rw [hvi, hy2]
            rcases hvinone2 with hn | hm
            · exact hn
            · rw [hm] at h0
              exact Option.noConfusion h0
          · rw [hvi, hy2]
            show (if Int.negSucc ls = Int.negSucc ls then none else _) = none
            rw [if_pos rfl]
        · rw [if_neg hy2]
          rcases hcase with ⟨-, hvi, -, -⟩ | ⟨-, hvi, -⟩
          · rw [hvi]
          · rw [hvi]
            show (if y = Int.negSucc ls then none else s.val2idx y) = _
            rw [if_neg hy2]
    have hlsne : 2 ≤ s.size → ls ≠ index := by
      intro h2n
      rcases hcase2 with ⟨h0, hlsi⟩ | hm
      · exfalso
        obtain ⟨e, m, hmark⟩ := hs.hmark hcyc (by
          have := hs.hrem
          omega) (by omega)
        obtain ⟨-, hm2, hm3, hm4, -⟩ := hs.hneg e m hmark
        have hmne : m ≠ index := by
          intro he
          rw [he] at hm4
          exact hm4 h0
        have h2u : 2 ≤ unstruckIn s.root s.size := by
          apply unstruckIn_two s.root s.size m index hmne hm2 hidx hm3
          rw [← hlsi]
          exact hlsuns
        have := hs.hrem2
        have := hs.hrem
        omega
      · exact (hM hm).1
    refine ⟨ls, by rw [hct], hls, hlsuns, hlsne, ?_, by rw [hct],
      by rw [hct], by rw [hct], ?_, ?_, 0, Or.inl ⟨hrem1, rfl, ?_, ?_, ?_⟩⟩
    · rw [hct, hmap1, hmap2]
      exact Inv_cyc_close s index ls _ _ hs hcyc hidx hls hlsuns hcase2
        hrem1 hr_wf hr_cnt hr_pt hstX1
    · rw [hct, hmap1]
      show (if index = index then some (Int.ofNat ls) else s.idx2val index) =
        some (Int.ofNat ls)
      rw [if_pos rfl]
    · intro i u h
      rw [hct, hmap1]
      have hi : i ≠ index := by
        intro he
        rw [he] at h
        rcases hcase2 with ⟨h0, -⟩ | hm
        · rw [h0] at h
          exact Option.noConfusion h
        · rw [hm] at h
          injection h with h4
          exact Int.noConfusion h4
      show (if i = index then some (Int.ofNat ls) else s.idx2val i) =
        some (Int.ofNat u)
      rw [if_neg hi]
      exact h
    · intro i
      rw [hct, hmap1]
    · intro y
      rw [hct, hmap2]
    · intro x hx
      rw [hct]
      exact hr_pt x hx
  · -- draw the next value, splice and unreserve
    have h2rem : 2 ≤ s.remainingSize := by omega
    have hkdraw : k < s.remainingSize - 1 := by
      rcases hk with h | h
      · exact h
      · exact absurd h hrem1
    have hcne : ((s.remainingSize - 1) != 0) = true := by
      simp
      omega
    have hk2 : k + ((reserveTree s.root (2 ^ (s.rootBits + 1) - 1) ls
        s.nodeStore).1).struckCount < 2 ^ (s.rootBits - 1 + 1) := by
      rw [hbb1, hr_cnt]
      have := hs.hrem
      have := hs.hcap
      omega
    obtain ⟨v, hn1, hn2, hn3, hn4, hn5, hn6, hn7, hn8, hn9⟩ :=
      nextValue_spec (reserveTree s.root (2 ^ (s.rootBits + 1) - 1) ls
          s.nodeStore).1 (s.rootBits - 1) (s.rootBits + 1)
        (2 ^ (s.rootBits + 1) - 1) 0 k
        (reserveTree s.root (2 ^ (s.rootBits + 1) - 1) ls s.nodeStore).2
        hr_wf (by omega) hk2 hr_sok hkey
    rw [hbb1] at hn2 hn7
    have hn_exact := nextValue_exact (reserveTree s.root
        (2 ^ (s.rootBits + 1) - 1) ls s.nodeStore).1 (s.rootBits - 1)
      (s.rootBits + 1) (2 ^ (s.rootBits + 1) - 1) 0 k
      (reserveTree s.root (2 ^ (s.rootBits + 1) - 1) ls s.nodeStore).2
      hr_wf (by omega) hk2 hkey (fun κ h1 h2 => hstX1 κ)
    have hn1b : (nextValue (s.rootBits + 1) (reserveTree s.root
        (2 ^ (s.rootBits + 1) - 1) ls s.nodeStore).1
        (2 ^ (s.rootBits + 1) - 1) 0 k
        (reserveTree s.root (2 ^ (s.rootBits + 1) - 1) ls
          s.nodeStore).2).1 = v := by
      rw [hn1]
      exact Nat.zero_or v
    have hvfacts : struckAt s.root v = false ∧ v ≠ ls := by
      rw [hr_pt v hn2] at hn3
      constructor
      · cases hso : struckAt s.root v
        · rfl
        · rw [hso] at hn3
          simp at hn3
      · intro he
        rw [he] at hn3
        simp at hn3
    have hvuns : struckAt s.root v = false := hvfacts.1
    have hvne : v ≠ ls := hvfacts.2
    have hvsize : v < s.size := by
      apply unstruck_lt_of_unstruckIn (reserveTree s.root
        (2 ^ (s.rootBits + 1) - 1) ls s.nodeStore).1 v s.size
      rw [hn4]
      have hcs := count_eq_size_sub_unstruck (reserveTree s.root
          (2 ^ (s.rootBits + 1) - 1) ls s.nodeStore).1 (s.rootBits - 1)
        s.size hr_wf (by rw [hbb1]; exact hs.hcap)
        (by rw [hbb1]; exact hr_high)
      rw [hr_cnt] at hcs
      have := hs.hrem
      omega
    have hvindex : v ≠ index := by
      rcases hcase2 with ⟨h0, hlsi⟩ | hm
      · rw [hlsi] at hvne
        exact hvne
      · intro he
        obtain ⟨-, hm5, -⟩ := hM hm
        rw [← he, hvuns] at hm5
        exact Bool.noConfusion hm5
    have hstX2g : ∀ κ,
        (nextValue (s.rootBits + 1) (reserveTree s.root
          (2 ^ (s.rootBits + 1) - 1) ls s.nodeStore).1
          (2 ^ (s.rootBits + 1) - 1) 0 k
          (reserveTree s.root (2 ^ (s.rootBits + 1) - 1) ls
            s.nodeStore).2).2.2 κ =
        treeStore (nextValue (s.rootBits + 1) (reserveTree s.root
          (2 ^ (s.rootBits + 1) - 1) ls s.nodeStore).1
          (2 ^ (s.rootBits + 1) - 1) 0 k
          (reserveTree s.root (2 ^ (s.rootBits + 1) - 1) ls
            s.nodeStore).2).2.1 (2 ^ (s.rootBits + 1) - 1) κ := by
      intro κ
      by_cases hgt : 2 ^ (s.rootBits + 1) - 1 < κ
      · rw [treeStore_gt _ _ _ hgt, hn9 κ (Or.inl hgt), hstX1 κ]
        exact treeStore_gt _ _ _ hgt
      · by_cases hlow : (2 ^ (s.rootBits + 1) - 1) + 128 ≤
            κ + 2 ^ (s.rootBits - 1 + 2)
        · exact hn_exact κ hlow (by omega)
        · push_neg at hlow
          rw [hn9 κ (Or.inr hlow), hstX1 κ]
          rw [treeStore_lt_none _ (s.rootBits - 1) _ κ hr_wf hlow]
          rw [treeStore_lt_none _ (s.rootBits - 1) _ κ hn5 hlow]
    have hu_arg : struckAt (nextValue (s.rootBits + 1) (reserveTree s.root
        (2 ^ (s.rootBits + 1) - 1) ls s.nodeStore).1
        (2 ^ (s.rootBits + 1) - 1) 0 k
        (reserveTree s.root (2 ^ (s.rootBits + 1) - 1) ls
          s.nodeStore).2).2.1 (ls % 2 ^ (s.rootBits - 1 + 1)) = true := by
      rw [hbb1, Nat.mod_eq_of_lt hlslt, hn7 ls hlslt, hr_pt ls hlslt]
      simp
    obtain ⟨-, hu_wf, hu_cnt, hu_pt, hu_sok, hu_fr⟩ :=
      unreserveTree_spec (nextValue (s.rootBits + 1) (reserveTree s.root
          (2 ^ (s.rootBits + 1) - 1) ls s.nodeStore).1
          (2 ^ (s.rootBits + 1) - 1) 0 k
          (reserveTree s.root (2 ^ (s.rootBits + 1) - 1) ls
            s.nodeStore).2).2.1 (s.rootBits - 1) (2 ^ (s.rootBits + 1) - 1)
        ls (nextValue (s.rootBits + 1) (reserveTree s.root
          (2 ^ (s.rootBits + 1) - 1) ls s.nodeStore).1
          (2 ^ (s.rootBits + 1) - 1) 0 k
          (reserveTree s.root (2 ^ (s.rootBits + 1) - 1) ls
            s.nodeStore).2).2.2 hn5 hu_arg hn8 hkey
    rw [hbb1] at hu_pt
    rw [Nat.mod_eq_of_lt hlslt] at hu_pt
    have hu_exact := unreserveTree_exact (nextValue (s.rootBits + 1)
        (reserveTree s.root (2 ^ (s.rootBits + 1) - 1) ls s.nodeStore).1
        (2 ^ (s.rootBits + 1) - 1) 0 k
        (reserveTree s.root (2 ^ (s.rootBits + 1) - 1) ls
          s.nodeStore).2).2.1 (s.rootBits - 1) (2 ^ (s.rootBits + 1) - 1)
      ls (nextValue (s.rootBits + 1) (reserveTree s.root
        (2 ^ (s.rootBits + 1) - 1) ls s.nodeStore).1
        (2 ^ (s.rootBits + 1) - 1) 0 k
        (reserveTree s.root (2 ^ (s.rootBits + 1) - 1) ls
          s.nodeStore).2).2.2 hn5 hu_arg hkey (fun κ h1 h2 => hstX2g κ)
    have hstX3g : ∀ κ,
        (unreserveTree (nextValue (s.rootBits + 1) (reserveTree s.root
          (2 ^ (s.rootBits + 1) - 1) ls s.nodeStore).1
          (2 ^ (s.rootBits + 1) - 1) 0 k
          (reserveTree s.root (2 ^ (s.rootBits + 1) - 1) ls
            s.nodeStore).2).2.1 (2 ^ (s.rootBits + 1) - 1) ls
          (nextValue (s.rootBits + 1) (reserveTree s.root
            (2 ^ (s.rootBits + 1) - 1) ls s.nodeStore).1
            (2 ^ (s.rootBits + 1) - 1) 0 k
            (reserveTree s.root (2 ^ (s.rootBits + 1) - 1) ls
              s.nodeStore).2).2.2).2 κ =
        treeStore (unreserveTree (nextValue (s.rootBits + 1)
          (reserveTree s.root (2 ^ (s.rootBits + 1) - 1) ls s.nodeStore).1
          (2 ^ (s.rootBits + 1) - 1) 0 k
          (reserveTree s.root (2 ^ (s.rootBits + 1) - 1) ls
            s.nodeStore).2).2.1 (2 ^ (s.rootBits + 1) - 1) ls
          (nextValue (s.rootBits + 1) (reserveTree s.root
            (2 ^ (s.rootBits + 1) - 1) ls s.nodeStore).1
            (2 ^ (s.rootBits + 1) - 1) 0 k
            (reserveTree s.root (2 ^ (s.rootBits + 1) - 1) ls
              s.nodeStore).2).2.2).1 (2 ^ (s.rootBits + 1) - 1) κ := by
      intro κ
      by_cases hgt : 2 ^ (s.rootBits + 1) - 1 < κ
      · rw [treeStore_gt _ _ _ hgt, hu_fr κ (by rw [hbb2]; exact Or.inl hgt),
          hstX2g κ]
        exact treeStore_gt _ _ _ hgt
      · by_cases hlow : (2 ^ (s.rootBits + 1) - 1) + 128 ≤
            κ + 2 ^ (s.rootBits - 1 + 2)
        · exact hu_exact κ hlow (by omega)
        · push_neg at hlow
          rw [hu_fr κ (Or.inr hlow), hstX2g κ]
          rw [treeStore_lt_none _ (s.rootBits - 1) _ κ hn5 hlow]
          rw [treeStore_lt_none _ (s.rootBits - 1) _ κ hu_wf hlow]
    have hu_cnt2 : ((unreserveTree (nextValue (s.rootBits + 1)
        (reserveTree s.root (2 ^ (s.rootBits + 1) - 1) ls s.nodeStore).1
        (2 ^ (s.rootBits + 1) - 1) 0 k
        (reserveTree s.root (2 ^ (s.rootBits + 1) - 1) ls
          s.nodeStore).2).2.1 (2 ^ (s.rootBits + 1) - 1) ls
        (nextValue (s.rootBits + 1) (reserveTree s.root
          (2 ^ (s.rootBits + 1) - 1) ls s.nodeStore).1
          (2 ^ (s.rootBits + 1) - 1) 0 k
          (reserveTree s.root (2 ^ (s.rootBits + 1) - 1) ls
            s.nodeStore).2).2.2).1).struckCount =
        s.root.struckCount + 1 := by
      rw [hu_cnt, hn6, hr_cnt]
      omega
    have hu_pt2 : ∀ x, x < 2 ^ s.rootBits →
        struckAt (unreserveTree (nextValue (s.rootBits + 1)
          (reserveTree s.root (2 ^ (s.rootBits + 1) - 1) ls s.nodeStore).1
          (2 ^ (s.rootBits + 1) - 1) 0 k
          (reserveTree s.root (2 ^ (s.rootBits + 1) - 1) ls
            s.nodeStore).2).2.1 (2 ^ (s.rootBits + 1) - 1) ls
          (nextValue (s.rootBits + 1) (reserveTree s.root
            (2 ^ (s.rootBits + 1) - 1) ls s.nodeStore).1
            (2 ^ (s.rootBits + 1) - 1) 0 k
            (reserveTree s.root (2 ^ (s.rootBits + 1) - 1) ls
              s.nodeStore).2).2.2).1 x =
          (struckAt s.root x || decide (x = v)) := by
      intro x hx
      rw [hu_pt x hx, hn7 x hx, hr_pt x hx]
      by_cases hxls : x = ls
      · subst hxls
        rw [hlsuns]
        have hd1 : decide (x = v) = false := by
          simp
          intro he
          exact absurd he.symm hvne
        rw [hd1]
        simp
      · have hd2 : decide (x = ls) = false := by
          simp
          exact hxls
        rw [hd2]
        simp
    exact cyclicTail_spec_draw s iv vi index ls k v hs hcyc hidx hls hlsuns
      hcase hcase2 hM h2rem hcne hn1b hvuns hvne hvsize hvindex
      hu_wf hu_cnt2 hu_pt2 hstX3g

theorem valueAt_cyc_spec (s : SState) (index k : Nat) (hs : Inv s)
    (hcyc : s.cyclic = true) (hidx : index < s.size)
    (hk : k < s.remainingSize - 1 ∨ s.remainingSize = 1 ∨
      (∃ v : Nat, s.idx2val index = some (Int.ofNat v))) :
    Inv (valueAt s index k).1 ∧
    (valueAt s index k).1.cyclic = s.cyclic ∧
    (valueAt s index k).1.size = s.size ∧
    (∃ v : Nat, (valueAt s index k).2 = Int.ofNat v ∧ v < s.size ∧
      (valueAt s index k).1.idx2val index = some (Int.ofNat v) ∧
      (2 ≤ s.size → v ≠ index)) ∧
    (∀ i u, s.idx2val i = some (Int.ofNat u) →
      (valueAt s index k).1.idx2val i = some (Int.ofNat u)) ∧
    (∀ v : Nat, s.idx2val index = some (Int.ofNat v) →
      (valueAt s index k).1 = s ∧ (valueAt s index k).2 = Int.ofNat v) := by
  cases hidx2 : s.idx2val index with
  | none =>
    have hva : valueAt s index k =
        cyclicTail s s.idx2val s.val2idx index index (Int.negSucc index)
          k := by
      unfold valueAt
      rw [hcyc, hidx2, intNot_ofNat]
      rfl
    have hlsuns : struckAt s.root index = false := by
      cases h : struckAt s.root index
      · rfl
      · exact absurd hidx2 ((hs.hsur index hidx h).2 hcyc)
    have hk2 : k < s.remainingSize - 1 ∨ s.remainingSize = 1 := by
      rcases hk with h | h | ⟨v, hv⟩
      · exact Or.inl h
      · exact Or.inr h
      · rw [hidx2] at hv
        exact Option.noConfusion hv
    obtain ⟨v, hc1, hc2, hc3, hc4, hc5, hc6, hc7, hc8, hc9, hc10, -⟩ :=
      cyclicTail_spec s s.idx2val s.val2idx index index k hs hcyc hidx hidx
        hlsuns (Or.inl ⟨rfl, rfl, hidx2, rfl⟩) hk2
    rw [← hva] at hc1 hc5 hc6 hc7 hc9 hc10
    refine ⟨hc5, hc6, hc7, ⟨v, hc1, hc2, hc9, hc4⟩, hc10, ?_⟩
    intro u hu
    exact Option.noConfusion hu
  | some x =>
    cases x with
    | ofNat u =>
      have hva : valueAt s index k = (s, Int.ofNat u) := by
        unfold valueAt
        rw [hcyc, hidx2]
        rfl
      obtain ⟨husz, -⟩ := hs.hpos index u hidx2
      refine ⟨by rw [hva]; exact hs, by rw [hva], by rw [hva],
        ⟨u, by rw [hva], husz, ?_, ?_⟩, ?_, ?_⟩
      · rw [hva]
        show s.idx2val index = some (Int.ofNat u)
        exact hidx2
      · intro h2n hui
        rw [hui] at hidx2
        exact hs.hnofix hcyc h2n index hidx2
      · intro i u2 h
        rw [hva]
        exact h
      · intro v hv
        injection hv with hv2
        injection hv2 with hv3
        subst hv3
        exact ⟨by rw [hva], by rw [hva]⟩
    | negSucc m =>
      have hva : valueAt s index k =
          cyclicTail s
            (ivDelete s.idx2val s.val2idx index (Int.negSucc m)).1
            (ivDelete s.idx2val s.val2idx index (Int.negSucc m)).2
            index m (Int.negSucc m) k := by
        unfold valueAt
        rw [hcyc, hidx2]
        show (if Int.negSucc m < 0 then
            cyclicTail s
              (ivDelete s.idx2val s.val2idx index (Int.negSucc m)).1
              (ivDelete s.idx2val s.val2idx index (Int.negSucc m)).2 index
              ((intNot (Int.negSucc m)).toNat) (Int.negSucc m) k
          else (s, Int.negSucc m)) =
          cyclicTail s (ivDelete s.idx2val s.val2idx index (Int.negSucc m)).1
            (ivDelete s.idx2val s.val2idx index (Int.negSucc m)).2 index m
            (Int.negSucc m) k
        rw [intNot_negSucc_toNat]
        rw [if_pos (Int.negSucc_lt_zero m)]

      obtain ⟨-, hm2, hm3, -, -⟩ := hs.hneg index m hidx2
      have hk2 : k < s.remainingSize - 1 ∨ s.remainingSize = 1 := by
        rcases hk with h | h | ⟨v, hv⟩
        · exact Or.inl h
        · exact Or.inr h
        · rw [hidx2] at hv
          injection hv with hv2
          exact Int.noConfusion hv2
      obtain ⟨v, hc1, hc2, hc3, hc4, hc5, hc6, hc7, hc8, hc9, hc10, -⟩ :=
        cyclicTail_spec s
          (ivDelete s.idx2val s.val2idx index (Int.negSucc m)).1
          (ivDelete s.idx2val s.val2idx index (Int.negSucc m)).2
          index m k hs hcyc hidx hm2 hm3 (Or.inr ⟨rfl, rfl, hidx2⟩) hk2
      rw [← hva] at hc1 hc5 hc6 hc7 hc9 hc10
      refine ⟨hc5, hc6, hc7, ⟨v, hc1, hc2, hc9, hc4⟩, hc10, ?_⟩
      intro u hu
      injection hu with hu2
      exact Int.noConfusion hu2
